import Mathlib

/-!
# Meme editor (`src/App.js`): text-overlay compositing engine and permalinks

A shallow embedding of the pure parts of `src/App.js`.

* JavaScript strings are lists of UTF-16 code units (`JSString`), which is what the
  regular expressions of `stripBidi` / `isRTL` (no `u` flag) and `String.prototype.split`
  operate on.
* JavaScript numbers are IEEE 754 binary64 values (`Number`): a finite number is carried as
  the rational it denotes, and every literal, conversion and arithmetic operation rounds to
  the nearest binary64 value, ties to even, overflows to an infinity and has `NaN` where the
  standard has it. The two zeros are one value: the code never divides by a computed zero,
  and the size of a rectangle is `+0` when it is zero. A width the platform measures is
  finite and is carried as a rational. Printing of the finite numbers is a facility of the
  platform (`Platform.numberToString`); JSON number reading rounds the decimal it reads to
  binary64.
* The 2D canvas is a record of paint state plus the list of paint operations issued since
  the surface was last resized. Assignments to context attributes are plain assignments.
  Text measuring depends on the text drawing styles only and, like upper-casing, is a
  parameter (`Platform`).
* The functions of the platform that the permalink code calls (`JSON.stringify`,
  `JSON.parse`, `encodeURIComponent`, `decodeURIComponent`, `escape`, `unescape`, `btoa`,
  `atob`) are defined here from their specifications (ECMAScript, HTML), on code units;
  an exception is an `Except.error`.
* Loops that advance an index by more than one are written with a counter of units still to
  be passed over (`skip`) or a flag for the second unit of a surrogate pair (`paired`).
-/

namespace MemeApp

/-! ## Strings -/

/-- A JavaScript string: its sequence of UTF-16 code units. -/
abbrev JSString := List Nat

/-- UTF-16 encoding of one code point. -/
def utf16 (c : Nat) : List Nat :=
  if c < 0x10000 then [c]
  else [0xD800 + (c - 0x10000) / 0x400, 0xDC00 + (c - 0x10000) % 0x400]

/-- A source-text string literal as a JavaScript string. -/
def lit (s : String) : JSString := s.toList.flatMap fun c => utf16 c.toNat

/-- The code points of a string, as the string iterator yields them: a high surrogate
followed by a low surrogate is one supplementary code point, every other code unit
(lone surrogates included) is a code point of its own. -/
def codePoints : JSString → List Nat
  | [] => []
  | [c] => [c]
  | c :: d :: rest =>
    if 0xD800 ≤ c ∧ c ≤ 0xDBFF ∧ 0xDC00 ≤ d ∧ d ≤ 0xDFFF then
      (0x10000 + (c - 0xD800) * 0x400 + (d - 0xDC00)) :: codePoints rest
    else c :: codePoints (d :: rest)

/-- Model of `s.split(" ")` for a one-unit separator: always at least one piece. -/
def split (sep : Nat) : JSString → List JSString
  | [] => [[]]
  | c :: cs =>
    if c = sep then [] :: split sep cs
    else
      match split sep cs with
      | [] => [[c]]
      | w :: ws => (c :: w) :: ws

/-! ## Numbers (IEEE 754 binary64) -/

/-- A JavaScript number: a finite value, `Infinity`, `-Infinity` or `NaN`. A finite value is
carried as the rational it denotes, and every operation rounds its result to binary64. The
two zeros are one value. -/
inductive Number
  | fin (q : ℚ)
  | posInf
  | negInf
  | nan
  deriving DecidableEq, Repr

namespace Number

/-- The power `2^e` for an integer `e`. -/
def pow2 (e : ℤ) : ℚ :=
  if 0 ≤ e then ((2 ^ e.toNat : ℕ) : ℚ) else 1 / ((2 ^ (-e).toNat : ℕ) : ℚ)

/-- The binary logarithm of a natural number, rounded down (`0` for `0`); `fuel` bounds the
number of halvings. -/
def log2Fuel : Nat → Nat → Nat
  | 0, _ => 0
  | fuel + 1, n => if 2 ≤ n then log2Fuel fuel (n / 2) + 1 else 0

/-- The exponent of a positive rational `q`: the integer `e` with `2^e ≤ q < 2^(e+1)`. -/
def exponent (q : ℚ) : ℤ :=
  let d : ℤ := (log2Fuel q.num.natAbs q.num.natAbs : ℤ) - (log2Fuel q.den q.den : ℤ)
  if pow2 d ≤ q then d else d - 1

/-- The integer nearest to a rational, the even one of the two when it lies half-way. -/
def roundHalfEven (q : ℚ) : ℤ :=
  let f := ⌊q⌋
  if q - f < 1 / 2 then f
  else if 1 / 2 < q - f then f + 1
  else if f % 2 = 0 then f
  else f + 1

/-- Rounding of a rational to binary64 (round to nearest, ties to even): the result is a
multiple of `2^(e-52)`, where `e` is the exponent of the rational and at least `-1022`, and
a result of magnitude `2^1024` is an infinity. -/
def round (q : ℚ) : Number :=
  if q = 0 then fin 0
  else
    let e := max (exponent |q|) (-1022)
    let ulp := pow2 (e - 52)
    let r := (roundHalfEven (q / ulp) : ℚ) * ulp
    if pow2 1024 ≤ |r| then (if q < 0 then negInf else posInf) else fin r

/-- Unary minus. -/
def neg : Number → Number
  | fin q => fin (-q)
  | posInf => negInf
  | negInf => posInf
  | nan => nan

/-- The sum `a + b`. -/
def add : Number → Number → Number
  | fin a, fin b => round (a + b)
  | nan, _ => nan
  | _, nan => nan
  | posInf, negInf => nan
  | negInf, posInf => nan
  | posInf, _ => posInf
  | negInf, _ => negInf
  | fin _, posInf => posInf
  | fin _, negInf => negInf

/-- The difference `a - b`. -/
def sub : Number → Number → Number
  | fin a, fin b => round (a - b)
  | nan, _ => nan
  | _, nan => nan
  | posInf, posInf => nan
  | negInf, negInf => nan
  | posInf, _ => posInf
  | negInf, _ => negInf
  | fin _, posInf => negInf
  | fin _, negInf => posInf

/-- The product `a * b`; zero times an infinity is `NaN`. -/
def mul : Number → Number → Number
  | fin a, fin b => round (a * b)
  | nan, _ => nan
  | _, nan => nan
  | posInf, posInf => posInf
  | posInf, negInf => negInf
  | negInf, posInf => negInf
  | negInf, negInf => posInf
  | posInf, fin b => if b = 0 then nan else if 0 < b then posInf else negInf
  | negInf, fin b => if b = 0 then nan else if 0 < b then negInf else posInf
  | fin a, posInf => if a = 0 then nan else if 0 < a then posInf else negInf
  | fin a, negInf => if a = 0 then nan else if 0 < a then negInf else posInf

/-- The quotient `a / b`; a non-zero number over zero is an infinity, zero over zero and an
infinity over an infinity are `NaN`. -/
def div : Number → Number → Number
  | fin a, fin b =>
    if b = 0 then (if a = 0 then nan else if 0 < a then posInf else negInf)
    else round (a / b)
  | nan, _ => nan
  | _, nan => nan
  | fin _, posInf => fin 0
  | fin _, negInf => fin 0
  | posInf, fin b => if 0 ≤ b then posInf else negInf
  | negInf, fin b => if 0 ≤ b then negInf else posInf
  | posInf, posInf => nan
  | posInf, negInf => nan
  | negInf, posInf => nan
  | negInf, negInf => nan

/-- The comparison `a < b`; false when either is `NaN`. -/
def lt : Number → Number → Bool
  | fin a, fin b => decide (a < b)
  | nan, _ => false
  | _, nan => false
  | negInf, negInf => false
  | negInf, _ => true
  | _, negInf => false
  | posInf, _ => false
  | fin _, posInf => true

/-- The comparison `a <= b`; false when either is `NaN`. -/
def le : Number → Number → Bool
  | fin a, fin b => decide (a ≤ b)
  | nan, _ => false
  | _, nan => false
  | negInf, _ => true
  | _, posInf => true
  | posInf, _ => false
  | fin _, negInf => false

/-- Strict equality `a === b` of numbers: `NaN` equals nothing. -/
def strictEq : Number → Number → Bool
  | nan, _ => false
  | _, nan => false
  | a, b => decide (a = b)

/-- The function `Math.max(a, b)`: `NaN` when either is `NaN`. -/
def max : Number → Number → Number
  | nan, _ => nan
  | _, nan => nan
  | a, b => if lt a b then b else a

/-- The function `Math.min(a, b)`: `NaN` when either is `NaN`. -/
def min : Number → Number → Number
  | nan, _ => nan
  | _, nan => nan
  | a, b => if lt b a then b else a

/-- Whether a number is finite. -/
def isFinite : Number → Bool
  | fin _ => true
  | _ => false

/-- Whether a number is `NaN`. -/
def isNaN : Number → Bool
  | nan => true
  | _ => false

instance : Add Number := ⟨add⟩
instance : Sub Number := ⟨sub⟩
instance : Mul Number := ⟨mul⟩
instance : Div Number := ⟨div⟩
instance : Neg Number := ⟨neg⟩
instance : LT Number := ⟨fun a b => lt a b = true⟩
instance : LE Number := ⟨fun a b => le a b = true⟩
instance (a b : Number) : Decidable (a < b) := inferInstanceAs (Decidable (lt a b = true))
instance (a b : Number) : Decidable (a ≤ b) := inferInstanceAs (Decidable (le a b = true))
instance (n : Nat) : OfNat Number n := ⟨round n⟩
instance : OfScientific Number := ⟨fun m s e => round (OfScientific.ofScientific m s e)⟩
instance : NatCast Number := ⟨fun n => round n⟩

/-- A number as a template literal or a property key shows it (`ToString`); `numberToString`
prints the finite numbers. -/
def toString (numberToString : ℚ → JSString) : Number → JSString
  | fin q => numberToString q
  | posInf => [73, 110, 102, 105, 110, 105, 116, 121]
  | negInf => [45, 73, 110, 102, 105, 110, 105, 116, 121]
  | nan => [78, 97, 78]

end Number

/-! ## Regular-expression character classes (no `u` flag: they test code units) -/

/-- A character class `[a-b c-d ...]`: a list of inclusive code-unit ranges. -/
abbrev CharClass := List (Nat × Nat)

/-- Whether a code unit belongs to the class. -/
def CharClass.has (cls : CharClass) (c : Nat) : Bool :=
  cls.any fun r => decide (r.1 ≤ c) && decide (c ≤ r.2)

/-- Model of `s.replace(/[cls]/g, "")`: every unit of the class is deleted. -/
def replaceClassGlobal (cls : CharClass) (s : JSString) : JSString :=
  s.filter fun c => !cls.has c

/-- Model of `/[cls]/.test(s)`: some unit of `s` is in the class. -/
def testClass (cls : CharClass) (s : JSString) : Bool :=
  s.any cls.has

/-- The class of `stripBidi`'s regular expression (App.js line 48):
`[\u200E\u200F\u202A-\u202E\u2066-\u2069\u061C]`. -/
def bidiClass : CharClass :=
  [(0x200E, 0x200E), (0x200F, 0x200F), (0x202A, 0x202E), (0x2066, 0x2069), (0x061C, 0x061C)]

/-- Model of `stripBidi` (App.js line 48). -/
def stripBidi (s : JSString) : JSString := replaceClassGlobal bidiClass s

/-- The class of `isRTL`'s regular expression (App.js line 51):
`[\u0590-\u05FF\u0600-\u06FF\u0750-\u077F\u08A0-\u08FF]`. -/
def rtlClass : CharClass :=
  [(0x0590, 0x05FF), (0x0600, 0x06FF), (0x0750, 0x077F), (0x08A0, 0x08FF)]

/-- Model of `isRTL` (App.js line 51). -/
def isRTL (s : JSString) : Bool := testClass rtlClass (stripBidi s)

/-! ## Text boxes, canvas state -/

/-- One caption layer (`defaultText`, App.js lines 67-82, gives the field list). -/
structure TextBox where
  id : Number
  text : JSString
  x : Number
  y : Number
  fontSize : Number
  color : JSString
  strokeColor : JSString
  strokeWidth : Number
  fontFamily : JSString
  align : JSString
  bold : Bool
  italic : Bool
  uppercase : Bool
  shadow : Bool
  deriving DecidableEq, Repr

/-- Values of `ctx.direction`. -/
inductive Direction
  | ltr
  | rtl
  | inherit
  deriving DecidableEq, Repr

/-- The text drawing styles of a 2D context: what text measuring may depend on. -/
structure TextStyle where
  font : JSString
  textAlign : JSString
  textBaseline : JSString
  direction : Direction
  deriving DecidableEq, Repr

/-- The paint state of a 2D context that `drawPreview` / `drawTextBox` touch. -/
structure PaintState where
  style : TextStyle
  shadowColor : JSString
  shadowBlur : Number
  shadowOffsetX : Number
  shadowOffsetY : Number
  lineJoin : JSString
  miterLimit : Number
  lineWidth : Number
  strokeStyle : JSString
  fillStyle : JSString
  scaleX : Number
  scaleY : Number
  deriving DecidableEq, Repr

/-- A loaded image element. -/
structure Image where
  src : JSString
  naturalWidth : Nat
  naturalHeight : Nat
  deriving DecidableEq, Repr

/-- A paint operation, recorded with the paint state it was issued under. -/
inductive DrawOp
  | clearRect (x y w h : Number) (st : PaintState)
  | drawImage (img : Image) (x y w h : Number) (st : PaintState)
  | strokeText (text : JSString) (x y : Number) (st : PaintState)
  | fillText (text : JSString) (x y : Number) (st : PaintState)
  deriving DecidableEq, Repr

/-- A 2D rendering context: current paint state and the operations painted so far. -/
structure Ctx where
  state : PaintState
  log : List DrawOp
  deriving DecidableEq, Repr

/-- A canvas element: its bitmap size and its 2D context. -/
structure Canvas where
  width : Nat
  height : Nat
  ctx : Ctx
  deriving DecidableEq, Repr

/-- Facilities of the platform that the source calls but does not define. -/
structure Platform where
  /-- The `width` of `ctx.measureText(s)` under the context's text drawing styles: a finite
  number. -/
  measureText : TextStyle → JSString → ℚ
  /-- The method `String.prototype.toUpperCase`. -/
  toUpperCase : JSString → JSString
  /-- Number-to-string conversion of the finite numbers, as a template literal and
  `JSON.stringify` apply it. -/
  numberToString : ℚ → JSString

/-- The state a 2D context is reset to when its canvas is resized. -/
def PaintState.initial : PaintState where
  style := { font := lit "10px sans-serif", textAlign := lit "start",
             textBaseline := lit "alphabetic", direction := Direction.inherit }
  shadowColor := lit "rgba(0, 0, 0, 0)"
  shadowBlur := 0
  shadowOffsetX := 0
  shadowOffsetY := 0
  lineJoin := lit "miter"
  miterLimit := 10
  lineWidth := 1
  strokeStyle := lit "#000000"
  fillStyle := lit "#000000"
  scaleX := 1
  scaleY := 1

/-- Assigning `canvas.width` / `canvas.height`: the bitmap is cleared and the context is
reset to its initial state. -/
def Canvas.resize (w h : Nat) : Canvas :=
  { width := w, height := h, ctx := { state := PaintState.initial, log := [] } }

/-- Model of `ctx.scale(sx, sy)`. -/
def Ctx.scale (ctx : Ctx) (sx sy : Number) : Ctx :=
  { ctx with state := { ctx.state with scaleX := ctx.state.scaleX * sx,
                                       scaleY := ctx.state.scaleY * sy } }

/-- Model of `ctx.clearRect(x, y, w, h)`. -/
def Ctx.clearRect (ctx : Ctx) (x y w h : Number) : Ctx :=
  { ctx with log := ctx.log ++ [DrawOp.clearRect x y w h ctx.state] }

/-- Model of `ctx.drawImage(img, x, y, w, h)`. -/
def Ctx.drawImage (ctx : Ctx) (img : Image) (x y w h : Number) : Ctx :=
  { ctx with log := ctx.log ++ [DrawOp.drawImage img x y w h ctx.state] }

/-- Model of `ctx.strokeText(text, x, y)`. -/
def Ctx.strokeText (ctx : Ctx) (text : JSString) (x y : Number) : Ctx :=
  { ctx with log := ctx.log ++ [DrawOp.strokeText text x y ctx.state] }

/-- Model of `ctx.fillText(text, x, y)`. -/
def Ctx.fillText (ctx : Ctx) (text : JSString) (x y : Number) : Ctx :=
  { ctx with log := ctx.log ++ [DrawOp.fillText text x y ctx.state] }

/-- Model of `FONTS[0].css` (App.js line 39). -/
def FONTS0 : JSString := lit "Impact, Haettenschweiler, 'Arial Black', sans-serif"

/-- Model of `defaultText(id)` (App.js lines 67-82). -/
def defaultText (id : Number) : TextBox where
  id := id
  text := if Number.strictEq id 1 then lit "TOP TEXT" else lit "BOTTOM TEXT"
  x := 0.5
  y := if Number.strictEq id 1 then 0.08 else 0.92
  fontSize := 48
  color := lit "#ffffff"
  strokeColor := lit "#000000"
  strokeWidth := 2
  fontFamily := FONTS0
  align := lit "center"
  bold := true
  italic := false
  uppercase := true
  shadow := true

/-! ## `wrapText` (App.js lines 244-267) -/

/-- Model of `testLine` of `wrapText` (line 249): `line + (line ? " " : "") + words[n]`. -/
def testLine (line w : JSString) : JSString :=
  line ++ (if line ≠ [] then [32] else []) ++ w

/-- The `for` loop of `wrapText` (lines 248-257) from index `n` on: `words` are the words
not yet visited, `lines` the lines flushed so far, `line` the current line. Returns the
final `lines` and `line`. -/
def wrapLoop (measure : JSString → ℚ) (maxWidth : ℚ) :
    Nat → List JSString → List JSString → JSString → List JSString × JSString
  | _, [], lines, line => (lines, line)
  | n, w :: ws, lines, line =>
    if measure (testLine line w) > maxWidth ∧ n > 0 then
      wrapLoop measure maxWidth (n + 1) ws (lines ++ [line]) w
    else
      wrapLoop measure maxWidth (n + 1) ws lines (testLine line w)

/-- The array `lines` of `wrapText` after line 258. -/
def wrapLines (measure : JSString → ℚ) (text : JSString) (maxWidth : ℚ) : List JSString :=
  let r := wrapLoop measure maxWidth 0 (split 32 text) [] []
  r.1 ++ [r.2]

/-- The array `lines` of `wrapText` after line 258 for a number `maxWidth`. A measured width
is finite, so the test `metrics.width > maxWidth` of line 251 is the comparison of the width
with a finite `maxWidth`, fails for every width when `maxWidth` is `Infinity` or `NaN` and
holds for every width when `maxWidth` is `-Infinity`. -/
def wrapLinesNum (measure : JSString → ℚ) (text : JSString) : Number → List JSString
  | Number.fin q => wrapLines measure text q
  | Number.negInf => wrapLines (fun _ => 1) text 0
  | Number.posInf => wrapLines (fun _ => 0) text 0
  | Number.nan => wrapLines (fun _ => 0) text 0

/-- The `lines.forEach` of `wrapText` (lines 263-266): `drawFn` is called on every line with
the running `drawY`, which then grows by `lineHeight`. -/
def drawLoop {σ : Type} (drawFn : σ → JSString → Number → σ) (lineHeight : Number) :
    List JSString → Number → σ → σ
  | [], _, s => s
  | ln :: rest, drawY, s => drawLoop drawFn lineHeight rest (drawY + lineHeight) (drawFn s ln drawY)

/-- Model of `wrapText(ctx, text, x, y, maxWidth, lineHeight, drawFn)`; `measure` is
`ctx.measureText(·).width` for the context it is called with, and `s` is the state the
callback `drawFn` acts on. -/
def wrapText {σ : Type} (measure : JSString → ℚ) (text : JSString)
    (_x y maxWidth lineHeight : Number) (drawFn : σ → JSString → Number → σ) (s : σ) : σ :=
  let lines := wrapLinesNum measure text maxWidth
  let totalHeight := ((lines.length : Number) - 1) * lineHeight
  let drawY := y - totalHeight / 2
  drawLoop drawFn lineHeight lines drawY s

/-! ## `drawTextBox` and `drawPreview` (App.js lines 185-238) -/

/-- Lines 206-224 of `drawTextBox`: direction, font, alignment, baseline and shadow are
assigned from the box. -/
def setTextAndShadow (P : Platform) (st : PaintState) (b : TextBox) : PaintState :=
  let font := (if b.italic then lit "italic " else []) ++ (if b.bold then lit "700 " else [])
    ++ b.fontSize.toString P.numberToString ++ lit "px " ++ b.fontFamily
  let st := { st with style := { st.style with
    direction := if isRTL b.text then Direction.rtl else Direction.ltr } }
  let st := { st with style := { st.style with font := font } }
  let st := { st with style := { st.style with textAlign := b.align } }
  let st := { st with style := { st.style with textBaseline := lit "middle" } }
  if b.shadow then
    { st with shadowColor := lit "rgba(0,0,0,.5)", shadowBlur := 8,
              shadowOffsetX := 0, shadowOffsetY := 2 }
  else
    { st with shadowColor := lit "transparent", shadowBlur := 0 }

/-- Lines 228-231 of `drawTextBox`: the stroke settings. -/
def setStroke (st : PaintState) (b : TextBox) : PaintState :=
  { st with lineJoin := lit "round", miterLimit := 2,
            lineWidth := b.strokeWidth, strokeStyle := b.strokeColor }

/-- Model of `drawTextBox(ctx, b, width, height)`. -/
def drawTextBox (P : Platform) (ctx : Ctx) (b : TextBox) (width height : Number) : Ctx :=
  let x := b.x * width
  let y := b.y * height
  let text := if b.uppercase then P.toUpperCase b.text else b.text
  let ctx : Ctx := { ctx with state := setTextAndShadow P ctx.state b }
  let ctx : Ctx :=
    if b.strokeWidth > 0 then
      let ctx : Ctx := { ctx with state := setStroke ctx.state b }
      wrapText (P.measureText ctx.state.style) text x y (width * 0.9) (b.fontSize * 1.2)
        (fun c line ly => c.strokeText line x ly) ctx
    else ctx
  let ctx : Ctx := { ctx with state := { ctx.state with fillStyle := b.color } }
  wrapText (P.measureText ctx.state.style) text x y (width * 0.9) (b.fontSize * 1.2)
    (fun c line ly => c.fillText line x ly) ctx

/-- Model of `drawPreview()`: `canvas` is `canvasRef.current`, `img` the loaded image (`none` for
`null`), `boxes` the boxes of the active image. The result is the canvas afterwards. -/
def drawPreview (P : Platform) (canvas : Option Canvas) (img : Option Image)
    (boxes : List TextBox) : Option Canvas :=
  match canvas, img with
  | some _, some i =>
    let dpi : Nat := 2
    let width := i.naturalWidth
    let height := i.naturalHeight
    let cv := Canvas.resize (width * dpi) (height * dpi)
    let ctx := cv.ctx.scale dpi dpi
    let ctx := ctx.clearRect 0 0 width height
    let ctx := ctx.drawImage i 0 0 width height
    let ctx := boxes.foldl (fun c b => drawTextBox P c b width height) ctx
    some { cv with ctx := ctx }
  | c, _ => c

/-! ## Platform string functions of the permalink codec -/

/-- Exceptions the codec functions throw. -/
inductive JSError
  | uriError
  | invalidCharacterError
  | syntaxError
  deriving DecidableEq, Repr

/-- Value of a hexadecimal digit, either case. -/
def hexDigitValue (c : Nat) : Option Nat :=
  if 48 ≤ c ∧ c ≤ 57 then some (c - 48)
  else if 65 ≤ c ∧ c ≤ 70 then some (c - 55)
  else if 97 ≤ c ∧ c ≤ 102 then some (c - 87)
  else none

/-- Upper-case hexadecimal digit of a value below 16. -/
def hexUpper (n : Nat) : Nat := if n < 10 then 48 + n else 55 + n

/-- Lower-case hexadecimal digit of a value below 16. -/
def hexLower (n : Nat) : Nat := if n < 10 then 48 + n else 87 + n

/-- ASCII letters and digits. -/
def isAlnum (c : Nat) : Bool :=
  (48 ≤ c && c ≤ 57) || (65 ≤ c && c ≤ 90) || (97 ≤ c && c ≤ 122)

/-- The set `uriUnreserved`: letters, digits and `-_.!~*'()`. -/
def uriUnreserved (c : Nat) : Bool :=
  isAlnum c || c = 45 || c = 95 || c = 46 || c = 33 || c = 126 || c = 42 || c = 39
    || c = 40 || c = 41

/-- The characters `escape` leaves alone: letters, digits and `@*_+-./`. -/
def escapeUnescaped (c : Nat) : Bool :=
  isAlnum c || c = 64 || c = 42 || c = 95 || c = 43 || c = 45 || c = 46 || c = 47

/-- The escape `%XX` of an octet, upper-case. -/
def pctOctet (b : Nat) : List Nat := [37, hexUpper (b / 16), hexUpper (b % 16)]

/-- UTF-8 encoding of a code point. -/
def utf8Encode (cp : Nat) : List Nat :=
  if cp < 0x80 then [cp]
  else if cp < 0x800 then [0xC0 + cp / 64, 0x80 + cp % 64]
  else if cp < 0x10000 then [0xE0 + cp / 4096, 0x80 + cp / 64 % 64, 0x80 + cp % 64]
  else [0xF0 + cp / 262144, 0x80 + cp / 4096 % 64, 0x80 + cp / 64 % 64, 0x80 + cp % 64]

/-- The loop of `encodeURIComponent` over the code points of a string; `paired` says that
the unit at hand is the trailing surrogate of a pair already encoded with its leading
surrogate. -/
def encodeLoop : Bool → JSString → Except JSError JSString
  | _, [] => .ok []
  | true, _ :: rest => encodeLoop false rest
  | false, c :: rest =>
    if uriUnreserved c then (encodeLoop false rest).map (c :: ·)
    else if 0xD800 ≤ c ∧ c ≤ 0xDBFF then
      match rest.head? with
      | some d =>
        if 0xDC00 ≤ d ∧ d ≤ 0xDFFF then
          (encodeLoop true rest).map
            ((utf8Encode (0x10000 + (c - 0xD800) * 0x400 + (d - 0xDC00))).flatMap pctOctet ++ ·)
        else .error .uriError
      | none => .error .uriError
    else if 0xDC00 ≤ c ∧ c ≤ 0xDFFF then .error .uriError
    else (encodeLoop false rest).map ((utf8Encode c).flatMap pctOctet ++ ·)

/-- Model of `encodeURIComponent(s)`: units of `uriUnreserved` are kept, every other code point is
replaced by the `%XX` escapes of its UTF-8 octets; an unpaired surrogate throws. -/
def encodeURIComponent (s : JSString) : Except JSError JSString := encodeLoop false s

/-- A unit of a string under decoding: a literal code unit or the octet of a `%XX`. -/
inductive UriItem
  | unit (c : Nat)
  | octet (b : Nat)
  deriving DecidableEq, Repr

/-- The octet named by the two hexadecimal digits at the head of `rest`, if any. -/
def hexOctetAt (rest : JSString) : Option Nat :=
  match rest with
  | h1 :: h2 :: _ =>
    match hexDigitValue h1, hexDigitValue h2 with
    | some a, some b => some (16 * a + b)
    | _, _ => none
  | _ => none

/-- The loop that splits a string into literal units and `%XX` escapes; it fails when a `%`
is not followed by two hexadecimal digits. `skip` units are still to be passed over. -/
def uriItemsLoop : Nat → JSString → Option (List UriItem)
  | _, [] => some []
  | skip + 1, _ :: rest => uriItemsLoop skip rest
  | 0, c :: rest =>
    if c = 37 then
      match hexOctetAt rest with
      | some b => (uriItemsLoop 2 rest).map (UriItem.octet b :: ·)
      | none => none
    else (uriItemsLoop 0 rest).map (UriItem.unit c :: ·)

/-- The literal units and `%XX` escapes of a string. -/
def uriItems (s : JSString) : Option (List UriItem) := uriItemsLoop 0 s

/-- Whether an octet is a UTF-8 continuation octet `10xxxxxx`. -/
def isCont (b : Nat) : Bool := 0x80 ≤ b && b ≤ 0xBF

/-- Well-formed UTF-8 sequences of two to four octets (Unicode, table 3-7). -/
def utf8Valid : List Nat → Bool
  | [b0, b1] => 0xC2 ≤ b0 && b0 ≤ 0xDF && isCont b1
  | [b0, b1, b2] =>
    ((b0 = 0xE0 && 0xA0 ≤ b1 && b1 ≤ 0xBF)
      || (0xE1 ≤ b0 && b0 ≤ 0xEC && isCont b1)
      || (b0 = 0xED && 0x80 ≤ b1 && b1 ≤ 0x9F)
      || (0xEE ≤ b0 && b0 ≤ 0xEF && isCont b1)) && isCont b2
  | [b0, b1, b2, b3] =>
    ((b0 = 0xF0 && 0x90 ≤ b1 && b1 ≤ 0xBF)
      || (0xF1 ≤ b0 && b0 ≤ 0xF3 && isCont b1)
      || (b0 = 0xF4 && 0x80 ≤ b1 && b1 ≤ 0x8F)) && isCont b2 && isCont b3
  | _ => false

/-- The code point of a UTF-8 sequence of two to four octets. -/
def utf8Value : List Nat → Nat
  | [b0, b1] => (b0 - 0xC0) * 64 + (b1 - 0x80)
  | [b0, b1, b2] => (b0 - 0xE0) * 4096 + (b1 - 0x80) * 64 + (b2 - 0x80)
  | [b0, b1, b2, b3] =>
    (b0 - 0xF0) * 262144 + (b1 - 0x80) * 4096 + (b2 - 0x80) * 64 + (b3 - 0x80)
  | _ => 0

/-- The octets of the first `n` items, when these are all escapes. -/
def takeOctets : Nat → List UriItem → Option (List Nat)
  | 0, _ => some []
  | _ + 1, [] => none
  | _ + 1, UriItem.unit _ :: _ => none
  | n + 1, UriItem.octet b :: rest => (takeOctets n rest).map (b :: ·)

/-- The number of leading one bits of an octet, 5 standing for 5 or more. -/
def leadingOnes (b : Nat) : Nat :=
  if b < 0x80 then 0 else if b < 0xC0 then 1 else if b < 0xE0 then 2 else if b < 0xF0 then 3
  else if b < 0xF8 then 4 else 5

/-- What the escape of octet `b` decodes to, given the items after it, and how many of
these it takes: an octet below `0x80` is its character; an octet with `n` leading one bits
(`n` = 2, 3, 4) must be followed by `n - 1` further escapes that together are a well-formed
UTF-8 sequence, which gives the UTF-16 units of its code point; anything else fails. -/
def utf8At (b : Nat) (rest : List UriItem) : Option (JSString × Nat) :=
  if leadingOnes b = 0 then some ([b], 0)
  else if leadingOnes b = 1 ∨ leadingOnes b > 4 then none
  else
    match takeOctets (leadingOnes b - 1) rest with
    | none => none
    | some os =>
      if utf8Valid (b :: os) then some (utf16 (utf8Value (b :: os)), leadingOnes b - 1)
      else none

/-- The loop of the decoding over the items; `skip` items are still to be passed over. -/
def decodeItemsLoop : Nat → List UriItem → Option JSString
  | _, [] => some []
  | skip + 1, _ :: rest => decodeItemsLoop skip rest
  | 0, UriItem.unit c :: rest => (decodeItemsLoop 0 rest).map (c :: ·)
  | 0, UriItem.octet b :: rest =>
    match utf8At b rest with
    | none => none
    | some (units, n) => (decodeItemsLoop n rest).map (units ++ ·)

/-- Decoding of the items of a string. -/
def decodeItems (items : List UriItem) : Option JSString := decodeItemsLoop 0 items

/-- Model of `decodeURIComponent(s)`; a malformed escape throws `URIError`. -/
def decodeURIComponent (s : JSString) : Except JSError JSString :=
  match (uriItems s).bind decodeItems with
  | some r => .ok r
  | none => .error .uriError

/-- Model of `escape(s)`: letters, digits and `@*_+-./` are kept, other units below 256 become `%XX`
and the rest `%uXXXX`. -/
def escape (s : JSString) : JSString :=
  s.flatMap fun c =>
    if escapeUnescaped c then [c]
    else if c < 256 then pctOctet c
    else [37, 117, hexUpper (c / 4096 % 16), hexUpper (c / 256 % 16), hexUpper (c / 16 % 16),
          hexUpper (c % 16)]

/-- The unit a `%` stands for in `unescape` and how many further units it takes, given the
units after it: `%uXXXX` gives the unit `XXXX` and takes 5, `%XX` gives `XX` and takes 2,
anything else leaves the `%` and takes none. -/
def unescapeAt (rest : JSString) : Nat × Nat :=
  match rest with
  | a :: b :: c1 :: d1 :: e1 :: _ =>
    if a = 117 then
      match hexDigitValue b, hexDigitValue c1, hexDigitValue d1, hexDigitValue e1 with
      | some x3, some x2, some x1, some x0 => (4096 * x3 + 256 * x2 + 16 * x1 + x0, 5)
      | _, _, _, _ => (37, 0)
    else
      match hexDigitValue a, hexDigitValue b with
      | some x1, some x0 => (16 * x1 + x0, 2)
      | _, _ => (37, 0)
  | a :: b :: _ =>
    match hexDigitValue a, hexDigitValue b with
    | some x1, some x0 => (16 * x1 + x0, 2)
    | _, _ => (37, 0)
  | _ => (37, 0)

/-- The loop of `unescape`; `skip` units are still to be passed over. -/
def unescapeLoop : Nat → JSString → JSString
  | _, [] => []
  | skip + 1, _ :: rest => unescapeLoop skip rest
  | 0, c :: rest =>
    if c = 37 then (unescapeAt rest).1 :: unescapeLoop (unescapeAt rest).2 rest
    else c :: unescapeLoop 0 rest

/-- Model of `unescape(s)`: `%uXXXX` and `%XX` are replaced by the code unit they name; a `%` not
followed by such digits is kept. -/
def unescape (s : JSString) : JSString := unescapeLoop 0 s

/-- The base64 character of a six-bit value. -/
def b64Char (n : Nat) : Nat :=
  if n < 26 then 65 + n else if n < 52 then 71 + n else if n < 62 then n - 4
  else if n = 62 then 43 else 47

/-- The six-bit value of a base64 character. -/
def b64Value (c : Nat) : Option Nat :=
  if 65 ≤ c ∧ c ≤ 90 then some (c - 65)
  else if 97 ≤ c ∧ c ≤ 122 then some (c - 71)
  else if 48 ≤ c ∧ c ≤ 57 then some (c + 4)
  else if c = 43 then some 62
  else if c = 47 then some 63
  else none

/-- Base64 encoding of a sequence of octets, with `=` padding. -/
def b64Encode : List Nat → List Nat
  | [] => []
  | [a] => [b64Char (a / 4), b64Char (a % 4 * 16), 61, 61]
  | [a, b] => [b64Char (a / 4), b64Char (a % 4 * 16 + b / 16), b64Char (b % 16 * 4), 61]
  | a :: b :: c :: rest =>
    b64Char (a / 4) :: b64Char (a % 4 * 16 + b / 16) :: b64Char (b % 16 * 4 + c / 64)
      :: b64Char (c % 64) :: b64Encode rest

/-- Model of `btoa(s)`: throws when a unit is above `0xFF`, else the base64 of the units as octets. -/
def btoa (s : JSString) : Except JSError JSString :=
  if s.all (· ≤ 0xFF) then .ok (b64Encode s) else .error .invalidCharacterError

/-- ASCII whitespace: tab, line feed, form feed, carriage return, space. -/
def isAsciiWhitespace (c : Nat) : Bool := c = 9 || c = 10 || c = 12 || c = 13 || c = 32

/-- Octets of a sequence of six-bit values: 24 bits give three octets; a final group of 12
bits gives one octet and of 18 bits two, the spare bits being discarded. -/
def b64DecodeValues : List Nat → List Nat
  | a :: b :: c :: d :: rest =>
    (a * 4 + b / 16) :: (b % 16 * 16 + c / 4) :: (c % 4 * 64 + d) :: b64DecodeValues rest
  | [a, b, c] => [a * 4 + b / 16, b % 16 * 16 + c / 4]
  | [a, b] => [a * 4 + b / 16]
  | _ => []

/-- Removal of one or two final `=` of a string whose length is a multiple of 4. -/
def stripPadding (s : JSString) : JSString :=
  if s.length % 4 = 0 then
    if s.getLast? = some 61 then
      if s.dropLast.getLast? = some 61 then s.dropLast.dropLast else s.dropLast
    else s
  else s

/-- The six-bit values of a string of base64 characters; `none` when a character is outside
the alphabet. -/
def b64Values : JSString → Option (List Nat)
  | [] => some []
  | c :: rest =>
    match b64Value c, b64Values rest with
    | some v, some vs => some (v :: vs)
    | _, _ => none

/-- Model of `atob(s)`, the forgiving-base64 decode: whitespace is removed, then the padding; a
length that leaves remainder 1 modulo 4 or a character outside the alphabet throws. -/
def atob (s : JSString) : Except JSError JSString :=
  let data := stripPadding (s.filter fun c => !isAsciiWhitespace c)
  if data.length % 4 = 1 then .error .invalidCharacterError
  else
    match b64Values data with
    | some vs => .ok (b64DecodeValues vs)
    | none => .error .invalidCharacterError


/-! ## JSON -/

/-- The values `JSON.parse` produces and `JSON.stringify` reads. An object is its list of own
properties in insertion order. -/
inductive JSValue
  | null
  | bool (b : Bool)
  | num (q : Number)
  | str (s : JSString)
  | arr (xs : List JSValue)
  | obj (props : List (JSString × JSValue))

/-- The escape `\uXXXX` of a code unit, lower-case. -/
def unicodeEscape (c : Nat) : List Nat :=
  [92, 117, hexLower (c / 4096 % 16), hexLower (c / 256 % 16), hexLower (c / 16 % 16),
   hexLower (c % 16)]

/-- What `QuoteJSONString` writes for a code point that is a single code unit: the short
escapes of the control characters, `\"` and `\\`, `\uXXXX` for the other control characters
and for an unpaired surrogate, the unit itself otherwise. -/
def quoteUnit (c : Nat) : List Nat :=
  if c = 8 then [92, 98]
  else if c = 9 then [92, 116]
  else if c = 10 then [92, 110]
  else if c = 12 then [92, 102]
  else if c = 13 then [92, 114]
  else if c = 34 then [92, 34]
  else if c = 92 then [92, 92]
  else if c < 0x20 then unicodeEscape c
  else if 0xD800 ≤ c ∧ c ≤ 0xDFFF then unicodeEscape c
  else [c]

/-- The loop of `QuoteJSONString` over the code points of a string: a surrogate pair is
copied, any other unit is written as `quoteUnit` says. `paired` says that the unit at hand
is the trailing surrogate of a pair whose leading surrogate was just copied. -/
def quoteLoop : Bool → JSString → JSString
  | _, [] => []
  | true, d :: rest => d :: quoteLoop false rest
  | false, c :: rest =>
    if (0xD800 ≤ c ∧ c ≤ 0xDBFF)
        ∧ rest.head?.any (fun d => decide (0xDC00 ≤ d) && decide (d ≤ 0xDFFF)) = true then
      c :: quoteLoop true rest
    else quoteUnit c ++ quoteLoop false rest

/-- Model of `QuoteJSONString`: the string between double quotes, with `"`, `\` and control
characters escaped and unpaired surrogates written as `\uXXXX`. -/
def quoteJSONString (s : JSString) : JSString := 34 :: quoteLoop false s ++ [34]

mutual
/-- Model of `JSON.stringify(v)` without indentation; `numberToString` prints the finite
numbers, and `NaN` and the infinities are written `null`. -/
def stringify (numberToString : ℚ → JSString) : JSValue → JSString
  | JSValue.null => [110, 117, 108, 108]
  | JSValue.bool true => [116, 114, 117, 101]
  | JSValue.bool false => [102, 97, 108, 115, 101]
  | JSValue.num (Number.fin q) => numberToString q
  | JSValue.num Number.posInf => [110, 117, 108, 108]
  | JSValue.num Number.negInf => [110, 117, 108, 108]
  | JSValue.num Number.nan => [110, 117, 108, 108]
  | JSValue.str s => quoteJSONString s
  | JSValue.arr xs => 91 :: stringifyElements numberToString xs ++ [93]
  | JSValue.obj ps => 123 :: stringifyMembers numberToString ps ++ [125]
/-- The elements of an array, separated by commas. -/
def stringifyElements (numberToString : ℚ → JSString) : List JSValue → JSString
  | [] => []
  | [x] => stringify numberToString x
  | x :: y :: xs => stringify numberToString x ++ 44 :: stringifyElements numberToString (y :: xs)
/-- The members `"key":value` of an object, separated by commas. -/
def stringifyMembers (numberToString : ℚ → JSString) : List (JSString × JSValue) → JSString
  | [] => []
  | [(k, v)] => quoteJSONString k ++ 58 :: stringify numberToString v
  | (k, v) :: q :: ps =>
    quoteJSONString k ++ 58 :: stringify numberToString v
      ++ 44 :: stringifyMembers numberToString (q :: ps)
end

/-- JSON white space: tab, line feed, carriage return, space. -/
def isJSONWhitespace (c : Nat) : Bool := c = 9 || c = 10 || c = 13 || c = 32

/-- Drops leading JSON white space. -/
def skipWs : JSString → JSString
  | [] => []
  | c :: rest => if isJSONWhitespace c then skipWs rest else c :: rest

/-- The unit an escape stands for in a JSON string and how many units it takes after the
backslash, given the units after the backslash. -/
def jsonEscapeAt (rest : JSString) : Option (Nat × Nat) :=
  match rest with
  | [] => none
  | e :: t =>
    if e = 34 then some (34, 1)
    else if e = 92 then some (92, 1)
    else if e = 47 then some (47, 1)
    else if e = 98 then some (8, 1)
    else if e = 102 then some (12, 1)
    else if e = 110 then some (10, 1)
    else if e = 114 then some (13, 1)
    else if e = 116 then some (9, 1)
    else if e = 117 then
      match t with
      | a :: b :: c :: d :: _ =>
        match hexDigitValue a, hexDigitValue b, hexDigitValue c, hexDigitValue d with
        | some x3, some x2, some x1, some x0 => some (4096 * x3 + 256 * x2 + 16 * x1 + x0, 5)
        | _, _, _, _ => none
      | _ => none
    else none

/-- The characters of a JSON string after its opening quote, up to the closing quote:
the decoded string and the input after the closing quote. `skip` units are still to be
passed over. -/
def parseStringLoop : Nat → JSString → Option (JSString × JSString)
  | _, [] => none
  | skip + 1, _ :: rest => parseStringLoop skip rest
  | 0, c :: rest =>
    if c = 34 then some ([], rest)
    else if c = 92 then
      match jsonEscapeAt rest with
      | some (u, n) => (parseStringLoop n rest).map fun r => (u :: r.1, r.2)
      | none => none
    else if c < 0x20 then none
    else (parseStringLoop 0 rest).map fun r => (c :: r.1, r.2)

/-- Decimal digits `0`-`9`. -/
def isDigit (c : Nat) : Bool := 48 ≤ c && c ≤ 57

/-- The characters a JSON number is made of. -/
def isNumChar (c : Nat) : Bool := isDigit c || c = 43 || c = 45 || c = 46 || c = 69 || c = 101

/-- The number a string of decimal digits denotes. -/
def digitsValue (ds : List Nat) : Nat := ds.foldl (fun acc d => 10 * acc + (d - 48)) 0

/-- The exponent part of a JSON number: empty, or `e`/`E`, an optional sign and digits. -/
def parseExponent (s : JSString) : Option ℤ :=
  match s with
  | [] => some 0
  | e :: t =>
    if e = 101 ∨ e = 69 then
      match t with
      | [] => none
      | sg :: ds =>
        if sg = 45 then
          if ds ≠ [] ∧ ds.all isDigit then some (-(digitsValue ds : ℤ)) else none
        else if sg = 43 then
          if ds ≠ [] ∧ ds.all isDigit then some (digitsValue ds : ℤ) else none
        else if t.all isDigit then some (digitsValue t : ℤ) else none
    else none

/-- The number `m × 10^e`. -/
def decimalValue (m : Nat) (e : ℤ) : ℚ :=
  if 0 ≤ e then ((m * 10 ^ e.toNat : ℕ) : ℚ) else mkRat m (10 ^ (-e).toNat)

/-- The value of an unsigned JSON number `int frac? exp?`: its digits, scaled by the
exponent less the number of fraction digits. -/
def parseUnsigned (s : JSString) : Option ℚ :=
  let intDs := s.takeWhile isDigit
  let s1 := s.dropWhile isDigit
  if intDs = [] ∨ (intDs.length > 1 ∧ intDs.head? = some 48) then none
  else
    let fracDs := match s1 with
      | 46 :: t => t.takeWhile isDigit
      | _ => []
    let s2 := match s1 with
      | 46 :: t => t.dropWhile isDigit
      | _ => s1
    if s1.head? = some 46 ∧ fracDs = [] then none
    else
      match parseExponent s2 with
      | none => none
      | some e => some (decimalValue (digitsValue (intDs ++ fracDs)) (e - fracDs.length))

/-- The value of a JSON number token `-? int frac? exp?` as a rational; `none` when the
token is not a JSON number. -/
def parseNumberToken (s : JSString) : Option ℚ :=
  match s with
  | 45 :: t => (parseUnsigned t).map fun q => -q
  | _ => parseUnsigned s

/-- Sets property `k` of a property list: an existing property keeps its place and takes
the new value, a new property is added at the end. -/
def setProp (ps : List (JSString × JSValue)) (k : JSString) (v : JSValue) :
    List (JSString × JSValue) :=
  match ps with
  | [] => [(k, v)]
  | (k', v') :: rest => if k' = k then (k, v) :: rest else (k', v') :: setProp rest k v

/-- The input after the units `t`, when the input `s` starts with them. -/
def expectUnits (t s : JSString) : Option JSString :=
  if t.isPrefixOf s then some (s.drop t.length) else none

mutual
/-- A JSON value at the head of the input, after white space: the value and the rest. -/
def parseValue : Nat → JSString → Option (JSValue × JSString)
  | 0, _ => none
  | fuel + 1, s =>
    match skipWs s with
    | [] => none
    | c :: rest =>
      if c = 123 then
        match skipWs rest with
        | 125 :: r => some (JSValue.obj [], r)
        | _ => (parseMembers fuel rest).map fun r =>
            (JSValue.obj (r.1.foldl (fun acc kv => setProp acc kv.1 kv.2) []), r.2)
      else if c = 91 then
        match skipWs rest with
        | 93 :: r => some (JSValue.arr [], r)
        | _ => (parseElements fuel rest).map fun r => (JSValue.arr r.1, r.2)
      else if c = 34 then (parseStringLoop 0 rest).map fun r => (JSValue.str r.1, r.2)
      else if c = 116 then (expectUnits [114, 117, 101] rest).map fun r => (JSValue.bool true, r)
      else if c = 102 then
        (expectUnits [97, 108, 115, 101] rest).map fun r => (JSValue.bool false, r)
      else if c = 110 then (expectUnits [117, 108, 108] rest).map fun r => (JSValue.null, r)
      else if c = 45 ∨ isDigit c then
        (parseNumberToken ((c :: rest).takeWhile isNumChar)).map fun q =>
          (JSValue.num (Number.round q), (c :: rest).dropWhile isNumChar)
      else none
/-- The elements of a non-empty array up to and including the closing bracket. -/
def parseElements : Nat → JSString → Option (List JSValue × JSString)
  | 0, _ => none
  | fuel + 1, s =>
    match parseValue fuel s with
    | none => none
    | some (v, r) =>
      match skipWs r with
      | 44 :: r' => (parseElements fuel r').map fun t => (v :: t.1, t.2)
      | 93 :: r' => some ([v], r')
      | _ => none
/-- The members of a non-empty object up to and including the closing brace. -/
def parseMembers : Nat → JSString → Option (List (JSString × JSValue) × JSString)
  | 0, _ => none
  | fuel + 1, s =>
    match skipWs s with
    | 34 :: r =>
      match parseStringLoop 0 r with
      | none => none
      | some (k, r1) =>
        match skipWs r1 with
        | 58 :: r2 =>
          match parseValue fuel r2 with
          | none => none
          | some (v, r3) =>
            match skipWs r3 with
            | 44 :: r4 => (parseMembers fuel r4).map fun t => ((k, v) :: t.1, t.2)
            | 125 :: r4 => some ([(k, v)], r4)
            | _ => none
        | _ => none
    | _ => none
end

/-- Model of `JSON.parse(text)`: one value between optional white space; anything else throws
`SyntaxError`. -/
def jsonParse (text : JSString) : Except JSError JSValue :=
  match parseValue (text.length + 1) text with
  | some (v, r) => if skipWs r = [] then .ok v else .error .syntaxError
  | none => .error .syntaxError


/-! ## Permalinks (App.js lines 126-143, 174-183) -/

mutual
/-- Equality test of JSON values. -/
def JSValue.beq : JSValue → JSValue → Bool
  | JSValue.null, JSValue.null => true
  | JSValue.bool a, JSValue.bool b => a == b
  | JSValue.num a, JSValue.num b => a == b
  | JSValue.str a, JSValue.str b => a == b
  | JSValue.arr xs, JSValue.arr ys => JSValue.beqList xs ys
  | JSValue.obj ps, JSValue.obj qs => JSValue.beqProps ps qs
  | _, _ => false
/-- Equality test of lists of JSON values. -/
def JSValue.beqList : List JSValue → List JSValue → Bool
  | [], [] => true
  | x :: xs, y :: ys => JSValue.beq x y && JSValue.beqList xs ys
  | _, _ => false
/-- Equality test of property lists. -/
def JSValue.beqProps : List (JSString × JSValue) → List (JSString × JSValue) → Bool
  | [], [] => true
  | (k, x) :: ps, (l, y) :: qs => k == l && JSValue.beq x y && JSValue.beqProps ps qs
  | _, _ => false
end

/-- Model of `encodeState(obj)` (App.js lines 126-127):
`encodeURIComponent(btoa(unescape(encodeURIComponent(JSON.stringify(obj)))))`. -/
def encodeState (numberToString : ℚ → JSString) (obj : JSValue) : Except JSError JSString :=
  match encodeURIComponent (stringify numberToString obj) with
  | .error e => .error e
  | .ok a =>
    match btoa (unescape a) with
    | .error e => .error e
    | .ok b => encodeURIComponent b

/-- The body of the `try` of `decodeState` (App.js line 129):
`JSON.parse(decodeURIComponent(escape(atob(decodeURIComponent(s)))))`. -/
def decodeStateTry (s : JSString) : Except JSError JSValue :=
  match decodeURIComponent s with
  | .error e => .error e
  | .ok a =>
    match atob a with
    | .error e => .error e
    | .ok b =>
      match decodeURIComponent (escape b) with
      | .error e => .error e
      | .ok c => jsonParse c

/-- Model of `decodeState(s)` (App.js lines 128-131): any exception is caught and gives `null`. -/
def decodeState (s : JSString) : JSValue :=
  match decodeStateTry s with
  | .ok v => v
  | .error _ => JSValue.null

/-- The JSON value of a text box: the fourteen fields `makePermalink` copies
(App.js lines 137-138), in that order. -/
def TextBox.toJSValue (b : TextBox) : JSValue :=
  JSValue.obj
    [(lit "id", JSValue.num b.id), (lit "text", JSValue.str b.text),
     (lit "x", JSValue.num b.x), (lit "y", JSValue.num b.y),
     (lit "fontSize", JSValue.num b.fontSize), (lit "color", JSValue.str b.color),
     (lit "strokeColor", JSValue.str b.strokeColor),
     (lit "strokeWidth", JSValue.num b.strokeWidth),
     (lit "fontFamily", JSValue.str b.fontFamily), (lit "align", JSValue.str b.align),
     (lit "bold", JSValue.bool b.bold), (lit "italic", JSValue.bool b.italic),
     (lit "uppercase", JSValue.bool b.uppercase), (lit "shadow", JSValue.bool b.shadow)]

/-- The `payload` of `makePermalink` (App.js lines 135-139): `{img: activeUrl, boxes: [...]}`. -/
def payloadValue (img : JSString) (boxes : List TextBox) : JSValue :=
  JSValue.obj [(lit "img", JSValue.str img),
               (lit "boxes", JSValue.arr (boxes.map TextBox.toJSValue))]

/-- Truthiness of a value. -/
def JSValue.truthy : JSValue → Bool
  | JSValue.null => false
  | JSValue.bool b => b
  | JSValue.num q => decide (q ≠ Number.fin 0 ∧ q ≠ Number.nan)
  | JSValue.str s => decide (s ≠ [])
  | JSValue.arr _ => true
  | JSValue.obj _ => true

/-- The property read `v.k` for a key such as `img` or `boxes` that only an object can
own: `none` is `undefined`. -/
def JSValue.get (v : JSValue) (k : JSString) : Option JSValue :=
  match v with
  | JSValue.obj ps => ps.lookup k
  | _ => none

mutual
/-- Model of `ToString(v)`, which a computed property key applies. -/
def toStringValue (numberToString : ℚ → JSString) : JSValue → JSString
  | JSValue.null => lit "null"
  | JSValue.bool true => lit "true"
  | JSValue.bool false => lit "false"
  | JSValue.num q => q.toString numberToString
  | JSValue.str s => s
  | JSValue.arr xs => joinElements numberToString xs
  | JSValue.obj _ => lit "[object Object]"
/-- Model of `Array.prototype.join` with a comma: `null` elements give the empty string. -/
def joinElements (numberToString : ℚ → JSString) : List JSValue → JSString
  | [] => []
  | [x] =>
    match x with
    | JSValue.null => []
    | _ => toStringValue numberToString x
  | x :: y :: xs =>
    (match x with
      | JSValue.null => []
      | _ => toStringValue numberToString x) ++ 44 :: joinElements numberToString (y :: xs)
end

/-- Model of `SameValueZero(a, b)` for a freshly created `a`: primitives are compared by value, an
object or array is identical to nothing that existed before. -/
def sameValueZero (a b : JSValue) : Bool :=
  match a, b with
  | JSValue.null, JSValue.null => true
  | JSValue.bool x, JSValue.bool y => x == y
  | JSValue.num x, JSValue.num y => x == y
  | JSValue.str x, JSValue.str y => x == y
  | _, _ => false

/-- The React state the permalink effect writes: `templates`, `boxesByImage` (an object
keyed by image URL) and `activeUrl`. Values are untyped, as decoded JSON can be anything. -/
structure Session where
  templates : List JSValue
  boxesByImage : List (JSString × JSValue)
  activeUrl : JSValue

/-- The mount-time permalink effect (App.js lines 174-183); `p` is the `m` query parameter
(`none` for `null`). -/
def permalinkLoad (numberToString : ℚ → JSString) (p : Option JSString) (st : Session) :
    Session :=
  match p with
  | none => st
  | some s =>
    if s = [] then st
    else
      let state := decodeState s
      if state.truthy then
        match state.get (lit "img") with
        | none => st
        | some img =>
          if img.truthy then
            { templates :=
                if st.templates.any (sameValueZero img) then st.templates
                else img :: st.templates
              boxesByImage :=
                setProp st.boxesByImage (toStringValue numberToString img)
                  (match state.get (lit "boxes") with
                    | some bx => if bx.truthy then bx else JSValue.arr []
                    | none => JSValue.arr [])
              activeUrl := img }
          else st
      else st

/-- Model of `DEFAULT_TEMPLATES` (App.js lines 27-36); `base` is `BASE`. -/
def DEFAULT_TEMPLATES (base : JSString) : List JSString :=
  [base ++ lit "/images/1.png", base ++ lit "/images/2.png", base ++ lit "/images/3.png",
   base ++ lit "/images/4.png", base ++ lit "/images/5.png", base ++ lit "/images/6.png",
   base ++ lit "/images/7.png", base ++ lit "/images/8.png"]

/-- The initial React state (App.js lines 86-92). -/
def Session.initial (base : JSString) : Session where
  templates := (DEFAULT_TEMPLATES base).map JSValue.str
  boxesByImage :=
    [(base ++ lit "/images/1.png",
      JSValue.arr [(defaultText 1).toJSValue, (defaultText 2).toJSValue])]
  activeUrl := JSValue.str (base ++ lit "/images/1.png")

/-- The token `btoa('{"img":"x","boxes":7}')`: well-formed base64 of well-formed JSON that
is not a permalink payload. -/
def foreignToken : JSString := lit "eyJpbWciOiJ4IiwiYm94ZXMiOjd9"

/-! ## Editor state and interaction (App.js lines 92-117, 270-308)

The collections of the editor are typed here: `boxesByImage` maps an image key to a list of
text boxes, as every handler of the editor writes it. A handler is a function of the state
it was rendered with and of the state its updater is applied to. -/

/-- The object `boxesByImage`: its own properties in insertion order, each a list of boxes. -/
abbrev BoxesByImage := List (JSString × List TextBox)

/-- The own property `prev[k]`; `none` is `undefined`. -/
def getKey {α : Type} : List (JSString × α) → JSString → Option α
  | [], _ => none
  | (k', v) :: rest, k => if k' = k then some v else getKey rest k

/-- The object `{ ...prev, [k]: v }`: an existing property keeps its place and takes the new
value, a new property is added at the end. -/
def setKey {α : Type} : List (JSString × α) → JSString → α → List (JSString × α)
  | [], k, v => [(k, v)]
  | (k', v') :: rest, k, v => if k' = k then (k, v) :: rest else (k', v') :: setKey rest k v

/-- The memo `boxes` (App.js line 93): `boxesByImage[activeUrl] ?? []`. -/
def boxesOf (boxesByImage : BoxesByImage) (activeUrl : JSString) : List TextBox :=
  (getKey boxesByImage activeUrl).getD []

/-- The argument of `setBoxesForActive`: a function of the current collection, or a
collection. -/
inductive Updater
  | fn (f : List TextBox → List TextBox)
  | value (v : List TextBox)

/-- Model of `setBoxesForActive(updater)` (App.js lines 95-101), as the function applied to
`prev`. -/
def setBoxesForActive (activeUrl : JSString) (updater : Updater) (prev : BoxesByImage) :
    BoxesByImage :=
  let current := (getKey prev activeUrl).getD []
  let next :=
    match updater with
    | Updater.fn f => f current
    | Updater.value v => v
  setKey prev activeUrl next

/-- The ensure-defaults effect (App.js lines 105-111), as the function applied to `prev`. -/
def ensureDefaults (activeUrl : JSString) (prev : BoxesByImage) : BoxesByImage :=
  match getKey prev activeUrl with
  | some cur =>
    if cur.length ≠ 0 then prev else setKey prev activeUrl [defaultText 1, defaultText 2]
  | none => setKey prev activeUrl [defaultText 1, defaultText 2]

/-- The test `b.id === activeBoxId` (`none` is `null`, which no number equals). -/
def strictEqId (id : Number) : Option Number → Bool
  | some a => Number.strictEq id a
  | none => false

/-- The active-selection effect (App.js lines 113-117): the value of `activeBoxId` after it
has run (`none` is `null`). -/
def normalizeSelection (boxesByImage : BoxesByImage) (activeUrl : JSString)
    (activeBoxId : Option Number) : Option Number :=
  let list := (getKey boxesByImage activeUrl).getD []
  match list with
  | [] => none
  | first :: _ =>
    if ¬ (list.any fun b => strictEqId b.id activeBoxId) = true then some first.id
    else activeBoxId

/-- The state `dragState` of a drag in progress (App.js line 278). -/
structure DragState where
  id : Number
  ox : Number
  oy : Number
  startX : Number
  startY : Number
  deriving DecidableEq, Repr

/-- The fields of a pointer event that the handlers read. -/
structure PointerEvent where
  clientX : Number
  clientY : Number
  deriving DecidableEq, Repr

/-- The bounding rectangle of the container. -/
structure Rect where
  left : Number
  top : Number
  width : Number
  height : Number
  deriving DecidableEq, Repr

/-- Model of `clamp(v, a, b)` (App.js line 298): `Math.max(a, Math.min(b, v))`. -/
def clamp (v a b : Number) : Number := Number.max a (Number.min b v)

/-- Model of `onPointerMove(e)` (App.js lines 280-295): `rect` is the bounding rectangle of
the container, `dragState` the drag state of the render; the result is the new drag state
and the new `boxesByImage`. -/
def onPointerMove (e : PointerEvent) (rect : Rect) (activeUrl : JSString)
    (dragState : Option DragState) (prev : BoxesByImage) : Option DragState × BoxesByImage :=
  match dragState with
  | none => (none, prev)
  | some d =>
    let rx := (e.clientX - rect.left) / rect.width
    let ry := (e.clientY - rect.top) / rect.height
    let dx := rx - d.ox
    let dy := ry - d.oy
    (some { d with ox := rx, oy := ry },
     setBoxesForActive activeUrl
      (Updater.fn fun bs => bs.map fun b =>
        if Number.strictEq b.id d.id then
          { b with x := clamp (b.x + dx) 0.02 0.98, y := clamp (b.y + dy) 0.02 0.98 }
        else b) prev)

/-- The value `Math.max(0, ...boxes.map((b) => b.id))`. -/
def maxId (boxes : List TextBox) : Number := (boxes.map fun b => b.id).foldl Number.max 0

/-- Model of `addTextBox()` (App.js lines 300-304): `boxes` is the collection of the render;
the result is the new `boxesByImage` and the new `activeBoxId`. -/
def addTextBox (boxes : List TextBox) (activeUrl : JSString) (prev : BoxesByImage) :
    BoxesByImage × Option Number :=
  let id := maxId boxes + 1
  (setBoxesForActive activeUrl
    (Updater.fn fun bxs => bxs ++ [{ defaultText id with text := lit "NEW TEXT", y := 0.5 }]) prev,
   some id)

/-! ## A concrete platform: fixed-pitch text, ASCII upper-casing -/

/-- Fixed-pitch measuring: every code unit is 10 wide. -/
def monoWidth (s : JSString) : ℚ := 10 * (s.length : ℚ)

/-- Upper-casing of the ASCII letters, other units unchanged. -/
def asciiUpper (s : JSString) : JSString :=
  s.map fun c => if 0x61 ≤ c ∧ c ≤ 0x7A then c - 0x20 else c

/-- Decimal digits of a natural number. -/
def natDigits (n : Nat) : JSString := (Nat.toDigits 10 n).map Char.toNat

/-- Up to `n` decimal digits of a fraction `0 ≤ r < 1`, stopping when nothing is left. -/
def fracDigits : Nat → ℚ → List Nat
  | 0, _ => []
  | n + 1, r =>
    if r = 0 then []
    else (48 + (r * 10).floor.toNat) :: fracDigits n (r * 10 - (r * 10).floor)

/-- Decimal notation of a number: sign, integer digits and up to 20 fraction digits, e.g.
`48`, `0.5`, `0.08`. -/
def decimalString (q : ℚ) : JSString :=
  (if q < 0 then [45] else []) ++ natDigits |q|.floor.toNat
    ++ (match fracDigits 20 (|q| - |q|.floor) with
        | [] => []
        | d :: ds => 46 :: d :: ds)

/-- A platform with fixed-pitch text, ASCII upper-casing and decimal number printing. -/
def monoPlatform : Platform where
  measureText := fun _ s => monoWidth s
  toUpperCase := asciiUpper
  numberToString := decimalString

/-- A freshly reset 2D context. -/
def Ctx.initial : Ctx := { state := PaintState.initial, log := [] }

/-- The first default box with the mixed Latin and Hebrew text of the mount-time test. -/
def mixedBox : TextBox := { defaultText 1 with text := lit "hey שלום" }

/-! ## Statement vocabulary -/

/-- The bidi control characters: U+200E, U+200F, U+202A–U+202E, U+2066–U+2069, U+061C. -/
def IsBidiControl (c : Nat) : Prop :=
  c = 0x200E ∨ c = 0x200F ∨ (0x202A ≤ c ∧ c ≤ 0x202E) ∨ (0x2066 ≤ c ∧ c ≤ 0x2069) ∨ c = 0x061C

instance : DecidablePred IsBidiControl := fun c => by
  unfold IsBidiControl; infer_instance

/-- The blocks U+0590–U+05FF, U+0600–U+06FF, U+0750–U+077F and U+08A0–U+08FF. -/
def InRTLBlocks (c : Nat) : Prop :=
  (0x0590 ≤ c ∧ c ≤ 0x05FF) ∨ (0x0600 ≤ c ∧ c ≤ 0x06FF) ∨ (0x0750 ≤ c ∧ c ≤ 0x077F)
    ∨ (0x08A0 ≤ c ∧ c ≤ 0x08FF)

instance : DecidablePred InRTLBlocks := fun c => by
  unfold InRTLBlocks; infer_instance

/-- Latin letters `A`–`Z`, `a`–`z`, digits `0`–`9` and the space. -/
def IsLatinDigitSpace (c : Nat) : Prop :=
  (0x41 ≤ c ∧ c ≤ 0x5A) ∨ (0x61 ≤ c ∧ c ≤ 0x7A) ∨ (0x30 ≤ c ∧ c ≤ 0x39) ∨ c = 0x20

instance : DecidablePred IsLatinDigitSpace := fun c => by
  unfold IsLatinDigitSpace; infer_instance

/-- The text a box displays: upper-cased when `uppercase` is set. -/
def displayText (P : Platform) (b : TextBox) : JSString :=
  if b.uppercase then P.toUpperCase b.text else b.text

/-- The text drawing styles a box is measured and painted under. -/
def boxStyle (P : Platform) (b : TextBox) : TextStyle where
  font := (if b.italic then lit "italic " else []) ++ (if b.bold then lit "700 " else [])
    ++ b.fontSize.toString P.numberToString ++ lit "px " ++ b.fontFamily
  textAlign := b.align
  textBaseline := lit "middle"
  direction := if isRTL b.text then Direction.rtl else Direction.ltr

/-- The wrapped lines of a box on an image `width` wide. -/
def boxLines (P : Platform) (b : TextBox) (width : Number) : List JSString :=
  wrapLinesNum (P.measureText (boxStyle P b)) (displayText P b) (width * 0.9)

/-- Lines paired with vertical positions that start at `y0` and grow by `H` from one line to
the next, each sum rounded to binary64. -/
def positionsFrom (H : Number) : List JSString → Number → List (JSString × Number)
  | [], _ => []
  | ln :: rest, y0 => (ln, y0) :: positionsFrom H rest (y0 + H)

/-- Lines paired with the vertical positions of a block of `N` lines of line height `H`
around `y`: the first line sits at `y - (N-1)*H/2`, every other line `H` below the one
before, in binary64 arithmetic. -/
def linePositions (lines : List JSString) (y H : Number) : List (JSString × Number) :=
  positionsFrom H lines (y - ((lines.length : Number) - 1) * H / 2)

/-- A rational that is a binary64 number: rounding leaves it as it is. -/
def IsBinary64 (q : ℚ) : Prop := Number.round q = Number.fin q

instance : DecidablePred IsBinary64 := fun q => by
  unfold IsBinary64; infer_instance

/-- A number of the language: an infinity, `NaN`, or a finite binary64 number. -/
def Number.IsDouble : Number → Prop
  | Number.fin q => IsBinary64 q
  | Number.posInf => True
  | Number.negInf => True
  | Number.nan => True

instance (x : Number) : Decidable x.IsDouble := by
  cases x <;> unfold Number.IsDouble <;> infer_instance

/-- What a paint operation draws and where, without the paint state. -/
inductive Shape
  | clear (x y w h : Number)
  | image (img : Image) (x y w h : Number)
  | stroke (text : JSString) (x y : Number)
  | fill (text : JSString) (x y : Number)
  deriving DecidableEq, Repr

/-- The shape of a paint operation. -/
def DrawOp.shape : DrawOp → Shape
  | DrawOp.clearRect x y w h _ => Shape.clear x y w h
  | DrawOp.drawImage i x y w h _ => Shape.image i x y w h
  | DrawOp.strokeText t x y _ => Shape.stroke t x y
  | DrawOp.fillText t x y _ => Shape.fill t x y

/-- The paint state a paint operation was issued under. -/
def DrawOp.state : DrawOp → PaintState
  | DrawOp.clearRect _ _ _ _ st => st
  | DrawOp.drawImage _ _ _ _ _ st => st
  | DrawOp.strokeText _ _ _ st => st
  | DrawOp.fillText _ _ _ st => st

/-- Whether a shape is a text fill. -/
def Shape.isFill : Shape → Bool
  | Shape.fill _ _ _ => true
  | _ => false

/-- The stroke pass of a box on a `width × height` image, as shapes. -/
def boxStrokes (P : Platform) (b : TextBox) (width height : Number) : List Shape :=
  (linePositions (boxLines P b width) (b.y * height) (b.fontSize * 1.2)).map
    fun p => Shape.stroke p.1 (b.x * width) p.2

/-- The fill pass of a box on a `width × height` image, as shapes. -/
def boxFills (P : Platform) (b : TextBox) (width height : Number) : List Shape :=
  (linePositions (boxLines P b width) (b.y * height) (b.fontSize * 1.2)).map
    fun p => Shape.fill p.1 (b.x * width) p.2

/-- All shapes a box paints: the stroke pass when `strokeWidth > 0`, then the fill pass. -/
def boxShapes (P : Platform) (b : TextBox) (width height : Number) : List Shape :=
  (if b.strokeWidth > 0 then boxStrokes P b width height else []) ++ boxFills P b width height

/-- The state the stroke pass of a box is painted under, from the state `st` before. -/
def strokeState (P : Platform) (st : PaintState) (b : TextBox) : PaintState :=
  setStroke (setTextAndShadow P st b) b

/-- The state the fill pass of a box is painted under, from the state `st` before. -/
def fillState (P : Platform) (st : PaintState) (b : TextBox) : PaintState :=
  { (if b.strokeWidth > 0 then strokeState P st b else setTextAndShadow P st b) with
    fillStyle := b.color }

/-- The texts of the fill operations of a log, in order. -/
def fillTexts (ops : List DrawOp) : List JSString :=
  ops.filterMap fun
    | DrawOp.fillText t _ _ _ => some t
    | _ => none

/-- The texts of the stroke operations of a log, in order. -/
def strokeTexts (ops : List DrawOp) : List JSString :=
  ops.filterMap fun
    | DrawOp.strokeText t _ _ _ => some t
    | _ => none

/-- The method `lines.join(sep)`: the strings with `sep` between neighbours. -/
def joinWith (sep : JSString) : List JSString → JSString
  | [] => []
  | [x] => x
  | x :: y :: rest => x ++ sep ++ joinWith sep (y :: rest)

/-! ## Vocabulary of the permalink codec -/

/-- Percent-encoding of a sequence of octets: octets of `keep` stand for themselves, the
others are written `%XX`. -/
def pctEncode (keep : Nat → Bool) (bytes : List Nat) : List Nat :=
  bytes.flatMap fun b => if keep b then [b] else pctOctet b

/-- The items of `pctEncode keep bytes`. -/
def itemsOf (keep : Nat → Bool) (bytes : List Nat) : List UriItem :=
  bytes.map fun b => if keep b then UriItem.unit b else UriItem.octet b

/-- The UTF-8 octets of a string. -/
def utf8Bytes (s : JSString) : List Nat := (codePoints s).flatMap utf8Encode

/-- A well-formed UTF-16 string: every unit is below `0x10000` and every surrogate is part
of a pair. -/
def wellFormedUTF16 : JSString → Bool
  | [] => true
  | c :: rest =>
    if 0xD800 ≤ c ∧ c ≤ 0xDBFF then
      match rest with
      | d :: rest' => decide (0xDC00 ≤ d ∧ d ≤ 0xDFFF) && wellFormedUTF16 rest'
      | [] => false
    else if 0xDC00 ≤ c ∧ c ≤ 0xDFFF then false
    else decide (c < 0x10000) && wellFormedUTF16 rest

/-- A Unicode scalar value: a code point that is not a surrogate. -/
def IsScalar (cp : Nat) : Prop := cp < 0x110000 ∧ ¬ (0xD800 ≤ cp ∧ cp ≤ 0xDFFF)

/-- The six-bit values of the base64 encoding of a sequence of octets. -/
def b64Sextets : List Nat → List Nat
  | [] => []
  | [a] => [a / 4, a % 4 * 16]
  | [a, b] => [a / 4, a % 4 * 16 + b / 16, b % 16 * 4]
  | a :: b :: c :: rest =>
    a / 4 :: (a % 4 * 16 + b / 16) :: (b % 16 * 4 + c / 64) :: c % 64 :: b64Sextets rest

/-- The `=` padding of the base64 encoding of a sequence of octets. -/
def b64Padding : List Nat → List Nat
  | [] => []
  | [_] => [61, 61]
  | [_, _] => [61]
  | _ :: _ :: _ :: rest => b64Padding rest

/-- The contract between number printing and JSON number reading for the number `x`: it is
finite, what is printed is made of number characters, and its value rounded to binary64 is
`x`. -/
def NumberRoundTrips (numberToString : ℚ → JSString) : Number → Prop
  | Number.fin q =>
    (∀ c ∈ numberToString q, isNumChar c = true)
      ∧ (parseNumberToken (numberToString q)).map Number.round = some (Number.fin q)
  | Number.posInf => False
  | Number.negInf => False
  | Number.nan => False

instance (numberToString : ℚ → JSString) (x : Number) :
    Decidable (NumberRoundTrips numberToString x) := by
  cases x <;> unfold NumberRoundTrips <;> infer_instance

/-- A string all of whose code units are below `0x10000`. -/
def ValidUnits (s : JSString) : Prop := ∀ c ∈ s, c < 0x10000

instance (s : JSString) : Decidable (ValidUnits s) := by
  unfold ValidUnits; infer_instance

mutual
/-- A value `JSON.stringify` and `JSON.parse` can carry: its numbers round-trip, its strings
and keys are strings of code units, and no object has two properties of the same name. -/
def Serializable (numberToString : ℚ → JSString) : JSValue → Prop
  | JSValue.null => True
  | JSValue.bool _ => True
  | JSValue.num q => NumberRoundTrips numberToString q
  | JSValue.str s => ValidUnits s
  | JSValue.arr xs => SerializableList numberToString xs
  | JSValue.obj ps => SerializableProps numberToString ps ∧ (ps.map Prod.fst).Nodup
/-- All values of a list are serializable. -/
def SerializableList (numberToString : ℚ → JSString) : List JSValue → Prop
  | [] => True
  | x :: xs => Serializable numberToString x ∧ SerializableList numberToString xs
/-- All keys and values of a property list are serializable. -/
def SerializableProps (numberToString : ℚ → JSString) : List (JSString × JSValue) → Prop
  | [] => True
  | (k, v) :: ps =>
    ValidUnits k ∧ Serializable numberToString v ∧ SerializableProps numberToString ps
end

/-- A text box the permalink can carry: its strings are strings of code units and its
numbers round-trip through number printing and JSON number reading. -/
def TextBox.Encodable (numberToString : ℚ → JSString) (b : TextBox) : Prop :=
  ValidUnits b.text ∧ ValidUnits b.color ∧ ValidUnits b.strokeColor ∧ ValidUnits b.fontFamily
    ∧ ValidUnits b.align
    ∧ NumberRoundTrips numberToString b.id ∧ NumberRoundTrips numberToString b.x
    ∧ NumberRoundTrips numberToString b.y ∧ NumberRoundTrips numberToString b.fontSize
    ∧ NumberRoundTrips numberToString b.strokeWidth

instance (numberToString : ℚ → JSString) (b : TextBox) :
    Decidable (TextBox.Encodable numberToString b) := by
  unfold TextBox.Encodable; infer_instance

/-! ## The bidirectional-script classifier -/

theorem bidiClass_has (c : Nat) : bidiClass.has c = true ↔ IsBidiControl c := by
  simp only [bidiClass, CharClass.has, IsBidiControl, List.any_cons, List.any_nil,
    Bool.or_false, Bool.or_eq_true, Bool.and_eq_true, decide_eq_true_eq]
  omega

theorem rtlClass_has (c : Nat) : rtlClass.has c = true ↔ InRTLBlocks c := by
  simp only [rtlClass, CharClass.has, InRTLBlocks, List.any_cons, List.any_nil,
    Bool.or_false, Bool.or_eq_true, Bool.and_eq_true, decide_eq_true_eq]

theorem stripBidi_eq_filter (s : JSString) :
    stripBidi s = s.filter fun c => decide ¬ IsBidiControl c := by
  unfold stripBidi replaceClassGlobal
  congr 1
  funext c
  by_cases h : IsBidiControl c
  · simp [h, (bidiClass_has c).2 h]
  · have : bidiClass.has c = false := by
      cases hb : bidiClass.has c
      · rfl
      · exact absurd ((bidiClass_has c).1 hb) h
    simp [h, this]

theorem isRTL_true_iff_exists_unit (s : JSString) :
    isRTL s = true ↔ ∃ c ∈ s, ¬ IsBidiControl c ∧ InRTLBlocks c := by
  unfold isRTL testClass
  rw [stripBidi_eq_filter]
  simp only [List.any_eq_true, List.mem_filter, decide_eq_true_eq, rtlClass_has]
  constructor
  · rintro ⟨c, ⟨hc, hb⟩, hr⟩
    exact ⟨c, hc, hb, hr⟩
  · rintro ⟨c, hc, hb, hr⟩
    exact ⟨c, ⟨hc, hb⟩, hr⟩

/-- Supplementary code points and surrogates lie outside the four blocks, so a string has
a code point in the blocks exactly when it has a code unit in them. -/
theorem exists_codePoint_iff (s : JSString) :
    (∃ c ∈ codePoints s, InRTLBlocks c) ↔ ∃ u ∈ s, InRTLBlocks u := by
  induction s using codePoints.induct with
  | case1 => simp [codePoints]
  | case2 c => simp [codePoints]
  | case3 c d rest h ih =>
    simp only [codePoints, h, and_self, if_true, List.mem_cons, exists_eq_or_imp]
    rw [ih]
    have h1 : ¬ InRTLBlocks (0x10000 + (c - 0xD800) * 0x400 + (d - 0xDC00)) := by
      unfold InRTLBlocks; omega
    have h2 : ¬ InRTLBlocks c := by unfold InRTLBlocks; omega
    have h3 : ¬ InRTLBlocks d := by unfold InRTLBlocks; omega
    simp [h1, h2, h3]
  | case4 c d rest h ih =>
    simp only [codePoints, h, if_false, List.mem_cons, exists_eq_or_imp]
    rw [ih]
    simp only [List.mem_cons, exists_eq_or_imp]

/-- C1. `isRTL s` holds exactly when `s`, with every bidi control character removed,
contains a code point in U+0590–U+05FF, U+0600–U+06FF, U+0750–U+077F or U+08A0–U+08FF.
In particular the empty string, strings of Latin letters, digits and spaces, and strings of
bidi controls only are not RTL, and a string with a unit of the four blocks other than the
control U+061C is RTL. -/
theorem isRTL_iff (s : JSString) :
    (isRTL s = true ↔
      ∃ c ∈ codePoints (s.filter fun u => decide ¬ IsBidiControl u), InRTLBlocks c)
    ∧ isRTL [] = false
    ∧ ((∀ c ∈ s, IsLatinDigitSpace c) → isRTL s = false)
    ∧ ((∀ c ∈ s, IsBidiControl c) → isRTL s = false)
    ∧ ((∃ c ∈ s, InRTLBlocks c ∧ c ≠ 0x061C) → isRTL s = true) := by
  refine ⟨?_, ?_, ?_, ?_, ?_⟩
  · rw [exists_codePoint_iff, isRTL_true_iff_exists_unit]
    simp only [List.mem_filter, decide_eq_true_eq]
    constructor
    · rintro ⟨c, hc, hb, hr⟩
      exact ⟨c, ⟨hc, hb⟩, hr⟩
    · rintro ⟨c, ⟨hc, hb⟩, hr⟩
      exact ⟨c, hc, hb, hr⟩
  · rfl
  · intro h
    rw [Bool.eq_false_iff, Ne, isRTL_true_iff_exists_unit]
    rintro ⟨c, hc, -, hr⟩
    have := h c hc
    unfold IsLatinDigitSpace at this
    unfold InRTLBlocks at hr
    omega
  · intro h
    rw [Bool.eq_false_iff, Ne, isRTL_true_iff_exists_unit]
    rintro ⟨c, hc, hb, -⟩
    exact hb (h c hc)
  · rintro ⟨c, hc, hr, hne⟩
    rw [isRTL_true_iff_exists_unit]
    refine ⟨c, hc, ?_, hr⟩
    unfold IsBidiControl
    unfold InRTLBlocks at hr
    omega

/-- Witness for C1 on the mount-time test strings: `'hey שלום'` is RTL, `'123 abc'` and
`'ALL' + ALM` are not. -/
theorem isRTL_iff_witness :
    isRTL (lit "hey שלום") = true ∧ isRTL (lit "123 abc") = false
      ∧ isRTL (lit "ALL" ++ [0x061C]) = false
      ∧ isRTL [0x200F, 0x061C, 0x2067] = false :=
  ⟨(isRTL_iff _).2.2.2.2 ⟨0x05E9, by decide, by decide⟩,
   (isRTL_iff _).2.2.1 (by decide),
   by decide,
   (isRTL_iff _).2.2.2.1 (by decide)⟩

/-! ## Binary64 arithmetic -/

namespace Number

theorem two_pow_log2Fuel_le : ∀ (fuel n : Nat), 1 ≤ n → 2 ^ log2Fuel fuel n ≤ n := by
  intro fuel
  induction fuel with
  | zero => intro n h; simpa [log2Fuel] using h
  | succ f ih =>
    intro n h
    unfold log2Fuel
    split_ifs with h2
    · have := ih (n / 2) (by omega)
      rw [pow_succ]
      omega
    · simpa using h

theorem pow2_eq_zpow (e : ℤ) : pow2 e = (2 : ℚ) ^ e := by
  unfold pow2
  split_ifs with h
  · obtain ⟨n, rfl⟩ := Int.eq_ofNat_of_zero_le h
    simp
  · obtain ⟨n, hn⟩ := Int.exists_eq_neg_ofNat (le_of_lt (not_le.1 h))
    subst hn
    simp

theorem pow2_pos (e : ℤ) : 0 < pow2 e := by
  rw [pow2_eq_zpow]
  positivity

theorem roundHalfEven_intCast (k : ℤ) : roundHalfEven (k : ℚ) = k := by
  unfold roundHalfEven
  simp

/-- A rational that is a whole multiple of the unit in the last place of its own binade and
lies below `2^1024` rounds to itself. -/
theorem round_eq_self (q : ℚ) (k : ℤ)
    (hk : q = k * pow2 (Max.max (exponent |q|) (-1022) - 52)) (hlt : |q| < pow2 1024) :
    round q = fin q := by
  unfold round
  by_cases h0 : q = 0
  · rw [if_pos h0, h0]
  · rw [if_neg h0]
    have hu := pow2_pos (Max.max (exponent |q|) (-1022) - 52)
    have hdiv : q / pow2 (Max.max (exponent |q|) (-1022) - 52) = k := by
      rw [div_eq_iff hu.ne']
      exact hk
    simp only []
    rw [hdiv, roundHalfEven_intCast, ← hk, if_neg (not_le.2 hlt)]

theorem exponent_natCast (n : ℕ) (h : 1 ≤ n) :
    exponent ((n : ℚ)) = (log2Fuel n n : ℤ) := by
  unfold exponent
  have h1 : log2Fuel 1 1 = 0 := rfl
  simp only [Rat.num_natCast, Int.natAbs_ofNat, Rat.den_natCast, h1, Nat.cast_zero, sub_zero]
  rw [if_pos]
  rw [pow2_eq_zpow, zpow_natCast]
  exact_mod_cast two_pow_log2Fuel_le n n h

/-- A natural number up to `2^53` is a binary64 number. -/
theorem round_natCast (n : ℕ) (h : n ≤ 2 ^ 53) : round (n : ℚ) = fin n := by
  rcases Nat.eq_zero_or_pos n with h0 | hpos
  · subst h0
    simp [round]
  have hL := two_pow_log2Fuel_le n n hpos
  have hL53 : log2Fuel n n ≤ 53 := by
    by_contra hc
    have : 2 ^ 54 ≤ 2 ^ log2Fuel n n := Nat.pow_le_pow_right (by norm_num) (by omega)
    omega
  have habs : |(n : ℚ)| = n := abs_of_nonneg (Nat.cast_nonneg n)
  have hmax : Max.max ((log2Fuel n n : ℕ) : ℤ) (-1022) = (log2Fuel n n : ℤ) :=
    max_eq_left (by omega)
  have hlt : |(n : ℚ)| < pow2 1024 := by
    rw [habs, pow2_eq_zpow]
    have : (n : ℚ) ≤ 2 ^ 53 := by exact_mod_cast h
    refine lt_of_le_of_lt this ?_
    norm_num
  rcases Nat.lt_or_ge (log2Fuel n n) 53 with hlt53 | hge
  · refine round_eq_self (n : ℚ) ((n * 2 ^ (52 - log2Fuel n n) : ℕ) : ℤ) ?_ hlt
    rw [habs, exponent_natCast n hpos, hmax, pow2_eq_zpow]
    have e : ((log2Fuel n n : ℕ) : ℤ) - 52 = -((52 - log2Fuel n n : ℕ) : ℤ) := by omega
    rw [e, zpow_neg, zpow_natCast]
    push_cast
    field_simp
  · have hn : n = 2 ^ 53 := by
      have : log2Fuel n n = 53 := by omega
      rw [this] at hL
      omega
    refine round_eq_self (n : ℚ) (2 ^ 52) ?_ hlt
    have : log2Fuel n n = 53 := by omega
    rw [habs, exponent_natCast n hpos, hmax, this, pow2_eq_zpow, hn]
    norm_num

theorem round_ne_nan (q : ℚ) : round q ≠ nan := by
  unfold round
  simp only []
  split_ifs <;> simp

theorem natCast_eq (n : ℕ) (h : n ≤ 2 ^ 53) : ((n : ℕ) : Number) = fin n :=
  round_natCast n h

theorem ofNat_eq (n : ℕ) [n.AtLeastTwo] (h : n ≤ 2 ^ 53) :
    (OfNat.ofNat n : Number) = fin n :=
  round_natCast n h

theorem zero_eq : (0 : Number) = fin 0 := by decide!

theorem one_eq : (1 : Number) = fin 1 := by decide!

theorem two_eq : (2 : Number) = fin 2 := by decide!

theorem fin_add (a b : ℚ) : fin a + fin b = round (a + b) := rfl

theorem fin_sub (a b : ℚ) : fin a - fin b = round (a - b) := rfl

theorem fin_mul (a b : ℚ) : fin a * fin b = round (a * b) := rfl

theorem fin_div (a b : ℚ) (hb : b ≠ 0) : fin a / fin b = round (a / b) := by
  show Number.div _ _ = _
  simp [Number.div, hb]

theorem strictEq_iff (a b : Number) : strictEq a b = true ↔ a = b ∧ a ≠ nan := by
  cases a <;> cases b <;> simp [strictEq]

theorem isFinite_iff (x : Number) : x.isFinite = true ↔ ∃ q, x = fin q := by
  cases x <;> simp [isFinite]

theorem div_fin_ne_nan (x : Number) (w : ℚ) (h : x ≠ nan) (hw : w ≠ 0) : x / fin w ≠ nan := by
  cases x with
  | fin q => rw [fin_div q w hw]; exact round_ne_nan _
  | posInf => show Number.div _ _ ≠ _; simp only [Number.div]; split_ifs <;> simp
  | negInf => show Number.div _ _ ≠ _; simp only [Number.div]; split_ifs <;> simp
  | nan => exact absurd rfl h

theorem sub_fin_ne_nan (x : Number) (o : ℚ) (h : x ≠ nan) : x - fin o ≠ nan := by
  cases x with
  | fin q => rw [fin_sub]; exact round_ne_nan _
  | posInf => show Number.sub _ _ ≠ _; simp [Number.sub]
  | negInf => show Number.sub _ _ ≠ _; simp [Number.sub]
  | nan => exact absurd rfl h

theorem fin_add_ne_nan (b : ℚ) (x : Number) (h : x ≠ nan) : fin b + x ≠ nan := by
  cases x with
  | fin q => rw [fin_add]; exact round_ne_nan _
  | posInf => show Number.add _ _ ≠ _; simp [Number.add]
  | negInf => show Number.add _ _ ≠ _; simp [Number.add]
  | nan => exact absurd rfl h

theorem fin_le_fin (a b : ℚ) : (fin a ≤ fin b) ↔ a ≤ b := by
  show Number.le _ _ = true ↔ _
  simp [Number.le]

theorem lt_two_pow_log2Fuel : ∀ (fuel n : Nat), n < 2 ^ fuel → n < 2 ^ (log2Fuel fuel n + 1) := by
  intro fuel
  induction fuel with
  | zero =>
    intro n h
    have : n = 0 := by simpa using h
    subst this
    simp [log2Fuel]
  | succ f ih =>
    intro n h
    unfold log2Fuel
    split_ifs with h2
    · have := ih (n / 2) (by rw [pow_succ] at h; omega)
      rw [pow_succ]
      omega
    · simp only [zero_add, pow_one]
      omega

theorem pow2_le_pow2 {a b : ℤ} (h : a ≤ b) : pow2 a ≤ pow2 b := by
  rw [pow2_eq_zpow, pow2_eq_zpow]
  exact zpow_le_zpow_right₀ (by norm_num) h

theorem pow2_lt_pow2 {a b : ℤ} (h : a < b) : pow2 a < pow2 b := by
  rw [pow2_eq_zpow, pow2_eq_zpow]
  exact zpow_lt_zpow_right₀ (by norm_num) h

theorem pow2_add (a b : ℤ) : pow2 (a + b) = pow2 a * pow2 b := by
  rw [pow2_eq_zpow, pow2_eq_zpow, pow2_eq_zpow]
  exact zpow_add₀ (by norm_num) a b

/-- The two bounds that define the exponent of a positive rational. -/
theorem exponent_spec (x : ℚ) (hx : 0 < x) :
    pow2 (exponent x) ≤ x ∧ x < pow2 (exponent x + 1) := by
  have hnum : 0 < x.num := Rat.num_pos.2 hx
  have hN : 1 ≤ x.num.natAbs := Int.natAbs_pos.2 hnum.ne'
  have hD : 1 ≤ x.den := x.den_pos
  have hA1 := two_pow_log2Fuel_le x.num.natAbs x.num.natAbs hN
  have hA2 := lt_two_pow_log2Fuel x.num.natAbs x.num.natAbs (Nat.lt_two_pow _)
  have hB1 := two_pow_log2Fuel_le x.den x.den hD
  have hB2 := lt_two_pow_log2Fuel x.den x.den (Nat.lt_two_pow _)
  have hxe : x = (x.num.natAbs : ℚ) / (x.den : ℚ) := by
    have h1 : ((x.num.natAbs : ℤ) : ℚ) = (x.num : ℚ) := by
      rw [Int.natAbs_of_nonneg hnum.le]
    rw [← Int.cast_natCast, h1]
    exact (Rat.num_div_den x).symm
  have hDpos : (0 : ℚ) < x.den := by exact_mod_cast hD
  set A := log2Fuel x.num.natAbs x.num.natAbs with hAdef
  set B := log2Fuel x.den x.den with hBdef
  have qA1 : (2 : ℚ) ^ (A : ℤ) ≤ (x.num.natAbs : ℚ) := by
    rw [zpow_natCast]; exact_mod_cast hA1
  have qA2 : (x.num.natAbs : ℚ) < (2 : ℚ) ^ ((A : ℤ) + 1) := by
    have : (x.num.natAbs : ℚ) < (2 : ℚ) ^ (A + 1) := by exact_mod_cast hA2
    rwa [← zpow_natCast, Nat.cast_add, Nat.cast_one] at this
  have qB1 : (2 : ℚ) ^ (B : ℤ) ≤ (x.den : ℚ) := by
    rw [zpow_natCast]; exact_mod_cast hB1
  have qB2 : (x.den : ℚ) < (2 : ℚ) ^ ((B : ℤ) + 1) := by
    have : (x.den : ℚ) < (2 : ℚ) ^ (B + 1) := by exact_mod_cast hB2
    rwa [← zpow_natCast, Nat.cast_add, Nat.cast_one] at this
  have two_pos : ∀ k : ℤ, (0 : ℚ) < 2 ^ k := fun k => by positivity
  -- the lower bound that always holds
  have hlow : pow2 ((A : ℤ) - B - 1) ≤ x := by
    rw [pow2_eq_zpow, hxe, le_div_iff₀ hDpos]
    calc (2 : ℚ) ^ ((A : ℤ) - B - 1) * x.den
        ≤ (2 : ℚ) ^ ((A : ℤ) - B - 1) * (2 : ℚ) ^ ((B : ℤ) + 1) :=
          mul_le_mul_of_nonneg_left qB2.le (two_pos _).le
      _ = (2 : ℚ) ^ (A : ℤ) := by
          rw [← zpow_add₀ (by norm_num : (2 : ℚ) ≠ 0)]; congr 1; ring
      _ ≤ x.num.natAbs := qA1
  have hupp : x < pow2 ((A : ℤ) - B + 1) := by
    rw [pow2_eq_zpow, hxe, div_lt_iff₀ hDpos]
    calc (x.num.natAbs : ℚ) < (2 : ℚ) ^ ((A : ℤ) + 1) := qA2
      _ = (2 : ℚ) ^ ((A : ℤ) - B + 1) * (2 : ℚ) ^ (B : ℤ) := by
          rw [← zpow_add₀ (by norm_num : (2 : ℚ) ≠ 0)]; congr 1; ring
      _ ≤ (2 : ℚ) ^ ((A : ℤ) - B + 1) * x.den :=
          mul_le_mul_of_nonneg_left qB1 (two_pos _).le
  unfold exponent
  simp only []
  rw [← hAdef, ← hBdef]
  split_ifs with h
  · exact ⟨h, hupp⟩
  · refine ⟨hlow, ?_⟩
    rw [sub_add_cancel]
    exact not_le.1 h

theorem roundHalfEven_bounds (t : ℚ) : ⌊t⌋ ≤ roundHalfEven t ∧ roundHalfEven t ≤ ⌊t⌋ + 1 := by
  unfold roundHalfEven
  simp only []
  split_ifs <;> constructor <;> omega

theorem pow2_of_nonneg (x : ℤ) (h : 0 ≤ x) : pow2 x = ((2 ^ x.toNat : ℕ) : ℚ) := by
  unfold pow2
  rw [if_pos h]

/-- What rounding gives is a binary64 number: rounding it again changes nothing. -/
theorem round_round (q r : ℚ) (h : round q = fin r) : round r = fin r := by
  by_cases hr : r = 0
  · subst hr
    simp [round]
  by_cases hq : q = 0
  · subst hq
    have : r = 0 := by
      have h' : fin 0 = fin r := by simpa [round] using h
      injection h' with h'
      exact h'.symm
    exact absurd this hr
  have he : (-1022 : ℤ) ≤ Max.max (exponent |q|) (-1022) := le_max_right _ _
  have hE : exponent |q| ≤ Max.max (exponent |q|) (-1022) := le_max_left _ _
  unfold round at h
  rw [if_neg hq] at h
  simp only [] at h
  generalize Max.max (exponent |q|) (-1022) = e at he hE h
  have hu := pow2_pos (e - 52)
  have hres : r = (roundHalfEven (q / pow2 (e - 52)) : ℚ) * pow2 (e - 52)
      ∧ |(roundHalfEven (q / pow2 (e - 52)) : ℚ) * pow2 (e - 52)| < pow2 1024 := by
    split_ifs at h with hov hneg
    · injection h with h
      exact ⟨h.symm, not_le.1 hov⟩
  obtain ⟨hrn, hlt⟩ := hres
  rw [← hrn] at hlt
  -- the rounded quotient has at most 53 bits
  have hqpos : 0 < |q| := abs_pos.2 hq
  have hqlt : |q| < pow2 53 * pow2 (e - 52) := by
    calc |q| < pow2 (exponent |q| + 1) := (exponent_spec |q| hqpos).2
      _ ≤ pow2 (e + 1) := pow2_le_pow2 (by omega)
      _ = pow2 53 * pow2 (e - 52) := by rw [← pow2_add]; congr 1; ring
  have h53 : pow2 53 = ((2 ^ 53 : ℤ) : ℚ) := by
    rw [pow2_of_nonneg 53 (by norm_num), show (53 : ℤ).toNat = 53 from rfl]
    norm_num
  have hquot : |q / pow2 (e - 52)| < ((2 ^ 53 : ℤ) : ℚ) := by
    rw [abs_div, abs_of_pos hu, div_lt_iff₀ hu, ← h53]
    exact hqlt
  have hnb := roundHalfEven_bounds (q / pow2 (e - 52))
  generalize roundHalfEven (q / pow2 (e - 52)) = n at hrn hnb
  have hfl1 : (-(2 ^ 53) : ℤ) ≤ ⌊q / pow2 (e - 52)⌋ := by
    rw [Int.le_floor]
    have := (abs_lt.1 hquot).1
    push_cast at this ⊢
    exact this.le
  have hfl2 : ⌊q / pow2 (e - 52)⌋ < (2 ^ 53 : ℤ) := by
    rw [Int.floor_lt]
    exact (abs_lt.1 hquot).2
  have hn1 : (-(2 ^ 53) : ℤ) ≤ n := le_trans hfl1 hnb.1
  have hn2 : n ≤ (2 ^ 53 : ℤ) := by omega
  have hnabs : |(n : ℚ)| ≤ pow2 53 := by
    rw [h53, abs_le]
    constructor
    · have : ((-(2 ^ 53) : ℤ) : ℚ) ≤ (n : ℚ) := by exact_mod_cast hn1
      push_cast at this ⊢
      exact this
    · exact_mod_cast hn2
  have hrle : |r| ≤ pow2 (e + 1) := by
    rw [hrn, abs_mul, abs_of_pos hu]
    calc |(n : ℚ)| * pow2 (e - 52) ≤ pow2 53 * pow2 (e - 52) :=
          mul_le_mul_of_nonneg_right hnabs hu.le
      _ = pow2 (e + 1) := by rw [← pow2_add]; congr 1; ring
  have hrpos : 0 < |r| := abs_pos.2 hr
  obtain ⟨hE1, hE2⟩ := exponent_spec |r| hrpos
  have hEr : exponent |r| ≤ e + 1 := by
    by_contra hc
    have h1 : pow2 (e + 2) ≤ pow2 (exponent |r|) := pow2_le_pow2 (by omega)
    have h2 : pow2 (e + 1) < pow2 (e + 2) := pow2_lt_pow2 (by omega)
    linarith
  rcases le_or_lt (exponent |r|) e with hcase | hcase
  · -- the binade did not change or the result is smaller
    have hmax : Max.max (exponent |r|) (-1022) ≤ e := max_le hcase he
    refine round_eq_self r (n * ((2 ^ (e - Max.max (exponent |r|) (-1022)).toNat : ℕ) : ℤ)) ?_ hlt
    generalize Max.max (exponent |r|) (-1022) = m at hmax
    have hp := pow2_of_nonneg (e - m) (by omega)
    calc r = (n : ℚ) * pow2 (e - 52) := hrn
      _ = (n : ℚ) * (pow2 (e - m) * pow2 (m - 52)) := by
          rw [← pow2_add]; congr 2; ring
      _ = ((n * ((2 ^ (e - m).toNat : ℕ) : ℤ) : ℤ) : ℚ) * pow2 (m - 52) := by
          rw [hp]; push_cast; ring
  · -- the result is the power of two that opens the next binade
    have hEeq : exponent |r| = e + 1 := by omega
    have hmax : Max.max (exponent |r|) (-1022) = e + 1 := by
      rw [hEeq]; exact max_eq_left (by omega)
    have hrge : pow2 (e + 1) ≤ |r| := by rw [← hEeq]; exact hE1
    have hreq : |r| = pow2 53 * pow2 (e - 52) := by
      have : pow2 (e + 1) = pow2 53 * pow2 (e - 52) := by rw [← pow2_add]; congr 1; ring
      rw [← this]
      exact le_antisymm hrle hrge
    have hneq : |(n : ℚ)| = pow2 53 := by
      rw [hrn, abs_mul, abs_of_pos hu] at hreq
      exact mul_right_cancel₀ hu.ne' hreq
    have hn : n = 2 ^ 53 ∨ n = -(2 ^ 53) := by
      rw [h53] at hneq
      have : |n| = (2 ^ 53 : ℤ) := by
        have h' : ((|n| : ℤ) : ℚ) = ((2 ^ 53 : ℤ) : ℚ) := by rw [Int.cast_abs]; exact hneq
        exact_mod_cast h'
      rcases abs_eq (by norm_num : (0 : ℤ) ≤ 2 ^ 53) |>.1 this with h | h
      · exact Or.inl h
      · exact Or.inr h
    have hstep : pow2 (e + 1 - 52) = 2 * pow2 (e - 52) := by
      have : e + 1 - 52 = 1 + (e - 52) := by ring
      rw [this, pow2_add]
      congr 1
    rcases hn with hn | hn
    · refine round_eq_self r (2 ^ 52) ?_ hlt
      rw [hmax, hstep]
      calc r = (n : ℚ) * pow2 (e - 52) := hrn
        _ = ((2 ^ 52 : ℤ) : ℚ) * (2 * pow2 (e - 52)) := by rw [hn]; push_cast; ring
    · refine round_eq_self r (-(2 ^ 52)) ?_ hlt
      rw [hmax, hstep]
      calc r = (n : ℚ) * pow2 (e - 52) := hrn
        _ = ((-(2 ^ 52) : ℤ) : ℚ) * (2 * pow2 (e - 52)) := by rw [hn]; push_cast; ring

theorem isDouble_round (q : ℚ) : (round q).IsDouble := by
  cases h : round q with
  | fin r => exact round_round q r h
  | posInf => trivial
  | negInf => trivial
  | nan => trivial

/-- The product of two numbers is a number of the language, whatever rationals the factors
carry. -/
theorem isDouble_mul (a b : Number) : (a * b).IsDouble := by
  cases a <;> cases b <;>
    first
    | exact isDouble_round _
    | trivial
    | (show (Number.mul _ _).IsDouble
       simp only [Number.mul]
       split_ifs <;> trivial)

/-- Subtracting zero from a number of the language gives the number. -/
theorem sub_zero_of_isDouble (x : Number) (h : x.IsDouble) : x - fin 0 = x := by
  cases x with
  | fin q =>
    rw [fin_sub, sub_zero]
    exact h
  | posInf => rfl
  | negInf => rfl
  | nan => rfl

theorem round_zero : round 0 = fin 0 := by
  simp [round]

/-- The position of a single line: `y - 0 * H / 2` is `y` for a finite `H`. -/
theorem single_line_position (y H : Number) (hH : H.isFinite = true) (hy : y.IsDouble) :
    y - 0 * H / 2 = y := by
  obtain ⟨hq, rfl⟩ := (isFinite_iff H).1 hH
  rw [zero_eq, fin_mul, zero_mul, round_zero, two_eq, fin_div _ _ (by norm_num), zero_div,
    round_zero]
  exact sub_zero_of_isDouble y hy

/-- Rounding to the nearest integer: the result is at most one half away, and exactly one
half away only when it is even. -/
theorem roundHalfEven_near (t : ℚ) :
    |(roundHalfEven t : ℚ) - t| ≤ 1 / 2
      ∧ (|(roundHalfEven t : ℚ) - t| = 1 / 2 → roundHalfEven t % 2 = 0) := by
  have h1 : (⌊t⌋ : ℚ) ≤ t := Int.floor_le t
  have h2 : t < (⌊t⌋ : ℚ) + 1 := Int.lt_floor_add_one t
  unfold roundHalfEven
  simp only []
  split_ifs with ha hb hc
  · constructor
    · rw [abs_le]; constructor <;> linarith
    · intro h
      rw [abs_sub_comm, abs_of_nonneg (by linarith)] at h
      linarith
  · constructor
    · push_cast; rw [abs_le]; constructor <;> linarith
    · intro h
      push_cast at h
      rw [abs_of_nonneg (by linarith)] at h
      linarith
  · exact ⟨by rw [abs_le]; constructor <;> linarith, fun _ => hc⟩
  · constructor
    · push_cast; rw [abs_le]; constructor <;> linarith
    · intro _
      omega

/-- Rounding to binary64 is correct rounding: a finite result is a whole multiple of the
unit in the last place `2^(e-52)` of the binade of the rational (`e` its exponent, at least
`-1022`), at most half a unit away from it, and exactly half a unit away only when the
multiple is even. -/
theorem round_spec (q r : ℚ) (hq : q ≠ 0) (h : round q = fin r) :
    ∃ n : ℤ, r = n * pow2 (Max.max (exponent |q|) (-1022) - 52)
      ∧ |r - q| ≤ pow2 (Max.max (exponent |q|) (-1022) - 52) / 2
      ∧ (|r - q| = pow2 (Max.max (exponent |q|) (-1022) - 52) / 2 → n % 2 = 0) := by
  unfold round at h
  rw [if_neg hq] at h
  simp only [] at h
  generalize Max.max (exponent |q|) (-1022) = e at h
  have hu := pow2_pos (e - 52)
  split_ifs at h with hov hneg
  injection h with h
  obtain ⟨hn1, hn2⟩ := roundHalfEven_near (q / pow2 (e - 52))
  generalize roundHalfEven (q / pow2 (e - 52)) = n at h hn1 hn2
  have hdist : |r - q| = |(n : ℚ) - q / pow2 (e - 52)| * pow2 (e - 52) := by
    rw [← h, ← abs_of_pos hu, ← abs_mul, abs_of_pos hu, sub_mul, div_mul_cancel₀ _ hu.ne']
  refine ⟨n, h.symm, ?_, ?_⟩
  · rw [hdist]
    calc |(n : ℚ) - q / pow2 (e - 52)| * pow2 (e - 52) ≤ 1 / 2 * pow2 (e - 52) :=
          mul_le_mul_of_nonneg_right hn1 hu.le
      _ = pow2 (e - 52) / 2 := by ring
  · intro heq
    apply hn2
    rw [hdist] at heq
    have : |(n : ℚ) - q / pow2 (e - 52)| * pow2 (e - 52) = 1 / 2 * pow2 (e - 52) := by
      rw [heq]; ring
    exact mul_right_cancel₀ hu.ne' this

end Number

/-! ## Word wrap -/

theorem split_ne_nil (sep : Nat) (s : JSString) : split sep s ≠ [] := by
  induction s with
  | nil => simp [split]
  | cons c cs ih =>
    unfold split
    split_ifs
    · simp
    · split <;> simp

theorem not_mem_of_mem_split (sep : Nat) (s : JSString) :
    ∀ w ∈ split sep s, sep ∉ w := by
  induction s with
  | nil => simp [split]
  | cons c cs ih =>
    intro w hw
    unfold split at hw
    split_ifs at hw with hc
    · rcases List.mem_cons.1 hw with rfl | hw
      · simp
      · exact ih w hw
    · split at hw
      · simp only [List.mem_singleton] at hw
        subst hw
        simpa using Ne.symm hc
      · rename_i w0 ws heq
        rcases List.mem_cons.1 hw with rfl | hw
        · have := ih w0 (by rw [heq]; exact List.mem_cons_self _ _)
          simp only [List.mem_cons, not_or]
          exact ⟨Ne.symm hc, this⟩
        · exact ih w (by rw [heq]; exact List.mem_cons_of_mem _ hw)

/-- Invariant of the wrapping loop for a property `G` that holds of every word and of every
line that fits: all flushed lines and (once a word has been read) the current line
satisfy `G`. -/
theorem wrapLoop_inv (measure : JSString → ℚ) (maxWidth : ℚ) (G : JSString → Prop)
    (hfit : ∀ l, measure l ≤ maxWidth → G l) :
    ∀ (ws : List JSString) (n : Nat) (lines : List JSString) (line : JSString),
      (∀ w ∈ ws, G w) → (∀ l ∈ lines, G l) → (0 < n → G line) → (n = 0 → line = []) →
      (∀ l ∈ (wrapLoop measure maxWidth n ws lines line).1, G l)
        ∧ ((0 < n ∨ ws ≠ []) → G (wrapLoop measure maxWidth n ws lines line).2) := by
  intro ws
  induction ws with
  | nil =>
    intro n lines line _ hl hline _
    refine ⟨by simpa [wrapLoop] using hl, ?_⟩
    rintro (h | h)
    · simpa [wrapLoop] using hline h
    · exact absurd rfl h
  | cons w ws ih =>
    intro n lines line hws hl hline h0
    have hw : G w := hws w (List.mem_cons_self _ _)
    have hws' : ∀ v ∈ ws, G v := fun v hv => hws v (List.mem_cons_of_mem _ hv)
    unfold wrapLoop
    by_cases hc : measure (testLine line w) > maxWidth ∧ n > 0
    · rw [if_pos hc]
      have hl' : ∀ l ∈ lines ++ [line], G l := by
        intro l hmem
        rcases List.mem_append.1 hmem with h | h
        · exact hl l h
        · rw [List.mem_singleton.1 h]; exact hline hc.2
      have := ih (n + 1) (lines ++ [line]) w hws' hl' (fun _ => hw) (by omega)
      exact ⟨this.1, fun _ => this.2 (Or.inl (Nat.succ_pos n))⟩
    · rw [if_neg hc]
      have ht : G (testLine line w) := by
        rcases Nat.eq_zero_or_pos n with hn | hn
        · rw [h0 hn]; simpa [testLine] using hw
        · apply hfit
          by_contra hgt
          exact hc ⟨lt_of_not_le hgt, hn⟩
      have := ih (n + 1) lines _ hws' hl (fun _ => ht) (by omega)
      exact ⟨this.1, fun _ => this.2 (Or.inl (Nat.succ_pos n))⟩

/-- C2. Every line `wrapText` produces either measures at most `maxWidth`, or is a single
word of the input (a piece of `text.split(" ")`, so it contains no space) alone on its line
whose own measured width exceeds `maxWidth`. -/
theorem wrapLines_width_bound (measure : JSString → ℚ) (text : JSString) (maxWidth : ℚ) :
    ∀ l ∈ wrapLines measure text maxWidth,
      measure l ≤ maxWidth ∨ (l ∈ split 32 text ∧ 32 ∉ l ∧ maxWidth < measure l) := by
  have hword : ∀ w ∈ split 32 text,
      measure w ≤ maxWidth ∨ (w ∈ split 32 text ∧ 32 ∉ w ∧ maxWidth < measure w) := by
    intro w hw
    rcases le_or_lt (measure w) maxWidth with h | h
    · exact Or.inl h
    · exact Or.inr ⟨hw, not_mem_of_mem_split 32 text w hw, h⟩
  have key := wrapLoop_inv measure maxWidth
    (fun l => measure l ≤ maxWidth ∨ (l ∈ split 32 text ∧ 32 ∉ l ∧ maxWidth < measure l))
    (fun l h => Or.inl h) (split 32 text) 0 [] [] hword (by simp) (by simp) (by simp)
  intro l hl
  unfold wrapLines at hl
  rcases List.mem_append.1 hl with h | h
  · exact key.1 l h
  · rw [List.mem_singleton.1 h]
    exact key.2 (Or.inr (split_ne_nil 32 text))

/-- Witness for C2: with every unit 10 wide and `maxWidth = 30`, the text `"abcde fg"` wraps
to the over-wide word `"abcde"` alone on a line, then `"fg"`. -/
theorem wrapLines_width_bound_witness :
    lit "abcde" ∈ wrapLines monoWidth (lit "abcde fg") 30
      ∧ (monoWidth (lit "abcde") ≤ 30
        ∨ (lit "abcde" ∈ split 32 (lit "abcde fg") ∧ 32 ∉ lit "abcde"
          ∧ 30 < monoWidth (lit "abcde"))) :=
  ⟨by decide!, wrapLines_width_bound monoWidth (lit "abcde fg") 30 (lit "abcde") (by decide!)⟩

/-- The `forEach` of `wrapText` calls `drawFn` on every line with the position
`positionsFrom` pairs it with. -/
theorem drawLoop_eq_foldl {σ : Type} (drawFn : σ → JSString → Number → σ) (H : Number) :
    ∀ (lines : List JSString) (y0 : Number) (s : σ),
      drawLoop drawFn H lines y0 s
        = (positionsFrom H lines y0).foldl (fun acc p => drawFn acc p.1 p.2) s := by
  intro lines
  induction lines with
  | nil => intro y0 s; rfl
  | cons ln rest ih =>
    intro y0 s
    simp only [drawLoop, positionsFrom, List.foldl_cons]
    exact ih _ _

theorem wrapText_eq_foldl {σ : Type} (measure : JSString → ℚ) (text : JSString)
    (x y maxWidth H : Number) (drawFn : σ → JSString → Number → σ) (s : σ) :
    wrapText measure text x y maxWidth H drawFn s
        = (linePositions (wrapLinesNum measure text maxWidth) y H).foldl
            (fun acc p => drawFn acc p.1 p.2) s := by
  unfold wrapText linePositions
  exact drawLoop_eq_foldl drawFn H _ _ s

/-- Where no sum rounds, the positions that start at `c + k * h` are `c + i * h`. -/
theorem positionsFrom_exact (c h : ℚ) :
    ∀ (lines : List JSString) (k : ℕ),
      (∀ i, k < i → i < k + lines.length → IsBinary64 (c + i * h)) →
      positionsFrom (Number.fin h) lines (Number.fin (c + k * h))
        = (lines.enumFrom k).map fun p => (p.2, Number.fin (c + p.1 * h)) := by
  intro lines
  induction lines with
  | nil => intro k _; rfl
  | cons ln rest ih =>
    intro k hrep
    simp only [positionsFrom, List.enumFrom_cons, List.map_cons]
    congr 1
    cases rest with
    | nil => rfl
    | cons ln' rest' =>
      have hstep : Number.fin (c + k * h) + Number.fin h = Number.fin (c + (k + 1 : ℕ) * h) := by
        have e : c + k * h + h = c + (k + 1 : ℕ) * h := by push_cast; ring
        show Number.round (c + k * h + h) = _
        rw [e]
        exact hrep (k + 1) (by omega) (by simp)
      rw [hstep]
      apply ih
      intro i h1 h2
      apply hrep i (by omega)
      simp only [List.length_cons] at h2 ⊢
      omega

/-- Where no operation rounds, line `i` of `N` sits at `y - (N-1)*H/2 + i*H`. -/
theorem linePositions_exact (lines : List JSString) (y H : ℚ)
    (hN : lines.length ≤ 2 ^ 53)
    (h1 : IsBinary64 (((lines.length : ℚ) - 1) * H))
    (h2 : IsBinary64 (((lines.length : ℚ) - 1) * H / 2))
    (h3 : ∀ i, i < lines.length → IsBinary64 (y - ((lines.length : ℚ) - 1) * H / 2 + i * H)) :
    linePositions lines (Number.fin y) (Number.fin H)
      = lines.enum.map fun p =>
          (p.2, Number.fin (y - ((lines.length : ℚ) - 1) * H / 2 + p.1 * H)) := by
  cases hl : lines with
  | nil => rfl
  | cons ln rest =>
    rw [← hl]
    have hpos : 1 ≤ lines.length := by rw [hl]; simp
    unfold linePositions
    have e1 : ((lines.length : ℕ) : Number) - 1 = Number.fin ((lines.length : ℚ) - 1) := by
      rw [Number.natCast_eq _ hN, Number.one_eq]
      show Number.round ((lines.length : ℚ) - 1) = _
      have : ((lines.length : ℚ) - 1) = ((lines.length - 1 : ℕ) : ℚ) := by
        rw [Nat.cast_sub hpos]; simp
      rw [this]
      exact Number.round_natCast _ (by omega)
    have e2 : Number.fin ((lines.length : ℚ) - 1) * Number.fin H
        = Number.fin (((lines.length : ℚ) - 1) * H) := h1
    have e3 : Number.fin (((lines.length : ℚ) - 1) * H) / 2
        = Number.fin (((lines.length : ℚ) - 1) * H / 2) := by
      rw [Number.two_eq, Number.fin_div _ _ (by norm_num)]
      exact h2
    have e4 : Number.fin y - Number.fin (((lines.length : ℚ) - 1) * H / 2)
        = Number.fin (y - ((lines.length : ℚ) - 1) * H / 2 + (0 : ℕ) * H) := by
      have := h3 0 hpos
      simp only [Nat.cast_zero, zero_mul, add_zero] at this ⊢
      exact this
    rw [e1, e2, e3, e4]
    rw [positionsFrom_exact (y - ((lines.length : ℚ) - 1) * H / 2) H lines 0]
    · rfl
    · intro i _ hi
      exact h3 i (by omega)

/-- C3, amended. `wrapText` calls `drawFn` once per line, in order: on the first of `N` lines
with `y - (N-1)*H/2`, on every other line with the position of the line before plus `H`,
every operation rounded to binary64. For one line that is `y - 0*H/2`, which is `y` when
`H` is finite (and `y` a number of the language); for two lines `y - 1*H/2` and that plus `H`; for three `y - 2*H/2`, that plus
`H`, and that plus `H` again. Where `(N-1)*H`, `(N-1)*H/2` and the `N` values
`y - (N-1)*H/2 + i*H` are binary64 numbers, so that no operation rounds, line `i` is at
exactly `y - (N-1)*H/2 + i*H`. -/
theorem wrapText_line_positions {σ : Type} (measure : JSString → ℚ) (text : JSString)
    (x y maxWidth H : Number) (drawFn : σ → JSString → Number → σ) (s : σ) :
    wrapText measure text x y maxWidth H drawFn s
        = (linePositions (wrapLinesNum measure text maxWidth) y H).foldl
            (fun acc p => drawFn acc p.1 p.2) s
    ∧ (∀ a, wrapLinesNum measure text maxWidth = [a] →
        wrapText measure text x y maxWidth H drawFn s = drawFn s a (y - 0 * H / 2))
    ∧ (∀ a, wrapLinesNum measure text maxWidth = [a] → H.isFinite = true → y.IsDouble →
        wrapText measure text x y maxWidth H drawFn s = drawFn s a y)
    ∧ (∀ a b, wrapLinesNum measure text maxWidth = [a, b] →
        wrapText measure text x y maxWidth H drawFn s
          = drawFn (drawFn s a (y - 1 * H / 2)) b (y - 1 * H / 2 + H))
    ∧ (∀ a b c, wrapLinesNum measure text maxWidth = [a, b, c] →
        wrapText measure text x y maxWidth H drawFn s
          = drawFn (drawFn (drawFn s a (y - 2 * H / 2)) b (y - 2 * H / 2 + H)) c
              (y - 2 * H / 2 + H + H))
    ∧ (∀ (lines : List JSString) (yq hq : ℚ), wrapLinesNum measure text maxWidth = lines →
        y = Number.fin yq → H = Number.fin hq → lines.length ≤ 2 ^ 53 →
        IsBinary64 (((lines.length : ℚ) - 1) * hq) →
        IsBinary64 (((lines.length : ℚ) - 1) * hq / 2) →
        (∀ i, i < lines.length →
          IsBinary64 (yq - ((lines.length : ℚ) - 1) * hq / 2 + i * hq)) →
        wrapText measure text x y maxWidth H drawFn s
          = lines.enum.foldl (fun acc p => drawFn acc p.2
              (Number.fin (yq - ((lines.length : ℚ) - 1) * hq / 2 + p.1 * hq))) s) := by
  have main := wrapText_eq_foldl measure text x y maxWidth H drawFn s
  have c1 : ((1 : ℕ) : Number) - 1 = 0 := by decide!
  have c2 : ((2 : ℕ) : Number) - 1 = 1 := by decide!
  have c3 : ((3 : ℕ) : Number) - 1 = 2 := by decide!
  have hexact : ∀ (lines : List JSString) (yq hq : ℚ),
      wrapLinesNum measure text maxWidth = lines →
      y = Number.fin yq → H = Number.fin hq → lines.length ≤ 2 ^ 53 →
      IsBinary64 (((lines.length : ℚ) - 1) * hq) →
      IsBinary64 (((lines.length : ℚ) - 1) * hq / 2) →
      (∀ i, i < lines.length →
        IsBinary64 (yq - ((lines.length : ℚ) - 1) * hq / 2 + i * hq)) →
      wrapText measure text x y maxWidth H drawFn s
        = lines.enum.foldl (fun acc p => drawFn acc p.2
            (Number.fin (yq - ((lines.length : ℚ) - 1) * hq / 2 + p.1 * hq))) s := by
    intro lines yq hq hl hy hH hN h1 h2 h3
    rw [main, hl, hy, hH, linePositions_exact lines yq hq hN h1 h2 h3, List.foldl_map]
  have hone : ∀ a, wrapLinesNum measure text maxWidth = [a] →
      wrapText measure text x y maxWidth H drawFn s = drawFn s a (y - 0 * H / 2) := by
    intro a h
    rw [main, h]
    simp only [linePositions, positionsFrom, List.length_cons, List.length_nil, List.foldl_cons,
      List.foldl_nil, Nat.zero_add, c1]
  refine ⟨main, hone, ?_, ?_, ?_, hexact⟩
  · intro a h hH hy
    rw [hone a h, Number.single_line_position y H hH hy]
  · intro a b h
    rw [main, h]
    simp only [linePositions, positionsFrom, List.length_cons, List.length_nil, List.foldl_cons,
      List.foldl_nil, Nat.zero_add, c2]
  · intro a b c h
    rw [main, h]
    simp only [linePositions, positionsFrom, List.length_cons, List.length_nil, List.foldl_cons,
      List.foldl_nil, Nat.zero_add, c3]

/-- Witness for C3: `"a b"` with every unit 10 wide and `maxWidth = 10` gives two lines; for
`y = 100`, `H = 10` nothing rounds and they are painted at 95 and 105. -/
theorem wrapText_line_positions_witness :
    wrapLinesNum monoWidth (lit "a b") 10 = [lit "a", lit "b"]
      ∧ wrapText monoWidth (lit "a b") 7 100 10 10
          (fun (acc : List (JSString × Number)) ln ly => acc ++ [(ln, ly)]) []
        = [(lit "a", 95), (lit "b", 105)] :=
  ⟨by decide!,
   ((wrapText_line_positions monoWidth (lit "a b") 7 100 10 10
      (fun (acc : List (JSString × Number)) ln ly => acc ++ [(ln, ly)]) []).2.2.2.2.2
      [lit "a", lit "b"] 100 10 (by decide!) (by decide!) (by decide!) (by decide!) (by decide!)
      (by decide!) (by decide!)).trans (by decide!)⟩

/-- C3 as stated fails in binary64 arithmetic. With every unit 10 wide and `maxWidth = 10`
the text `"a b c d"` wraps to four lines; for `y = 10` and `H = 0.1` they are painted at
9.85, 9.95, 10.049999999999999 and 10.149999999999999. The last position is not
`y - (N-1)*H/2 + 3*H`, neither as binary64 arithmetic evaluates that expression (10.15) nor
as a rational, and it is not the rational `H` below the third. -/
theorem wrapText_positions_rounded :
    wrapText monoWidth (lit "a b c d") 0 10 10 0.1
        (fun (acc : List (JSString × Number)) ln ly => acc ++ [(ln, ly)]) []
      = [(lit "a", 9.85), (lit "b", 9.95), (lit "c", 10.049999999999999),
         (lit "d", 10.149999999999999)]
    ∧ (10.149999999999999 : Number) ≠ 10 - (4 - 1) * 0.1 / 2 + 3 * 0.1
    ∧ (10 : Number) - (4 - 1) * 0.1 / 2 + 3 * 0.1 = 10.15
    ∧ (∀ p h : ℚ, (10.149999999999999 : Number) = Number.fin p →
        (0.1 : Number) = Number.fin h → p ≠ 10 - (4 - 1) * h / 2 + 3 * h)
    ∧ (∀ p3 p2 h : ℚ, (10.149999999999999 : Number) = Number.fin p3 →
        (10.049999999999999 : Number) = Number.fin p2 →
        (0.1 : Number) = Number.fin h → p3 - p2 ≠ h) := by
  have e3 : (10.149999999999999 : Number) = Number.fin (1428485506806579 / 140737488355328) := by
    decide!
  have e2 : (10.049999999999999 : Number) = Number.fin (5657647031884185 / 562949953421312) := by
    decide!
  have eh : (0.1 : Number) = Number.fin (3602879701896397 / 36028797018963968) := by decide!
  refine ⟨by decide!, by decide!, by decide!, ?_, ?_⟩
  · intro p h hp hh
    rw [e3] at hp
    rw [eh] at hh
    cases hp
    cases hh
    norm_num
  · intro p3 p2 h hp3 hp2 hh
    rw [e3] at hp3
    rw [e2] at hp2
    rw [eh] at hh
    cases hp3
    cases hp2
    cases hh
    norm_num

/-- C4 fails on the code. For the text `" abcdefghijk"` (a leading space) with every unit 10
wide and `maxWidth = 90`, the first word is empty and the second is too wide, so the empty
current line is flushed and the word stands on the second line; likewise for `" x"` at
`maxWidth = 0`. -/
theorem wrapLines_flushes_empty_line :
    wrapLines monoWidth (lit " abcdefghijk") 90 = [[], lit "abcdefghijk"]
      ∧ wrapLines monoWidth (lit " x") 0 = [[], lit "x"]
      ∧ ¬ ∀ (measure : JSString → ℚ) (text : JSString) (maxWidth : ℚ),
          ∀ l ∈ (wrapLines measure text maxWidth).dropLast, l ≠ [] := by
  refine ⟨by decide!, by decide!, fun h => ?_⟩
  exact h monoWidth (lit " abcdefghijk") 90 [] (by decide!) rfl

theorem testLine_ne_nil (line w : JSString) (h : line ≠ [] ∨ w ≠ []) :
    testLine line w ≠ [] := by
  unfold testLine
  rcases h with h | h
  · simp [h]
  · simp [h]

/-! ## Painting a box -/

theorem foldl_paint (mk : JSString → Number → Number → PaintState → DrawOp) (x' : Number) :
    ∀ (l : List (JSString × Number)) (ctx : Ctx),
      l.foldl (fun (acc : Ctx) p =>
          ({ acc with log := acc.log ++ [mk p.1 x' p.2 acc.state] } : Ctx)) ctx
        = { state := ctx.state, log := ctx.log ++ l.map fun p => mk p.1 x' p.2 ctx.state } := by
  intro l
  induction l with
  | nil => intro ctx; simp
  | cons p rest ih =>
    intro ctx
    simp only [List.foldl_cons, List.map_cons]
    rw [ih]
    simp

/-- Running `wrapText` with a callback that paints each line at abscissa `x'` appends one
operation per wrapped line, at the positions of the block, and leaves the paint state
alone. -/
theorem wrapText_paint (mk : JSString → Number → Number → PaintState → DrawOp)
    (measure : JSString → ℚ) (text : JSString) (x x' y maxWidth H : Number) (ctx : Ctx) :
    wrapText measure text x y maxWidth H
        (fun (c : Ctx) line ly => ({ c with log := c.log ++ [mk line x' ly c.state] } : Ctx)) ctx
      = { state := ctx.state,
          log := ctx.log ++ (linePositions (wrapLinesNum measure text maxWidth) y H).map
            fun p => mk p.1 x' p.2 ctx.state } := by
  rw [wrapText_eq_foldl]
  exact foldl_paint mk x' _ ctx

theorem setTextAndShadow_style (P : Platform) (st : PaintState) (b : TextBox) :
    (setTextAndShadow P st b).style = boxStyle P b := by
  unfold setTextAndShadow boxStyle
  cases b.shadow <;> simp

theorem strokeState_style (P : Platform) (st : PaintState) (b : TextBox) :
    (strokeState P st b).style = boxStyle P b := by
  unfold strokeState setStroke
  exact setTextAndShadow_style P st b

theorem fillState_style (P : Platform) (st : PaintState) (b : TextBox) :
    (fillState P st b).style = boxStyle P b := by
  unfold fillState
  split_ifs
  · exact strokeState_style P st b
  · exact setTextAndShadow_style P st b

/-- The effect of `drawTextBox`: the paint state becomes `fillState`, and the log grows by
the stroke pass (when `strokeWidth > 0`) followed by the fill pass, both over the wrapped
lines of the displayed text at the positions of the block around `b.y * h`. -/
theorem drawTextBox_eq (P : Platform) (ctx : Ctx) (b : TextBox) (w h : Number) :
    drawTextBox P ctx b w h =
      { state := fillState P ctx.state b,
        log := ctx.log
          ++ (if b.strokeWidth > 0 then
                (linePositions (boxLines P b w) (b.y * h) (b.fontSize * 1.2)).map
                  fun p => DrawOp.strokeText p.1 (b.x * w) p.2 (strokeState P ctx.state b)
              else [])
          ++ (linePositions (boxLines P b w) (b.y * h) (b.fontSize * 1.2)).map
                fun p => DrawOp.fillText p.1 (b.x * w) p.2 (fillState P ctx.state b) } := by
  unfold drawTextBox
  simp only [Ctx.strokeText, Ctx.fillText]
  by_cases hs : b.strokeWidth > 0
  · simp only [if_pos hs]
    rw [wrapText_paint DrawOp.strokeText, wrapText_paint DrawOp.fillText]
    simp only [fillState, if_pos hs, strokeState, boxLines, displayText]
    rw [show (setStroke (setTextAndShadow P ctx.state b) b).style = boxStyle P b from
      strokeState_style P ctx.state b]
  · simp only [if_neg hs]
    rw [wrapText_paint DrawOp.fillText]
    simp only [fillState, if_neg hs, boxLines, displayText, setTextAndShadow_style,
      List.append_nil]

/-- The shapes `drawTextBox` adds to the log are `boxShapes`. -/
theorem drawTextBox_shapes (P : Platform) (ctx : Ctx) (b : TextBox) (w h : Number) :
    (drawTextBox P ctx b w h).log.map DrawOp.shape
      = ctx.log.map DrawOp.shape ++ boxShapes P b w h := by
  rw [drawTextBox_eq]
  simp only [boxShapes, boxStrokes, boxFills, List.map_append, List.append_assoc]
  split_ifs <;> simp [List.map_map, Function.comp_def, DrawOp.shape]

theorem fillTexts_append (a b : List DrawOp) : fillTexts (a ++ b) = fillTexts a ++ fillTexts b := by
  simp [fillTexts, List.filterMap_append]

theorem strokeTexts_append (a b : List DrawOp) :
    strokeTexts (a ++ b) = strokeTexts a ++ strokeTexts b := by
  simp [strokeTexts, List.filterMap_append]

theorem positionsFrom_map_fst (H : Number) :
    ∀ (lines : List JSString) (y0 : Number), (positionsFrom H lines y0).map Prod.fst = lines := by
  intro lines
  induction lines with
  | nil => intro y0; rfl
  | cons ln rest ih =>
    intro y0
    simp only [positionsFrom, List.map_cons, ih]

theorem linePositions_map_fst (lines : List JSString) (y H : Number) :
    (linePositions lines y H).map Prod.fst = lines :=
  positionsFrom_map_fst H lines _

theorem linePositions_length (lines : List JSString) (y H : Number) :
    (linePositions lines y H).length = lines.length := by
  rw [← List.length_map (linePositions lines y H) Prod.fst, linePositions_map_fst]

theorem fillTexts_fill (l : List (JSString × Number)) (x : Number) (st : PaintState) :
    fillTexts (l.map fun p => DrawOp.fillText p.1 x p.2 st) = l.map Prod.fst := by
  induction l with
  | nil => rfl
  | cons p rest ih =>
    simp only [List.map_cons]
    rw [← ih]
    simp [fillTexts]

theorem fillTexts_stroke (l : List (JSString × Number)) (x : Number) (st : PaintState) :
    fillTexts (l.map fun p => DrawOp.strokeText p.1 x p.2 st) = [] := by
  induction l with
  | nil => rfl
  | cons p rest ih =>
    simp only [List.map_cons]
    rw [← ih]
    simp [fillTexts]

theorem strokeTexts_stroke (l : List (JSString × Number)) (x : Number) (st : PaintState) :
    strokeTexts (l.map fun p => DrawOp.strokeText p.1 x p.2 st) = l.map Prod.fst := by
  induction l with
  | nil => rfl
  | cons p rest ih =>
    simp only [List.map_cons]
    rw [← ih]
    simp [strokeTexts]

theorem strokeTexts_fill (l : List (JSString × Number)) (x : Number) (st : PaintState) :
    strokeTexts (l.map fun p => DrawOp.fillText p.1 x p.2 st) = [] := by
  induction l with
  | nil => rfl
  | cons p rest ih =>
    simp only [List.map_cons]
    rw [← ih]
    simp [strokeTexts]

/-- C5. `drawTextBox` sets the direction to `rtl` exactly when `isRTL` holds of the original
`b.text`, every operation it paints is issued under that direction, and the painted text is
the wrapped `b.text.toUpperCase()` when `b.uppercase` is set and the wrapped `b.text`
otherwise; changing only the `uppercase` flag never changes the direction. -/
theorem drawTextBox_direction_text (P : Platform) (ctx : Ctx) (b : TextBox) (w h : Number) :
    ((drawTextBox P ctx b w h).state.style.direction = Direction.rtl ↔ isRTL b.text = true)
    ∧ (drawTextBox P ctx b w h).state.style.direction
        = (if isRTL b.text then Direction.rtl else Direction.ltr)
    ∧ (∀ op ∈ (drawTextBox P ctx b w h).log.drop ctx.log.length,
        op.state.style.direction = (if isRTL b.text then Direction.rtl else Direction.ltr))
    ∧ fillTexts ((drawTextBox P ctx b w h).log.drop ctx.log.length)
        = wrapLinesNum (P.measureText (boxStyle P b))
            (if b.uppercase then P.toUpperCase b.text else b.text) (w * 0.9)
    ∧ strokeTexts ((drawTextBox P ctx b w h).log.drop ctx.log.length)
        = (if b.strokeWidth > 0 then
            wrapLinesNum (P.measureText (boxStyle P b))
              (if b.uppercase then P.toUpperCase b.text else b.text) (w * 0.9)
          else [])
    ∧ (∀ u : Bool, (drawTextBox P ctx { b with uppercase := u } w h).state.style.direction
        = (drawTextBox P ctx b w h).state.style.direction) := by
  have hdir : ∀ b' : TextBox, (drawTextBox P ctx b' w h).state.style.direction
      = (if isRTL b'.text then Direction.rtl else Direction.ltr) := by
    intro b'
    rw [drawTextBox_eq]
    simp only [fillState_style, boxStyle]
  have hdrop : (drawTextBox P ctx b w h).log.drop ctx.log.length
      = (if b.strokeWidth > 0 then
            (linePositions (boxLines P b w) (b.y * h) (b.fontSize * 1.2)).map
              fun p => DrawOp.strokeText p.1 (b.x * w) p.2 (strokeState P ctx.state b)
          else [])
        ++ (linePositions (boxLines P b w) (b.y * h) (b.fontSize * 1.2)).map
              fun p => DrawOp.fillText p.1 (b.x * w) p.2 (fillState P ctx.state b) := by
    rw [drawTextBox_eq]
    simp only [List.append_assoc, List.drop_left]
  refine ⟨?_, hdir b, ?_, ?_, ?_, ?_⟩
  · rw [hdir b]
    cases isRTL b.text <;> simp
  · intro op hop
    rw [hdrop] at hop
    rcases List.mem_append.1 hop with hop | hop
    · split_ifs at hop
      · obtain ⟨p, -, rfl⟩ := List.mem_map.1 hop
        simp only [DrawOp.state, strokeState_style, boxStyle]
      · simp at hop
    · obtain ⟨p, -, rfl⟩ := List.mem_map.1 hop
      simp only [DrawOp.state, fillState_style, boxStyle]
  · rw [hdrop, fillTexts_append, fillTexts_fill, linePositions_map_fst]
    by_cases hs : b.strokeWidth > 0
    · rw [if_pos hs, fillTexts_stroke]; rfl
    · rw [if_neg hs]; rfl
  · rw [hdrop, strokeTexts_append, strokeTexts_fill]
    by_cases hs : b.strokeWidth > 0
    · rw [if_pos hs, if_pos hs, strokeTexts_stroke, linePositions_map_fst, List.append_nil]; rfl
    · rw [if_neg hs, if_neg hs]; rfl
  · intro u
    rw [hdir, hdir]

/-- Witness for C5: the default box with the text `'hey שלום'` on an 800×400 image
paints its upper-cased text once, under direction `rtl`. -/
theorem drawTextBox_direction_text_witness :
    DrawOp.fillText (asciiUpper (lit "hey שלום")) 400 32
        (fillState monoPlatform PaintState.initial mixedBox)
      ∈ (drawTextBox monoPlatform Ctx.initial mixedBox 800 400).log.drop Ctx.initial.log.length
    ∧ (DrawOp.fillText (asciiUpper (lit "hey שלום")) 400 32
        (fillState monoPlatform PaintState.initial mixedBox)).state.style.direction
      = (if isRTL mixedBox.text then Direction.rtl else Direction.ltr)
    ∧ isRTL mixedBox.text = true :=
  ⟨by decide!,
   (drawTextBox_direction_text monoPlatform Ctx.initial mixedBox 800 400).2.2.1 _ (by decide!),
   by decide⟩

/-- C6. The operations `drawTextBox` issues are: when `strokeWidth > 0`, one stroke per
wrapped line followed by one fill per wrapped line; when `strokeWidth = 0` (or any value
not above 0), fills only. The earlier log is kept, and the fills (text, x, y) do not depend
on `strokeWidth`. -/
theorem drawTextBox_stroke_then_fill (P : Platform) (ctx : Ctx) (b : TextBox) (w h : Number) :
    ((drawTextBox P ctx b w h).log.drop ctx.log.length).map DrawOp.shape
        = (if b.strokeWidth > 0 then boxStrokes P b w h else []) ++ boxFills P b w h
    ∧ (drawTextBox P ctx b w h).log.take ctx.log.length = ctx.log
    ∧ (boxStrokes P b w h).length = (boxLines P b w).length
    ∧ (boxFills P b w h).length = (boxLines P b w).length
    ∧ (∀ s ∈ boxStrokes P b w h, s.isFill = false)
    ∧ (∀ s ∈ boxFills P b w h, s.isFill = true)
    ∧ (∀ sw : Number,
        (((drawTextBox P ctx { b with strokeWidth := sw } w h).log.drop ctx.log.length).map
            DrawOp.shape).filter Shape.isFill
          = (((drawTextBox P ctx b w h).log.drop ctx.log.length).map
            DrawOp.shape).filter Shape.isFill) := by
  have hshape : ∀ b' : TextBox,
      ((drawTextBox P ctx b' w h).log.drop ctx.log.length).map DrawOp.shape
        = boxShapes P b' w h := by
    intro b'
    rw [List.map_drop, ← List.length_map ctx.log DrawOp.shape, drawTextBox_shapes,
      List.drop_left]
  have hstrokes : ∀ b' : TextBox, ∀ s ∈ boxStrokes P b' w h, s.isFill = false := by
    intro b' s hs
    obtain ⟨p, -, rfl⟩ := List.mem_map.1 hs
    rfl
  have hfills : ∀ b' : TextBox, ∀ s ∈ boxFills P b' w h, s.isFill = true := by
    intro b' s hs
    obtain ⟨p, -, rfl⟩ := List.mem_map.1 hs
    rfl
  have hfilter : ∀ b' : TextBox, (boxShapes P b' w h).filter Shape.isFill = boxFills P b' w h := by
    intro b'
    unfold boxShapes
    rw [List.filter_append, List.filter_eq_self.2 (hfills b')]
    have : (if b'.strokeWidth > 0 then boxStrokes P b' w h else []).filter Shape.isFill = [] := by
      split_ifs
      · exact List.filter_eq_nil_iff.2 fun s hs => by simp [hstrokes b' s hs]
      · rfl
    rw [this, List.nil_append]
  refine ⟨?_, ?_, ?_, ?_, hstrokes b, hfills b, ?_⟩
  · rw [hshape]; rfl
  · rw [drawTextBox_eq]
    simp only [List.append_assoc, List.take_left]
  · simp [boxStrokes, linePositions_length]
  · simp [boxFills, linePositions_length]
  · intro sw
    rw [hshape, hshape, hfilter, hfilter]
    rfl

/-- Witness for C6: the first default box (`strokeWidth = 2`) on an 800×400 image paints
the stroke of `"TOP TEXT"` and then its fill, both at (400, 32); with `strokeWidth = 0`
only the fill. -/
theorem drawTextBox_stroke_then_fill_witness :
    ((drawTextBox monoPlatform Ctx.initial (defaultText 1) 800 400).log.map DrawOp.shape
        = [Shape.stroke (lit "TOP TEXT") 400 32, Shape.fill (lit "TOP TEXT") 400 32])
    ∧ ((drawTextBox monoPlatform Ctx.initial { defaultText 1 with strokeWidth := 0 } 800 400).log.map
          DrawOp.shape = [Shape.fill (lit "TOP TEXT") 400 32])
    ∧ (Shape.stroke (lit "TOP TEXT") 400 32).isFill = false :=
  ⟨by decide!, by decide!,
   (drawTextBox_stroke_then_fill monoPlatform Ctx.initial (defaultText 1) 800 400).2.2.2.2.1 _
     (by decide!)⟩

/-- C10. If the base image is not loaded, `drawPreview` is a no-op: the canvas (its size,
its paint state and everything painted on it) is left as it was and nothing is painted. -/
theorem drawPreview_no_image (P : Platform) (canvas : Option Canvas) (boxes : List TextBox) :
    drawPreview P canvas none boxes = canvas := by
  cases canvas <;> rfl

/-! ## The compositor -/

theorem foldl_drawTextBox_shapes (P : Platform) (w h : Number) :
    ∀ (boxes : List TextBox) (ctx : Ctx),
      (boxes.foldl (fun c b => drawTextBox P c b w h) ctx).log.map DrawOp.shape
        = ctx.log.map DrawOp.shape ++ boxes.flatMap fun b => boxShapes P b w h := by
  intro boxes
  induction boxes with
  | nil => intro ctx; simp
  | cons b rest ih =>
    intro ctx
    simp only [List.foldl_cons, List.flatMap_cons]
    rw [ih, drawTextBox_shapes, List.append_assoc]

theorem setTextAndShadow_scale (P : Platform) (st : PaintState) (b : TextBox) :
    (setTextAndShadow P st b).scaleX = st.scaleX ∧ (setTextAndShadow P st b).scaleY = st.scaleY := by
  unfold setTextAndShadow
  cases b.shadow <;> simp

theorem strokeState_scale (P : Platform) (st : PaintState) (b : TextBox) :
    (strokeState P st b).scaleX = st.scaleX ∧ (strokeState P st b).scaleY = st.scaleY := by
  unfold strokeState setStroke
  exact setTextAndShadow_scale P st b

theorem fillState_scale (P : Platform) (st : PaintState) (b : TextBox) :
    (fillState P st b).scaleX = st.scaleX ∧ (fillState P st b).scaleY = st.scaleY := by
  unfold fillState
  split_ifs
  · exact strokeState_scale P st b
  · exact setTextAndShadow_scale P st b

/-- Painting boxes never changes the scale of the context: it is the same after the last box
and under every operation painted. -/
theorem foldl_drawTextBox_scale (P : Platform) (w h : Number) (sx sy : Number) :
    ∀ (boxes : List TextBox) (ctx : Ctx),
      ctx.state.scaleX = sx → ctx.state.scaleY = sy →
      (∀ op ∈ ctx.log, op.state.scaleX = sx ∧ op.state.scaleY = sy) →
      (boxes.foldl (fun c b => drawTextBox P c b w h) ctx).state.scaleX = sx
        ∧ (boxes.foldl (fun c b => drawTextBox P c b w h) ctx).state.scaleY = sy
        ∧ ∀ op ∈ (boxes.foldl (fun c b => drawTextBox P c b w h) ctx).log,
            op.state.scaleX = sx ∧ op.state.scaleY = sy := by
  intro boxes
  induction boxes with
  | nil => intro ctx hx hy hlog; exact ⟨hx, hy, by simpa using hlog⟩
  | cons b rest ih =>
    intro ctx hx hy hlog
    simp only [List.foldl_cons]
    apply ih
    · rw [drawTextBox_eq]
      exact (fillState_scale P ctx.state b).1.trans hx
    · rw [drawTextBox_eq]
      exact (fillState_scale P ctx.state b).2.trans hy
    · intro op hop
      rw [drawTextBox_eq] at hop
      simp only [List.append_assoc, List.mem_append] at hop
      rcases hop with hop | hop | hop
      · exact hlog op hop
      · split_ifs at hop
        · obtain ⟨p, -, rfl⟩ := List.mem_map.1 hop
          exact ⟨(strokeState_scale P ctx.state b).1.trans hx,
            (strokeState_scale P ctx.state b).2.trans hy⟩
        · simp at hop
      · obtain ⟨p, -, rfl⟩ := List.mem_map.1 hop
        exact ⟨(fillState_scale P ctx.state b).1.trans hx,
          (fillState_scale P ctx.state b).2.trans hy⟩

/-- The two words `"TOP TEXT"` stay on one line when together they fit. -/
theorem wrapLines_top_text (measure : JSString → ℚ) (maxWidth : ℚ)
    (hfit : measure (lit "TOP TEXT") ≤ maxWidth) :
    wrapLines measure (lit "TOP TEXT") maxWidth = [lit "TOP TEXT"] := by
  have hsplit : split 32 (lit "TOP TEXT") = [lit "TOP", lit "TEXT"] := by decide
  have h1 : testLine [] (lit "TOP") = lit "TOP" := by decide
  have h2 : testLine (lit "TOP") (lit "TEXT") = lit "TOP TEXT" := by decide
  unfold wrapLines
  rw [hsplit]
  simp only [wrapLoop, h1, h2, gt_iff_lt, lt_self_iff_false, and_false, if_false,
    not_lt.2 hfit, false_and, List.nil_append]

/-- C7, amended. With a loaded `w × h` image `drawPreview` sizes the canvas to `2w × 2h`,
scales the context by 2 in both directions, clears, draws the image and then paints the
boxes in list order, every operation under that scale. Each box is painted as `boxShapes`
describes: anchored at `b.x * w`, wrapped at `w * 0.9`, with line height `b.fontSize * 1.2`,
its first line at `b.y * h - (N-1) * H / 2` and every further line `H` below the one before,
every product, quotient, difference and sum rounded to binary64; a box of one line is painted
at exactly `b.y * h` when its line height is finite. For an 800×400 image and a
box with text `"TOP TEXT"`, `x = 0.5`, `y = 0.08`, `fontSize = 48`, `strokeWidth = 2` whose
displayed text measures at most 720, the canvas is 1600×800, the wrap limit is 720 and the
text is one line stroked and filled at (400, 32). -/
theorem drawPreview_output (P : Platform) (cv : Canvas) (img : Image) (boxes : List TextBox) :
    (drawPreview P (some cv) (some img) boxes).map
        (fun c => (c.width, c.height, c.ctx.log.map DrawOp.shape))
      = some (img.naturalWidth * 2, img.naturalHeight * 2,
          [Shape.clear 0 0 img.naturalWidth img.naturalHeight,
           Shape.image img 0 0 img.naturalWidth img.naturalHeight]
          ++ boxes.flatMap fun b => boxShapes P b img.naturalWidth img.naturalHeight)
    ∧ (∀ c, drawPreview P (some cv) (some img) boxes = some c →
        c.ctx.state.scaleX = 2 ∧ c.ctx.state.scaleY = 2
          ∧ ∀ op ∈ c.ctx.log, op.state.scaleX = 2 ∧ op.state.scaleY = 2)
    ∧ (∀ (b : TextBox) (w h : Number),
        boxShapes P b w h
          = (if b.strokeWidth > 0 then
              (linePositions (wrapLinesNum (P.measureText (boxStyle P b)) (displayText P b)
                  (w * 0.9)) (b.y * h) (b.fontSize * 1.2)).map
                fun p => Shape.stroke p.1 (b.x * w) p.2
            else [])
          ++ (linePositions (wrapLinesNum (P.measureText (boxStyle P b)) (displayText P b)
                  (w * 0.9)) (b.y * h) (b.fontSize * 1.2)).map
                fun p => Shape.fill p.1 (b.x * w) p.2)
    ∧ (∀ (lines : List JSString) (y H : Number),
        linePositions lines y H
          = positionsFrom H lines (y - ((lines.length : Number) - 1) * H / 2)
        ∧ ∀ (ln : JSString) (rest : List JSString) (y0 : Number),
            positionsFrom H (ln :: rest) y0 = (ln, y0) :: positionsFrom H rest (y0 + H))
    ∧ (∀ (b : TextBox) (w h : Number) (a : JSString), boxLines P b w = [a] →
        (b.fontSize * 1.2).isFinite = true →
        boxShapes P b w h
          = (if b.strokeWidth > 0 then [Shape.stroke a (b.x * w) (b.y * h)] else [])
            ++ [Shape.fill a (b.x * w) (b.y * h)])
    ∧ (∀ b : TextBox, b.text = lit "TOP TEXT" → b.x = 0.5 → b.y = 0.08 → b.fontSize = 48 →
        b.strokeWidth = 2 → (b.uppercase = true → P.toUpperCase (lit "TOP TEXT") = lit "TOP TEXT") →
        P.measureText (boxStyle P b) (lit "TOP TEXT") ≤ 720 →
        img.naturalWidth = 800 → img.naturalHeight = 400 →
        ((800 : Number) * 0.9 = Number.fin 720
          ∧ boxLines P b 800 = [lit "TOP TEXT"]
          ∧ (drawPreview P (some cv) (some img) [b]).map
              (fun c => (c.width, c.height, c.ctx.log.map DrawOp.shape))
            = some (1600, 800,
                [Shape.clear 0 0 800 400, Shape.image img 0 0 800 400,
                 Shape.stroke (lit "TOP TEXT") 400 32, Shape.fill (lit "TOP TEXT") 400 32]))) := by
  have main : ∀ bs : List TextBox, (drawPreview P (some cv) (some img) bs).map
        (fun c => (c.width, c.height, c.ctx.log.map DrawOp.shape))
      = some (img.naturalWidth * 2, img.naturalHeight * 2,
          [Shape.clear 0 0 img.naturalWidth img.naturalHeight,
           Shape.image img 0 0 img.naturalWidth img.naturalHeight]
          ++ bs.flatMap fun b => boxShapes P b img.naturalWidth img.naturalHeight) := by
    intro bs
    simp only [drawPreview, Option.map_some', foldl_drawTextBox_shapes, Canvas.resize,
      Ctx.drawImage, Ctx.clearRect, Ctx.scale, List.nil_append, List.map_append, List.map_cons,
      List.map_nil, DrawOp.shape, List.cons_append]
  have hscale : (1 : Number) * ((2 : ℕ) : Number) = 2 := by decide!
  refine ⟨main boxes, ?_, ?_, ?_, ?_, ?_⟩
  · intro c hc
    simp only [drawPreview, Option.some.injEq] at hc
    subst hc
    have key := foldl_drawTextBox_scale P img.naturalWidth img.naturalHeight 2 2 boxes
      (((((Canvas.resize (img.naturalWidth * 2) (img.naturalHeight * 2)).ctx.scale
          ((2 : ℕ) : Number) ((2 : ℕ) : Number)).clearRect 0 0 img.naturalWidth
          img.naturalHeight).drawImage img 0 0 img.naturalWidth img.naturalHeight))
      (by simp only [Ctx.drawImage, Ctx.clearRect, Ctx.scale, Canvas.resize, PaintState.initial]
          exact hscale)
      (by simp only [Ctx.drawImage, Ctx.clearRect, Ctx.scale, Canvas.resize, PaintState.initial]
          exact hscale)
      (by
        intro op hop
        simp only [Ctx.drawImage, Ctx.clearRect, Ctx.scale, Canvas.resize, PaintState.initial,
          List.nil_append, List.cons_append, List.mem_cons, List.mem_singleton,
          List.not_mem_nil, or_false] at hop
        rcases hop with rfl | rfl
        · exact ⟨hscale, hscale⟩
        · exact ⟨hscale, hscale⟩)
    exact key
  · intro b w h
    rfl
  · intro lines y H
    exact ⟨rfl, fun _ _ _ => rfl⟩
  · intro b w h a hlines hH
    have c1 : ((1 : ℕ) : Number) - 1 = 0 := by decide!
    have hpos : linePositions [a] (b.y * h) (b.fontSize * 1.2) = [(a, b.y * h)] := by
      simp only [linePositions, positionsFrom, List.length_cons, List.length_nil, Nat.zero_add,
        c1]
      rw [Number.single_line_position _ _ hH (Number.isDouble_mul _ _)]
    unfold boxShapes boxStrokes boxFills
    rw [hlines, hpos]
    rfl
  · intro b htext hx hy hfs hsw hup hfit hw hh
    have h720 : (800 : Number) * 0.9 = Number.fin 720 := by decide!
    have hdisp : displayText P b = lit "TOP TEXT" := by
      unfold displayText
      by_cases hu : b.uppercase = true
      · rw [if_pos hu, htext]; exact hup hu
      · rw [if_neg hu, htext]
    have hlines : boxLines P b 800 = [lit "TOP TEXT"] := by
      unfold boxLines
      rw [hdisp, h720]
      exact wrapLines_top_text _ _ hfit
    refine ⟨h720, hlines, ?_⟩
    rw [main [b], hw, hh]
    have hpos : linePositions [lit "TOP TEXT"] (b.y * 400) (b.fontSize * 1.2)
        = [(lit "TOP TEXT", 32)] := by
      rw [hy, hfs]
      decide!
    have hshapes : boxShapes P b 800 400
        = [Shape.stroke (lit "TOP TEXT") 400 32, Shape.fill (lit "TOP TEXT") 400 32] := by
      unfold boxShapes boxStrokes boxFills
      rw [hlines, hpos, hsw, hx]
      have e1 : ((2 : Number) > 0) := by decide!
      have e2 : (0.5 : Number) * 800 = 400 := by decide!
      rw [if_pos e1, e2]
      rfl
    simp only [List.flatMap_cons, List.flatMap_nil, List.append_nil]
    rw [show ((800 : ℕ) : Number) = 800 from rfl, show ((400 : ℕ) : Number) = 400 from rfl,
      hshapes]
    rfl

/-- Witness for C7: the first default box on an 800×400 image with fixed-pitch text
(`"TOP TEXT"` is 80 wide). -/
theorem drawPreview_output_witness :
    (800 : Number) * 0.9 = Number.fin 720
      ∧ boxLines monoPlatform (defaultText 1) 800 = [lit "TOP TEXT"]
      ∧ (drawPreview monoPlatform (some (Canvas.resize 300 150))
            (some { src := lit "/images/1.png", naturalWidth := 800, naturalHeight := 400 })
            [defaultText 1]).map
          (fun c => (c.width, c.height, c.ctx.log.map DrawOp.shape))
        = some (1600, 800,
            [Shape.clear 0 0 800 400,
             Shape.image { src := lit "/images/1.png", naturalWidth := 800, naturalHeight := 400 }
               0 0 800 400,
             Shape.stroke (lit "TOP TEXT") 400 32, Shape.fill (lit "TOP TEXT") 400 32]) :=
  (drawPreview_output monoPlatform (Canvas.resize 300 150)
    { src := lit "/images/1.png", naturalWidth := 800, naturalHeight := 400 } []).2.2.2.2.2
    (defaultText 1) (by decide!) (by decide!) (by decide!) (by decide!) (by decide!)
    (by decide!) (by decide!) rfl rfl

/-- C7 as stated fails in binary64 arithmetic. On a 100×400 image with fixed-pitch text the
second default box (`y = 0.92`, `fontSize = 48`) wraps to `"BOTTOM"` and `"TEXT"`, painted at
339.2 and 396.79999999999995. The line height `48 * 1.2` is 57.599999999999994, not 57.6;
the second line is not at `b.y * h + H / 2`, which is 396.8; and the middle of the two
positions is not `b.y * h = 368`. -/
theorem drawPreview_block_off_centre :
    (drawPreview monoPlatform (some (Canvas.resize 300 150))
        (some { src := lit "/images/1.png", naturalWidth := 100, naturalHeight := 400 })
        [defaultText 2]).map
      (fun c => (c.width, c.height, c.ctx.log.map DrawOp.shape))
      = some (200, 800,
          [Shape.clear 0 0 100 400,
           Shape.image { src := lit "/images/1.png", naturalWidth := 100, naturalHeight := 400 }
             0 0 100 400,
           Shape.stroke (lit "BOTTOM") 50 339.2, Shape.stroke (lit "TEXT") 50 396.79999999999995,
           Shape.fill (lit "BOTTOM") 50 339.2, Shape.fill (lit "TEXT") 50 396.79999999999995])
    ∧ (defaultText 2).y * 400 = 368
    ∧ (defaultText 2).fontSize * 1.2 = 57.599999999999994
    ∧ (57.599999999999994 : Number) ≠ 57.6
    ∧ (defaultText 2).y * 400 + (defaultText 2).fontSize * 1.2 / 2 = 396.8
    ∧ (396.79999999999995 : Number) ≠ 396.8
    ∧ (∀ p0 p1 : ℚ, (339.2 : Number) = Number.fin p0 →
        (396.79999999999995 : Number) = Number.fin p1 → (p0 + p1) / 2 ≠ 368) := by
  have e0 : (339.2 : Number) = Number.fin (5967269506265907 / 17592186044416) := by decide!
  have e1 : (396.79999999999995 : Number) = Number.fin (1745144855606067 / 4398046511104) := by
    decide!
  refine ⟨by decide!, by decide!, by decide!, by decide!, by decide!, by decide!, ?_⟩
  intro p0 p1 h0 h1
  rw [e0] at h0
  rw [e1] at h1
  cases h0
  cases h1
  norm_num

/-! ## Percent-encoding and UTF-8 -/

theorem hexDigitValue_hexUpper (n : Nat) (h : n < 16) : hexDigitValue (hexUpper n) = some n := by
  interval_cases n <;> rfl

theorem hexDigitValue_hexLower (n : Nat) (h : n < 16) : hexDigitValue (hexLower n) = some n := by
  interval_cases n <;> rfl

theorem hexUpper_ne_u (n : Nat) (h : n < 16) : hexUpper n ≠ 117 := by
  interval_cases n <;> decide

theorem hexOctetAt_hexUpper (b : Nat) (hb : b < 256) (rest : JSString) :
    hexOctetAt (hexUpper (b / 16) :: hexUpper (b % 16) :: rest) = some b := by
  have h1 := hexDigitValue_hexUpper (b / 16) (by omega)
  have h2 := hexDigitValue_hexUpper (b % 16) (by omega)
  have h3 : 16 * (b / 16) + b % 16 = b := by omega
  simp only [hexOctetAt, h1, h2, h3]

theorem uriItemsLoop_pctOctet (b : Nat) (hb : b < 256) (rest : JSString) :
    uriItemsLoop 0 (pctOctet b ++ rest) = (uriItemsLoop 0 rest).map (UriItem.octet b :: ·) := by
  simp only [pctOctet, List.cons_append, List.nil_append]
  rw [uriItemsLoop, if_pos rfl, hexOctetAt_hexUpper b hb]
  simp only []
  rw [uriItemsLoop, uriItemsLoop]

theorem uriItemsLoop_unit (c : Nat) (hc : c ≠ 37) (rest : JSString) :
    uriItemsLoop 0 (c :: rest) = (uriItemsLoop 0 rest).map (UriItem.unit c :: ·) := by
  rw [uriItemsLoop, if_neg hc]

theorem uriItems_pctEncode (keep : Nat → Bool) (hkeep : ∀ b, keep b = true → b ≠ 37) :
    ∀ bytes : List Nat, (∀ b ∈ bytes, b < 256) →
      uriItems (pctEncode keep bytes) = some (itemsOf keep bytes) := by
  intro bytes
  unfold uriItems
  induction bytes with
  | nil => intro _; rfl
  | cons b rest ih =>
    intro hb
    have hrest := ih fun x hx => hb x (List.mem_cons_of_mem _ hx)
    have hlt := hb b (List.mem_cons_self _ _)
    unfold pctEncode at hrest ⊢
    unfold itemsOf at hrest ⊢
    simp only [List.flatMap_cons, List.map_cons]
    by_cases hk : keep b = true
    · simp only [hk, if_true, List.singleton_append]
      rw [uriItemsLoop_unit b (hkeep b hk), hrest]
      rfl
    · rw [if_neg hk, if_neg hk, uriItemsLoop_pctOctet b hlt, hrest]
      rfl

theorem utf8Encode_lt (cp : Nat) (h : cp < 0x110000) : ∀ b ∈ utf8Encode cp, b < 256 := by
  intro b hb
  unfold utf8Encode at hb
  split_ifs at hb <;> simp at hb <;> omega

theorem utf8Encode_ge (cp : Nat) (h : 0x80 ≤ cp) : ∀ b ∈ utf8Encode cp, 0x80 ≤ b := by
  intro b hb
  unfold utf8Encode at hb
  split_ifs at hb <;> simp at hb <;> omega

theorem decodeItemsLoop_skip (n : Nat) (pre rest : List UriItem) (h : pre.length = n) :
    decodeItemsLoop n (pre ++ rest) = decodeItemsLoop 0 rest := by
  induction pre generalizing n with
  | nil => simp at h; subst h; rfl
  | cons p pre ih =>
    cases n with
    | zero => simp at h
    | succ n =>
      simp only [List.cons_append]
      rw [decodeItemsLoop]
      exact ih n (by simpa using h)

/-- Decoding the items of the UTF-8 octets of a scalar value gives its UTF-16 units. -/
theorem decodeItems_utf8Encode (keep : Nat → Bool) (hkeep : ∀ b, keep b = true → b < 0x80)
    (cp : Nat) (hcp : IsScalar cp) (rest : List UriItem) :
    decodeItemsLoop 0 (itemsOf keep (utf8Encode cp) ++ rest)
      = (decodeItemsLoop 0 rest).map (utf16 cp ++ ·) := by
  have hk : ∀ b, 0x80 ≤ b → keep b = false := by
    intro b hb
    cases h : keep b
    · rfl
    · have := hkeep b h; omega
  obtain ⟨hlt, hns⟩ := hcp
  unfold utf8Encode itemsOf
  by_cases h1 : cp < 0x80
  · simp only [h1, if_true, List.map_cons, List.map_nil, List.singleton_append]
    have hu : utf16 cp = [cp] := by unfold utf16; rw [if_pos (by omega)]
    rw [hu]
    have hl : leadingOnes cp = 0 := by unfold leadingOnes; rw [if_pos h1]
    by_cases hkc : keep cp = true
    · rw [if_pos hkc, decodeItemsLoop]
      rfl
    · rw [if_neg hkc, decodeItemsLoop]
      simp only [utf8At, hl, if_true]
  · simp only [h1, if_false]
    by_cases h2 : cp < 0x800
    · simp only [h2, if_true, List.map_cons, List.map_nil]
      rw [hk (0xC0 + cp / 64) (by omega), hk (0x80 + cp % 64) (by omega)]
      have hv : utf8Valid [0xC0 + cp / 64, 0x80 + cp % 64] = true := by
        simp only [utf8Valid, isCont, Bool.and_eq_true, decide_eq_true_eq]
        omega
      have hval : utf8Value [0xC0 + cp / 64, 0x80 + cp % 64] = cp := by
        simp only [utf8Value]
        omega
      simp only [Bool.false_eq_true, if_false, List.cons_append, List.nil_append]
      rw [decodeItemsLoop]
      have hat : utf8At (0xC0 + cp / 64) (UriItem.octet (0x80 + cp % 64) :: rest)
          = some (utf16 cp, 1) := by
        have hl : leadingOnes (0xC0 + cp / 64) = 2 := by
          unfold leadingOnes
          rw [if_neg (by omega), if_neg (by omega), if_pos (by omega)]
        unfold utf8At
        rw [hl]
        simp only [takeOctets, Option.map_some', hv, hval]
        rfl
      rw [hat]
      simp only []
      rw [decodeItemsLoop]
    · simp only [h2, if_false]
      by_cases h3 : cp < 0x10000
      · simp only [h3, if_true, List.map_cons, List.map_nil]
        rw [hk (0xE0 + cp / 4096) (by omega), hk (0x80 + cp / 64 % 64) (by omega),
          hk (0x80 + cp % 64) (by omega)]
        have hv : utf8Valid [0xE0 + cp / 4096, 0x80 + cp / 64 % 64, 0x80 + cp % 64] = true := by
          simp only [utf8Valid, isCont, Bool.and_eq_true, Bool.or_eq_true, decide_eq_true_eq]
          omega
        have hval : utf8Value [0xE0 + cp / 4096, 0x80 + cp / 64 % 64, 0x80 + cp % 64] = cp := by
          simp only [utf8Value]
          omega
        simp only [Bool.false_eq_true, if_false, List.cons_append, List.nil_append]
        rw [decodeItemsLoop]
        have hat : utf8At (0xE0 + cp / 4096)
            (UriItem.octet (0x80 + cp / 64 % 64) :: UriItem.octet (0x80 + cp % 64) :: rest)
            = some (utf16 cp, 2) := by
          have hl : leadingOnes (0xE0 + cp / 4096) = 3 := by
            unfold leadingOnes
            rw [if_neg (by omega), if_neg (by omega), if_neg (by omega), if_pos (by omega)]
          unfold utf8At
          rw [hl]
          simp only [takeOctets, Option.map_some', hv, hval]
          rfl
        rw [hat]
        simp only []
        rw [decodeItemsLoop, decodeItemsLoop]
      · simp only [h3, if_false, List.map_cons, List.map_nil]
        rw [hk (0xF0 + cp / 262144) (by omega), hk (0x80 + cp / 4096 % 64) (by omega),
          hk (0x80 + cp / 64 % 64) (by omega), hk (0x80 + cp % 64) (by omega)]
        have hv : utf8Valid [0xF0 + cp / 262144, 0x80 + cp / 4096 % 64, 0x80 + cp / 64 % 64,
            0x80 + cp % 64] = true := by
          simp only [utf8Valid, isCont, Bool.and_eq_true, Bool.or_eq_true, decide_eq_true_eq]
          omega
        have hval : utf8Value [0xF0 + cp / 262144, 0x80 + cp / 4096 % 64, 0x80 + cp / 64 % 64,
            0x80 + cp % 64] = cp := by
          simp only [utf8Value]
          omega
        simp only [Bool.false_eq_true, if_false, List.cons_append, List.nil_append]
        rw [decodeItemsLoop]
        have hat : utf8At (0xF0 + cp / 262144)
            (UriItem.octet (0x80 + cp / 4096 % 64) :: UriItem.octet (0x80 + cp / 64 % 64)
              :: UriItem.octet (0x80 + cp % 64) :: rest)
            = some (utf16 cp, 3) := by
          have hl : leadingOnes (0xF0 + cp / 262144) = 4 := by
            unfold leadingOnes
            rw [if_neg (by omega), if_neg (by omega), if_neg (by omega), if_neg (by omega),
              if_pos (by omega)]
          unfold utf8At
          rw [hl]
          simp only [takeOctets, Option.map_some', hv, hval]
          rfl
        rw [hat]
        simp only []
        rw [decodeItemsLoop, decodeItemsLoop, decodeItemsLoop]

theorem decodeItems_utf8 (keep : Nat → Bool) (hkeep : ∀ b, keep b = true → b < 0x80) :
    ∀ cps : List Nat, (∀ cp ∈ cps, IsScalar cp) →
      decodeItems (itemsOf keep (cps.flatMap utf8Encode)) = some (cps.flatMap utf16) := by
  intro cps
  unfold decodeItems
  induction cps with
  | nil => intro _; rfl
  | cons cp rest ih =>
    intro h
    have hrest := ih fun x hx => h x (List.mem_cons_of_mem _ hx)
    simp only [List.flatMap_cons]
    have : itemsOf keep (utf8Encode cp ++ rest.flatMap utf8Encode)
        = itemsOf keep (utf8Encode cp) ++ itemsOf keep (rest.flatMap utf8Encode) := by
      simp [itemsOf]
    rw [this, decodeItems_utf8Encode keep hkeep cp (h cp (List.mem_cons_self _ _)), hrest]
    rfl

theorem utf16_pair (c d : Nat) (hp : 0xD800 ≤ c ∧ c ≤ 0xDBFF ∧ 0xDC00 ≤ d ∧ d ≤ 0xDFFF) :
    utf16 (0x10000 + (c - 0xD800) * 0x400 + (d - 0xDC00)) = [c, d] := by
  have e1 : 0xD800 + (0x10000 + (c - 0xD800) * 0x400 + (d - 0xDC00) - 0x10000) / 0x400 = c := by
    omega
  have e2 : 0xDC00 + (0x10000 + (c - 0xD800) * 0x400 + (d - 0xDC00) - 0x10000) % 0x400 = d := by
    omega
  unfold utf16
  rw [if_neg (by omega), e1, e2]

/-- The code points of a well-formed string are scalar values and give the string back. -/
theorem codePoints_wellFormed : ∀ s : JSString, wellFormedUTF16 s = true →
    (∀ cp ∈ codePoints s, IsScalar cp) ∧ (codePoints s).flatMap utf16 = s := by
  intro s
  induction s using codePoints.induct with
  | case1 => intro _; simp [codePoints]
  | case2 c =>
    intro h
    simp only [wellFormedUTF16] at h
    split_ifs at h with h1 h2
    simp only [Bool.and_true, decide_eq_true_eq] at h
    have hu : utf16 c = [c] := by unfold utf16; rw [if_pos h]
    simp only [codePoints, List.mem_singleton, forall_eq, List.flatMap_cons, List.flatMap_nil,
      List.append_nil, hu, and_true]
    exact ⟨by omega, by omega⟩
  | case3 c d rest hp ih =>
    intro h
    rw [wellFormedUTF16, if_pos ⟨hp.1, hp.2.1⟩] at h
    simp only [Bool.and_eq_true, decide_eq_true_eq] at h
    obtain ⟨ih1, ih2⟩ := ih h.2
    have hu : utf16 (0x10000 + (c - 0xD800) * 0x400 + (d - 0xDC00)) = [c, d] :=
      utf16_pair c d hp
    simp only [codePoints, hp, and_self, if_true, List.mem_cons, forall_eq_or_imp,
      List.flatMap_cons, hu, ih2, List.cons_append, List.nil_append, and_true]
    exact ⟨⟨by omega, by omega⟩, ih1⟩
  | case4 c d rest hp ih =>
    intro h
    rw [wellFormedUTF16] at h
    split_ifs at h with h1 h2
    · simp only [Bool.and_eq_true, decide_eq_true_eq] at h
      exact absurd ⟨h1.1, h1.2, h.1.1, h.1.2⟩ hp
    · simp only [Bool.and_eq_true, decide_eq_true_eq] at h
      obtain ⟨ih1, ih2⟩ := ih h.2
      have hu : utf16 c = [c] := by unfold utf16; rw [if_pos h.1]
      simp only [codePoints, hp, if_false, List.mem_cons, forall_eq_or_imp, List.flatMap_cons,
        hu, ih2, List.singleton_append, and_true]
      exact ⟨⟨by omega, by omega⟩, ih1⟩

theorem utf8Bytes_lt (s : JSString) (h : wellFormedUTF16 s = true) :
    ∀ b ∈ utf8Bytes s, b < 256 := by
  intro b hb
  unfold utf8Bytes at hb
  obtain ⟨cp, hcp, hb⟩ := List.mem_flatMap.1 hb
  exact utf8Encode_lt cp ((codePoints_wellFormed s h).1 cp hcp).1 b hb

/-- Decoding any percent-encoding of the UTF-8 octets of a well-formed string, with ASCII
units other than `%` allowed to stand for themselves, gives the string back. -/
theorem decodeURIComponent_pctEncode (keep : Nat → Bool)
    (hkeep : ∀ b, keep b = true → b < 0x80 ∧ b ≠ 37) (s : JSString)
    (h : wellFormedUTF16 s = true) :
    decodeURIComponent (pctEncode keep (utf8Bytes s)) = Except.ok s := by
  unfold decodeURIComponent
  rw [uriItems_pctEncode keep (fun b hb => (hkeep b hb).2) _ (utf8Bytes_lt s h)]
  simp only [Option.some_bind]
  unfold utf8Bytes
  rw [decodeItems_utf8 keep (fun b hb => (hkeep b hb).1) _ (codePoints_wellFormed s h).1,
    (codePoints_wellFormed s h).2]

theorem uriUnreserved_ascii (b : Nat) (h : uriUnreserved b = true) : b < 0x80 ∧ b ≠ 37 := by
  simp only [uriUnreserved, isAlnum, Bool.or_eq_true, Bool.and_eq_true, decide_eq_true_eq] at h
  omega

theorem escapeUnescaped_ascii (b : Nat) (h : escapeUnescaped b = true) : b < 0x80 ∧ b ≠ 37 := by
  simp only [escapeUnescaped, isAlnum, Bool.or_eq_true, Bool.and_eq_true,
    decide_eq_true_eq] at h
  omega

theorem codePoints_cons_plain (c : Nat) (rest : JSString) (h : ¬ (0xD800 ≤ c ∧ c ≤ 0xDBFF)) :
    codePoints (c :: rest) = c :: codePoints rest := by
  cases rest with
  | nil => simp [codePoints]
  | cons d rest =>
    rw [codePoints, if_neg]
    intro hp
    exact h ⟨hp.1, hp.2.1⟩

theorem codePoints_cons_pair (c d : Nat) (rest : JSString)
    (hp : 0xD800 ≤ c ∧ c ≤ 0xDBFF ∧ 0xDC00 ≤ d ∧ d ≤ 0xDFFF) :
    codePoints (c :: d :: rest)
      = (0x10000 + (c - 0xD800) * 0x400 + (d - 0xDC00)) :: codePoints rest := by
  rw [codePoints, if_pos hp]

theorem pctEncode_utf8Encode (keep : Nat → Bool) (hkeep : ∀ b, keep b = true → b < 0x80)
    (cp : Nat) (h : keep cp = false) :
    pctEncode keep (utf8Encode cp) = (utf8Encode cp).flatMap pctOctet := by
  have hk : ∀ b, 0x80 ≤ b → keep b = false := by
    intro b hb
    cases hb' : keep b
    · rfl
    · have := hkeep b hb'; omega
  unfold pctEncode utf8Encode
  split_ifs
  · simp [h]
  · simp [hk (0xC0 + cp / 64) (by omega), hk (0x80 + cp % 64) (by omega)]
  · simp [hk (0xE0 + cp / 4096) (by omega), hk (0x80 + cp / 64 % 64) (by omega),
      hk (0x80 + cp % 64) (by omega)]
  · simp [hk (0xF0 + cp / 262144) (by omega), hk (0x80 + cp / 4096 % 64) (by omega),
      hk (0x80 + cp / 64 % 64) (by omega), hk (0x80 + cp % 64) (by omega)]

theorem pctEncode_append (keep : Nat → Bool) (a b : List Nat) :
    pctEncode keep (a ++ b) = pctEncode keep a ++ pctEncode keep b := by
  simp [pctEncode]

theorem wellFormedUTF16_cons_plain (c : Nat) (rest : JSString)
    (h : wellFormedUTF16 (c :: rest) = true) (hc : ¬ (0xD800 ≤ c ∧ c ≤ 0xDBFF)) :
    ¬ (0xDC00 ≤ c ∧ c ≤ 0xDFFF) ∧ c < 0x10000 ∧ wellFormedUTF16 rest = true := by
  cases rest with
  | nil =>
    rw [wellFormedUTF16, if_neg hc] at h
    split_ifs at h with hl
    simp only [Bool.and_eq_true, decide_eq_true_eq] at h
    exact ⟨hl, h.1, h.2⟩
  | cons d rest =>
    rw [wellFormedUTF16, if_neg hc] at h
    split_ifs at h with hl
    simp only [Bool.and_eq_true, decide_eq_true_eq] at h
    exact ⟨hl, h.1, h.2⟩

theorem wellFormedUTF16_cons_high (c : Nat) (rest : JSString)
    (h : wellFormedUTF16 (c :: rest) = true) (hc : 0xD800 ≤ c ∧ c ≤ 0xDBFF) :
    ∃ d rest', rest = d :: rest' ∧ (0xDC00 ≤ d ∧ d ≤ 0xDFFF) ∧ wellFormedUTF16 rest' = true := by
  cases rest with
  | nil =>
    rw [wellFormedUTF16, if_pos hc] at h
    simp at h
  | cons d rest =>
    rw [wellFormedUTF16, if_pos hc] at h
    simp only [Bool.and_eq_true, decide_eq_true_eq] at h
    exact ⟨d, rest, rfl, h.1, h.2⟩

theorem encodeLoop_plain (c : Nat) (rest : JSString) (hc : ¬ (0xD800 ≤ c ∧ c ≤ 0xDBFF))
    (hl : ¬ (0xDC00 ≤ c ∧ c ≤ 0xDFFF)) (r : JSString)
    (hr : encodeLoop false rest = Except.ok r) :
    encodeLoop false (c :: rest) = Except.ok (pctEncode uriUnreserved (utf8Encode c) ++ r) := by
  rw [encodeLoop, hr]
  by_cases hk : uriUnreserved c = true
  · have hlt := (uriUnreserved_ascii c hk).1
    have hu : utf8Encode c = [c] := by unfold utf8Encode; rw [if_pos hlt]
    rw [if_pos hk, hu]
    simp [pctEncode, hk]
    rfl
  · rw [if_neg hk, if_neg hc, if_neg hl]
    have hk' : uriUnreserved c = false := by simpa using hk
    rw [pctEncode_utf8Encode uriUnreserved (fun b hb => (uriUnreserved_ascii b hb).1) _ hk']
    rfl

theorem encodeLoop_pair (c d : Nat) (rest : JSString)
    (hp : 0xD800 ≤ c ∧ c ≤ 0xDBFF ∧ 0xDC00 ≤ d ∧ d ≤ 0xDFFF) (r : JSString)
    (hr : encodeLoop false rest = Except.ok r) :
    encodeLoop false (c :: d :: rest)
      = Except.ok (pctEncode uriUnreserved
          (utf8Encode (0x10000 + (c - 0xD800) * 0x400 + (d - 0xDC00))) ++ r) := by
  have hnk : uriUnreserved c = false := by
    cases hk : uriUnreserved c
    · rfl
    · have := uriUnreserved_ascii c hk; omega
  have hnk2 : uriUnreserved (0x10000 + (c - 0xD800) * 0x400 + (d - 0xDC00)) = false := by
    cases hk : uriUnreserved (0x10000 + (c - 0xD800) * 0x400 + (d - 0xDC00))
    · rfl
    · have := uriUnreserved_ascii _ hk; omega
  rw [encodeLoop, hnk]
  simp only [Bool.false_eq_true, if_false, if_pos (And.intro hp.1 hp.2.1), List.head?_cons,
    if_pos hp.2.2]
  rw [encodeLoop, hr,
    pctEncode_utf8Encode uriUnreserved (fun b hb => (uriUnreserved_ascii b hb).1) _ hnk2]
  rfl

/-- On a well-formed string `encodeURIComponent` does not throw and gives the
percent-encoding of the UTF-8 octets. -/
theorem encodeURIComponent_wellFormed : ∀ s : JSString, wellFormedUTF16 s = true →
    encodeURIComponent s = Except.ok (pctEncode uriUnreserved (utf8Bytes s)) := by
  intro s
  unfold encodeURIComponent utf8Bytes
  induction s using codePoints.induct with
  | case1 => intro _; rfl
  | case2 c =>
    intro h
    by_cases hc : 0xD800 ≤ c ∧ c ≤ 0xDBFF
    · obtain ⟨d, rest', he, -, -⟩ := wellFormedUTF16_cons_high c [] h hc
      cases he
    · obtain ⟨hl, -, -⟩ := wellFormedUTF16_cons_plain c [] h hc
      rw [encodeLoop_plain c [] hc hl [] rfl]
      simp [codePoints]
  | case3 c d rest hp ih =>
    intro h
    obtain ⟨d', rest', he, -, hwf⟩ := wellFormedUTF16_cons_high c (d :: rest) h ⟨hp.1, hp.2.1⟩
    cases he
    rw [encodeLoop_pair c d rest hp _ (ih hwf), codePoints_cons_pair c d rest hp]
    simp only [List.flatMap_cons, pctEncode_append]
  | case4 c d rest hp ih =>
    intro h
    by_cases hc : 0xD800 ≤ c ∧ c ≤ 0xDBFF
    · obtain ⟨d', rest', he, hd, -⟩ := wellFormedUTF16_cons_high c (d :: rest) h hc
      cases he
      exact absurd ⟨hc.1, hc.2, hd.1, hd.2⟩ hp
    · obtain ⟨hl, -, hwf⟩ := wellFormedUTF16_cons_plain c (d :: rest) h hc
      rw [encodeLoop_plain c (d :: rest) hc hl _ (ih hwf), codePoints_cons_plain c _ hc]
      simp only [List.flatMap_cons, pctEncode_append]

theorem unescapeAt_hexUpper (b : Nat) (hb : b < 256) (rest : JSString) :
    unescapeAt (hexUpper (b / 16) :: hexUpper (b % 16) :: rest) = (b, 2) := by
  have h1 := hexDigitValue_hexUpper (b / 16) (by omega)
  have h2 := hexDigitValue_hexUpper (b % 16) (by omega)
  have h3 : 16 * (b / 16) + b % 16 = b := by omega
  have hu := hexUpper_ne_u (b / 16) (by omega)
  rcases rest with _ | ⟨x, _ | ⟨y, _ | ⟨z, t⟩⟩⟩ <;> simp [unescapeAt, h1, h2, h3, hu]

/-- Lemma: `unescape` undoes a percent-encoding of octets. -/
theorem unescape_pctEncode (keep : Nat → Bool) (hkeep : ∀ b, keep b = true → b ≠ 37) :
    ∀ bytes : List Nat, (∀ b ∈ bytes, b < 256) → unescape (pctEncode keep bytes) = bytes := by
  intro bytes
  unfold unescape
  induction bytes with
  | nil => intro _; rfl
  | cons b rest ih =>
    intro hb
    have hrest := ih fun x hx => hb x (List.mem_cons_of_mem _ hx)
    have hlt := hb b (List.mem_cons_self _ _)
    have hcons : pctEncode keep (b :: rest)
        = (if keep b = true then [b] else pctOctet b) ++ pctEncode keep rest := by
      simp [pctEncode]
    rw [hcons]
    by_cases hk : keep b = true
    · rw [if_pos hk, List.singleton_append, unescapeLoop, if_neg (hkeep b hk), hrest]
    · rw [if_neg hk]
      simp only [pctOctet, List.cons_append, List.nil_append]
      rw [unescapeLoop, if_pos rfl, unescapeAt_hexUpper b hlt]
      simp only []
      rw [unescapeLoop, unescapeLoop, hrest]

/-- On octets `escape` is a percent-encoding. -/
theorem escape_eq_pctEncode : ∀ bytes : List Nat, (∀ b ∈ bytes, b < 256) →
    escape bytes = pctEncode escapeUnescaped bytes := by
  intro bytes
  unfold escape pctEncode
  induction bytes with
  | nil => intro _; rfl
  | cons b rest ih =>
    intro hb
    have hrest := ih fun x hx => hb x (List.mem_cons_of_mem _ hx)
    have hlt := hb b (List.mem_cons_self _ _)
    simp only [List.flatMap_cons, hrest, if_pos hlt]

/-- Round trip: `decodeURIComponent(encodeURIComponent(s))` is `s` for a well-formed `s`. -/
theorem decodeURIComponent_encodeURIComponent (s : JSString) (h : wellFormedUTF16 s = true) :
    ∃ t, encodeURIComponent s = Except.ok t ∧ decodeURIComponent t = Except.ok s :=
  ⟨_, encodeURIComponent_wellFormed s h,
    decodeURIComponent_pctEncode uriUnreserved uriUnreserved_ascii s h⟩

/-- Round trip: `decodeURIComponent(escape(b))` is `s` when `b` is the UTF-8 octets of a well-formed
`s`. -/
theorem decodeURIComponent_escape_utf8 (s : JSString) (h : wellFormedUTF16 s = true) :
    decodeURIComponent (escape (utf8Bytes s)) = Except.ok s := by
  rw [escape_eq_pctEncode _ (utf8Bytes_lt s h)]
  exact decodeURIComponent_pctEncode escapeUnescaped escapeUnescaped_ascii s h

/-! ## Base64 -/

theorem b64Value_b64Char (n : Nat) (h : n < 64) : b64Value (b64Char n) = some n := by
  interval_cases n <;> rfl

theorem b64Char_props (n : Nat) (h : n < 64) :
    b64Char n ≠ 61 ∧ isAsciiWhitespace (b64Char n) = false ∧ b64Char n < 0x80 := by
  interval_cases n <;> decide

theorem b64Encode_eq : ∀ bytes : List Nat,
    b64Encode bytes = (b64Sextets bytes).map b64Char ++ b64Padding bytes := by
  intro bytes
  induction bytes using b64Encode.induct with
  | case1 => rfl
  | case2 a => rfl
  | case3 a b => rfl
  | case4 a b c rest ih =>
    rw [b64Encode, b64Sextets, b64Padding, ih]
    rfl

theorem b64Sextets_lt : ∀ bytes : List Nat, (∀ b ∈ bytes, b < 256) →
    ∀ v ∈ b64Sextets bytes, v < 64 := by
  intro bytes
  induction bytes using b64Encode.induct with
  | case1 => intro _ v hv; simp [b64Sextets] at hv
  | case2 a =>
    intro h v hv
    have := h a (by simp)
    simp only [b64Sextets, List.mem_cons, List.mem_singleton, List.not_mem_nil, or_false] at hv
    omega
  | case3 a b =>
    intro h v hv
    have := h a (by simp)
    have := h b (by simp)
    simp only [b64Sextets, List.mem_cons, List.mem_singleton, List.not_mem_nil, or_false] at hv
    omega
  | case4 a b c rest ih =>
    intro h v hv
    have := h a (by simp)
    have := h b (by simp)
    have := h c (by simp)
    rw [b64Sextets] at hv
    simp only [List.mem_cons] at hv
    rcases hv with hv | hv | hv | hv | hv
    · omega
    · omega
    · omega
    · omega
    · exact ih (fun x hx => h x (by simp [hx])) v hv

theorem b64Sextets_length : ∀ bytes : List Nat, (b64Sextets bytes).length % 4 ≠ 1 := by
  intro bytes
  induction bytes using b64Encode.induct with
  | case1 => simp [b64Sextets]
  | case2 a => simp [b64Sextets]
  | case3 a b => simp [b64Sextets]
  | case4 a b c rest ih =>
    rw [b64Sextets]
    simp only [List.length_cons]
    omega

theorem b64Padding_cases : ∀ bytes : List Nat,
    ((b64Sextets bytes).length + (b64Padding bytes).length) % 4 = 0
      ∧ (b64Padding bytes = [] ∨ b64Padding bytes = [61] ∨ b64Padding bytes = [61, 61]) := by
  intro bytes
  induction bytes using b64Encode.induct with
  | case1 => simp [b64Sextets, b64Padding]
  | case2 a => simp [b64Sextets, b64Padding]
  | case3 a b => simp [b64Sextets, b64Padding]
  | case4 a b c rest ih =>
    rw [b64Sextets, b64Padding]
    simp only [List.length_cons]
    exact ⟨by omega, ih.2⟩

/-- Decoding the six-bit values of an encoding gives the octets back. -/
theorem b64DecodeValues_b64Sextets : ∀ bytes : List Nat, (∀ b ∈ bytes, b < 256) →
    b64DecodeValues (b64Sextets bytes) = bytes := by
  intro bytes
  induction bytes using b64Encode.induct with
  | case1 => intro _; rfl
  | case2 a =>
    intro h
    have := h a (by simp)
    simp only [b64Sextets, b64DecodeValues]
    congr 1
    omega
  | case3 a b =>
    intro h
    have := h a (by simp)
    have := h b (by simp)
    simp only [b64Sextets, b64DecodeValues]
    congr 1
    · omega
    · congr 1; omega
  | case4 a b c rest ih =>
    intro h
    have := h a (by simp)
    have := h b (by simp)
    have := h c (by simp)
    rw [b64Sextets, b64DecodeValues, ih (fun x hx => h x (by simp [hx]))]
    congr 1
    · omega
    · congr 1
      · omega
      · congr 1; omega

theorem b64Values_map_b64Char : ∀ vs : List Nat, (∀ v ∈ vs, v < 64) →
    b64Values (vs.map b64Char) = some vs := by
  intro vs
  induction vs with
  | nil => intro _; rfl
  | cons v rest ih =>
    intro h
    simp only [List.map_cons]
    rw [b64Values, b64Value_b64Char v (h v (List.mem_cons_self _ _)),
      ih fun x hx => h x (List.mem_cons_of_mem _ hx)]

theorem getLast?_map_b64Char_ne (vs : List Nat) (h : ∀ v ∈ vs, v < 64) :
    (vs.map b64Char).getLast? ≠ some 61 := by
  intro hl
  have hmem := List.mem_of_getLast?_eq_some hl
  obtain ⟨v, hv, he⟩ := List.mem_map.1 hmem
  exact (b64Char_props v (h v hv)).1 he

/-- Removing the padding of an encoding leaves the base64 characters. -/
theorem stripPadding_b64 (vs pad : List Nat) (h : ∀ v ∈ vs, v < 64)
    (hlen : (vs.length + pad.length) % 4 = 0)
    (hpad : pad = [] ∨ pad = [61] ∨ pad = [61, 61]) :
    stripPadding (vs.map b64Char ++ pad) = vs.map b64Char := by
  have hne := getLast?_map_b64Char_ne vs h
  unfold stripPadding
  rw [if_pos (by simpa using hlen)]
  rcases hpad with rfl | rfl | rfl
  · simp only [List.append_nil]
    rw [if_neg hne]
  · rw [if_pos (by simp), List.dropLast_concat, if_neg hne]
  · have e : vs.map b64Char ++ [61, 61] = (vs.map b64Char ++ [61]) ++ [61] := by simp
    rw [e, if_pos (by simp), List.dropLast_concat, if_pos (by simp), List.dropLast_concat]

theorem filter_whitespace_b64 (vs pad : List Nat) (h : ∀ v ∈ vs, v < 64)
    (hpad : pad = [] ∨ pad = [61] ∨ pad = [61, 61]) :
    (vs.map b64Char ++ pad).filter (fun c => !isAsciiWhitespace c) = vs.map b64Char ++ pad := by
  rw [List.filter_eq_self]
  intro c hc
  rcases List.mem_append.1 hc with hc | hc
  · obtain ⟨v, hv, rfl⟩ := List.mem_map.1 hc
    simp [(b64Char_props v (h v hv)).2.1]
  · rcases hpad with rfl | rfl | rfl
    · simp at hc
    · simp at hc; subst hc; decide
    · simp at hc; subst hc; decide

/-- Round trip: `atob(btoa(b))` is `b` for a string of octets. -/
theorem atob_btoa (bytes : List Nat) (h : ∀ b ∈ bytes, b < 256) :
    ∃ t, btoa bytes = Except.ok t ∧ atob t = Except.ok bytes
      ∧ (∀ c ∈ t, c < 0x80) := by
  have hs := b64Sextets_lt bytes h
  obtain ⟨hlen, hpad⟩ := b64Padding_cases bytes
  refine ⟨b64Encode bytes, ?_, ?_, ?_⟩
  · unfold btoa
    rw [if_pos]
    simp only [List.all_eq_true, decide_eq_true_eq]
    intro b hb
    have := h b hb
    omega
  · unfold atob
    simp only []
    rw [b64Encode_eq, filter_whitespace_b64 _ _ hs hpad, stripPadding_b64 _ _ hs hlen hpad,
      List.length_map, if_neg (b64Sextets_length bytes), b64Values_map_b64Char _ hs]
    simp only []
    rw [b64DecodeValues_b64Sextets bytes h]
  · intro c hc
    rw [b64Encode_eq] at hc
    rcases List.mem_append.1 hc with hc | hc
    · obtain ⟨v, hv, rfl⟩ := List.mem_map.1 hc
      exact (b64Char_props v (hs v hv)).2.2
    · rcases hpad with hp | hp | hp <;> rw [hp] at hc <;> simp at hc <;> omega

/-! ## JSON strings -/

theorem hex4_lower (c : Nat) (h : c < 0x10000) :
    hexDigitValue (hexLower (c / 4096 % 16)) = some (c / 4096 % 16)
      ∧ hexDigitValue (hexLower (c / 256 % 16)) = some (c / 256 % 16)
      ∧ hexDigitValue (hexLower (c / 16 % 16)) = some (c / 16 % 16)
      ∧ hexDigitValue (hexLower (c % 16)) = some (c % 16)
      ∧ 4096 * (c / 4096 % 16) + 256 * (c / 256 % 16) + 16 * (c / 16 % 16) + c % 16 = c :=
  ⟨hexDigitValue_hexLower _ (by omega), hexDigitValue_hexLower _ (by omega),
    hexDigitValue_hexLower _ (by omega), hexDigitValue_hexLower _ (by omega), by omega⟩

theorem parseStringLoop_unicodeEscape (c : Nat) (h : c < 0x10000) (rest : JSString) :
    parseStringLoop 0 (unicodeEscape c ++ rest)
      = (parseStringLoop 0 rest).map fun r => (c :: r.1, r.2) := by
  obtain ⟨h3, h2, h1, h0, hv⟩ := hex4_lower c h
  simp only [unicodeEscape, List.cons_append, List.nil_append]
  rw [parseStringLoop, if_neg (by decide), if_pos rfl]
  have he : jsonEscapeAt (117 :: hexLower (c / 4096 % 16) :: hexLower (c / 256 % 16)
      :: hexLower (c / 16 % 16) :: hexLower (c % 16) :: rest) = some (c, 5) := by
    simp [jsonEscapeAt, h3, h2, h1, h0, hv]
  rw [he]
  simp only []
  rw [parseStringLoop, parseStringLoop, parseStringLoop, parseStringLoop, parseStringLoop]

theorem parseStringLoop_simple (c e : Nat) (rest : JSString)
    (he : jsonEscapeAt (e :: rest) = some (c, 1)) :
    parseStringLoop 0 (92 :: e :: rest)
      = (parseStringLoop 0 rest).map fun r => (c :: r.1, r.2) := by
  rw [parseStringLoop, if_neg (by decide), if_pos rfl, he]
  simp only []
  rw [parseStringLoop]

theorem parseStringLoop_raw (c : Nat) (rest : JSString) (h1 : c ≠ 34) (h2 : c ≠ 92)
    (h3 : ¬ c < 0x20) :
    parseStringLoop 0 (c :: rest) = (parseStringLoop 0 rest).map fun r => (c :: r.1, r.2) := by
  rw [parseStringLoop, if_neg h1, if_neg h2, if_neg h3]

theorem parseStringLoop_quoteUnit (c : Nat) (rest : JSString) :
    parseStringLoop 0 (quoteUnit c ++ rest)
      = (parseStringLoop 0 rest).map fun r => (c :: r.1, r.2) := by
  unfold quoteUnit
  split_ifs with h8 h9 h10 h12 h13 h34 h92 hlt hs
  · subst h8; exact parseStringLoop_simple 8 98 rest (by simp [jsonEscapeAt])
  · subst h9; exact parseStringLoop_simple 9 116 rest (by simp [jsonEscapeAt])
  · subst h10; exact parseStringLoop_simple 10 110 rest (by simp [jsonEscapeAt])
  · subst h12; exact parseStringLoop_simple 12 102 rest (by simp [jsonEscapeAt])
  · subst h13; exact parseStringLoop_simple 13 114 rest (by simp [jsonEscapeAt])
  · subst h34; exact parseStringLoop_simple 34 34 rest (by simp [jsonEscapeAt])
  · subst h92; exact parseStringLoop_simple 92 92 rest (by simp [jsonEscapeAt])
  · exact parseStringLoop_unicodeEscape c (by omega) rest
  · exact parseStringLoop_unicodeEscape c (by omega) rest
  · exact parseStringLoop_raw c rest h34 h92 hlt

theorem quoteLoop_cons_pair (c d : Nat) (rest : JSString)
    (hp : 0xD800 ≤ c ∧ c ≤ 0xDBFF ∧ 0xDC00 ≤ d ∧ d ≤ 0xDFFF) :
    quoteLoop false (c :: d :: rest) = c :: d :: quoteLoop false rest := by
  rw [quoteLoop, if_pos ⟨⟨hp.1, hp.2.1⟩, by simp [hp.2.2.1, hp.2.2.2]⟩, quoteLoop]

theorem quoteLoop_cons_unit (c : Nat) (rest : JSString)
    (hp : ¬ ((0xD800 ≤ c ∧ c ≤ 0xDBFF)
      ∧ rest.head?.any (fun d => decide (0xDC00 ≤ d) && decide (d ≤ 0xDFFF)) = true)) :
    quoteLoop false (c :: rest) = quoteUnit c ++ quoteLoop false rest := by
  rw [quoteLoop, if_neg hp]

/-- Reading back a quoted string: the characters up to the closing quote are the string. -/
theorem parseStringLoop_quoteLoop : ∀ (s rest : JSString),
    parseStringLoop 0 (quoteLoop false s ++ 34 :: rest) = some (s, rest) := by
  intro s
  induction s using codePoints.induct with
  | case1 => intro rest; rw [quoteLoop, List.nil_append, parseStringLoop, if_pos rfl]
  | case2 c =>
    intro rest
    rw [quoteLoop_cons_unit c [] (by simp), List.append_assoc, parseStringLoop_quoteUnit,
      quoteLoop, List.nil_append, parseStringLoop, if_pos rfl]
    rfl
  | case3 c d t hp ih =>
    intro rest
    rw [quoteLoop_cons_pair c d t hp]
    simp only [List.cons_append]
    rw [parseStringLoop_raw c _ (by omega) (by omega) (by omega),
      parseStringLoop_raw d _ (by omega) (by omega) (by omega), ih rest]
    rfl
  | case4 c d t hp ih =>
    intro rest
    rw [quoteLoop_cons_unit c (d :: t) (by
      rintro ⟨h1, h2⟩
      simp only [List.head?_cons, Option.any_some, Bool.and_eq_true, decide_eq_true_eq] at h2
      exact hp ⟨h1.1, h1.2, h2.1, h2.2⟩), List.append_assoc, parseStringLoop_quoteUnit, ih rest]
    rfl

theorem parseStringLoop_quoteJSONString (s rest : JSString) :
    parseStringLoop 0 (quoteLoop false s ++ [34] ++ rest) = some (s, rest) := by
  rw [List.append_assoc]
  exact parseStringLoop_quoteLoop s rest

/-! ## JSON values -/

theorem skipWs_cons (c : Nat) (rest : JSString) (h : isJSONWhitespace c = false) :
    skipWs (c :: rest) = c :: rest := by
  rw [skipWs, h]
  rfl

theorem takeWhile_append_stop (p : Nat → Bool) (tok rest : JSString)
    (htok : ∀ c ∈ tok, p c = true) (hrest : ∀ c, rest.head? = some c → p c = false) :
    (tok ++ rest).takeWhile p = tok ∧ (tok ++ rest).dropWhile p = rest := by
  induction tok with
  | nil =>
    cases rest with
    | nil => simp
    | cons c t =>
      have := hrest c rfl
      simp [List.takeWhile, List.dropWhile, this]
  | cons c t ih =>
    have hc := htok c (List.mem_cons_self _ _)
    have := ih fun x hx => htok x (List.mem_cons_of_mem _ hx)
    simp [List.takeWhile, List.dropWhile, hc, this.1, this.2]

theorem parseNumberToken_head (tok : JSString) (q : ℚ) (h : parseNumberToken tok = some q) :
    ∃ c t, tok = c :: t ∧ (c = 45 ∨ isDigit c = true) := by
  cases tok with
  | nil => simp [parseNumberToken, parseUnsigned] at h
  | cons c t =>
    refine ⟨c, t, rfl, ?_⟩
    by_cases hc : c = 45
    · exact Or.inl hc
    · right
      by_contra hd
      have hd' : isDigit c = false := by simpa using hd
      have : parseNumberToken (c :: t) = parseUnsigned (c :: t) := by
        unfold parseNumberToken
        split
        · rename_i heq
          injection heq with h1 _
          exact absurd h1 hc
        · rfl
      rw [this] at h
      simp [parseUnsigned, List.takeWhile, hd'] at h

theorem numStart_not_ws (c : Nat) (h : c = 45 ∨ isDigit c = true) :
    isJSONWhitespace c = false ∧ c ≠ 123 ∧ c ≠ 91 ∧ c ≠ 34 ∧ c ≠ 116 ∧ c ≠ 102 ∧ c ≠ 110
      ∧ c ≠ 93 ∧ c ≠ 125 := by
  rcases h with h | h
  · subst h; decide
  · simp only [isDigit, Bool.and_eq_true, decide_eq_true_eq] at h
    simp only [isJSONWhitespace, Bool.or_eq_false_iff, decide_eq_false_iff_not]
    omega

/-- What the contract says of a finite number: its print is made of number characters and
is a number token whose value rounds to the number. -/
theorem NumberRoundTrips.fin_iff (nts : ℚ → JSString) (q : ℚ) :
    NumberRoundTrips nts (Number.fin q) ↔
      (∀ c ∈ nts q, isNumChar c = true)
        ∧ ∃ q', parseNumberToken (nts q) = some q' ∧ Number.round q' = Number.fin q := by
  unfold NumberRoundTrips
  simp only [Option.map_eq_some']

theorem NumberRoundTrips.finite (nts : ℚ → JSString) (x : Number) (h : NumberRoundTrips nts x) :
    ∃ q, x = Number.fin q := by
  cases x with
  | fin q => exact ⟨q, rfl⟩
  | posInf => exact absurd h (by simp [NumberRoundTrips])
  | negInf => exact absurd h (by simp [NumberRoundTrips])
  | nan => exact absurd h (by simp [NumberRoundTrips])

theorem parseValue_num (nts : ℚ → JSString) (q : ℚ) (h : NumberRoundTrips nts (Number.fin q))
    (fuel : Nat) (rest : JSString) (hrest : ∀ c, rest.head? = some c → isNumChar c = false) :
    parseValue (fuel + 1) (nts q ++ rest) = some (JSValue.num (Number.fin q), rest) := by
  obtain ⟨hchars, q', hq', hround⟩ := (NumberRoundTrips.fin_iff nts q).1 h
  obtain ⟨c, t, htok, hc⟩ := parseNumberToken_head _ q' hq'
  obtain ⟨hw, h1, h2, h3, h4, h5, h6, -, -⟩ := numStart_not_ws c hc
  have htw := takeWhile_append_stop isNumChar (nts q) rest hchars hrest
  rw [htok] at htw
  rw [parseValue, htok, List.cons_append, skipWs_cons c _ hw]
  simp only [if_neg h1, if_neg h2, if_neg h3, if_neg h4, if_neg h5, if_neg h6]
  rw [if_pos hc, ← List.cons_append, htw.1, htw.2, ← htok, hq']
  simp only [Option.map_some', hround]

theorem parseValue_str (s : JSString) (fuel : Nat) (rest : JSString) :
    parseValue (fuel + 1) (quoteJSONString s ++ rest) = some (JSValue.str s, rest) := by
  show parseValue (fuel + 1) (34 :: (quoteLoop false s ++ [34] ++ rest)) = _
  rw [parseValue, skipWs_cons 34 _ (by decide)]
  simp only [if_neg (show ¬ (34 : Nat) = 123 by decide), if_neg (show ¬ (34 : Nat) = 91 by decide),
    if_true]
  rw [parseStringLoop_quoteJSONString]
  rfl

theorem parseValue_lits (fuel : Nat) (rest : JSString) :
    parseValue (fuel + 1) ([110, 117, 108, 108] ++ rest) = some (JSValue.null, rest)
      ∧ parseValue (fuel + 1) ([116, 114, 117, 101] ++ rest) = some (JSValue.bool true, rest)
      ∧ parseValue (fuel + 1) ([102, 97, 108, 115, 101] ++ rest)
          = some (JSValue.bool false, rest) := by
  refine ⟨?_, ?_, ?_⟩
  · show parseValue (fuel + 1) (110 :: ([117, 108, 108] ++ rest)) = _
    rw [parseValue, skipWs_cons 110 _ (by decide)]
    simp [expectUnits]
  · show parseValue (fuel + 1) (116 :: ([114, 117, 101] ++ rest)) = _
    rw [parseValue, skipWs_cons 116 _ (by decide)]
    simp [expectUnits]
  · show parseValue (fuel + 1) (102 :: ([97, 108, 115, 101] ++ rest)) = _
    rw [parseValue, skipWs_cons 102 _ (by decide)]
    simp [expectUnits]

theorem setProp_append_new (acc : List (JSString × JSValue)) (k : JSString) (v : JSValue)
    (h : k ∉ acc.map Prod.fst) : setProp acc k v = acc ++ [(k, v)] := by
  induction acc with
  | nil => rfl
  | cons p rest ih =>
    obtain ⟨k', v'⟩ := p
    simp only [List.map_cons, List.mem_cons, not_or] at h
    rw [setProp, if_neg (fun e => h.1 e.symm), ih h.2]
    rfl

theorem foldl_setProp_nodup : ∀ (ps acc : List (JSString × JSValue)),
    ((acc ++ ps).map Prod.fst).Nodup →
    ps.foldl (fun a kv => setProp a kv.1 kv.2) acc = acc ++ ps := by
  intro ps
  induction ps with
  | nil => intro acc _; simp
  | cons p rest ih =>
    intro acc h
    obtain ⟨k, v⟩ := p
    have hk : k ∉ acc.map Prod.fst := by
      simp only [List.map_append, List.map_cons] at h
      have := (List.nodup_append.1 h).2.2
      intro hmem
      exact this hmem (List.mem_cons_self _ _)
    simp only [List.foldl_cons]
    rw [setProp_append_new acc k v hk, ih (acc ++ [(k, v)]) (by simpa using h)]
    simp

theorem stringify_head (nts : ℚ → JSString) (v : JSValue) (h : Serializable nts v) :
    ∃ c t, stringify nts v = c :: t ∧ isJSONWhitespace c = false ∧ c ≠ 93 ∧ c ≠ 125 := by
  cases v with
  | null => exact ⟨110, _, by rw [stringify], by decide, by decide, by decide⟩
  | bool b =>
    cases b
    · exact ⟨102, _, by rw [stringify], by decide, by decide, by decide⟩
    · exact ⟨116, _, by rw [stringify], by decide, by decide, by decide⟩
  | num x =>
    rw [Serializable] at h
    obtain ⟨q, rfl⟩ := NumberRoundTrips.finite nts x h
    obtain ⟨-, q', hq', -⟩ := (NumberRoundTrips.fin_iff nts q).1 h
    obtain ⟨c, t, htok, hc⟩ := parseNumberToken_head _ q' hq'
    obtain ⟨hw, -, -, -, -, -, -, h93, h125⟩ := numStart_not_ws c hc
    exact ⟨c, t, by rw [stringify, htok], hw, h93, h125⟩
  | str s => exact ⟨34, _, by rw [stringify, quoteJSONString]; rfl, by decide, by decide, by decide⟩
  | arr xs => exact ⟨91, _, by rw [stringify]; rfl, by decide, by decide, by decide⟩
  | obj ps => exact ⟨123, _, by rw [stringify]; rfl, by decide, by decide, by decide⟩

theorem stringifyElements_head (nts : ℚ → JSString) (x : JSValue) (xs : List JSValue)
    (h : Serializable nts x) :
    ∃ c t, stringifyElements nts (x :: xs) = c :: t ∧ isJSONWhitespace c = false ∧ c ≠ 93 := by
  obtain ⟨c, t, hc, hw, h93, -⟩ := stringify_head nts x h
  cases xs with
  | nil => exact ⟨c, t, by rw [stringifyElements, hc], hw, h93⟩
  | cons y ys => exact ⟨c, _, by rw [stringifyElements, hc]; rfl, hw, h93⟩

theorem stringifyMembers_head (nts : ℚ → JSString) (p : JSString × JSValue)
    (ps : List (JSString × JSValue)) :
    ∃ t, stringifyMembers nts (p :: ps) = 34 :: t := by
  obtain ⟨k, v⟩ := p
  cases ps with
  | nil => exact ⟨_, by rw [stringifyMembers, quoteJSONString]; rfl⟩
  | cons q qs => exact ⟨_, by rw [stringifyMembers, quoteJSONString]; rfl⟩

theorem numChar_facts : isNumChar 44 = false ∧ isNumChar 93 = false ∧ isNumChar 125 = false := by
  decide

mutual
/-- Reading back what `JSON.stringify` wrote, with enough fuel and before anything that
does not continue a number, gives the value and leaves the rest. -/
theorem parseValue_stringify (nts : ℚ → JSString) :
    ∀ (v : JSValue), Serializable nts v → ∀ (fuel : Nat) (rest : JSString),
      (stringify nts v).length ≤ fuel → (∀ c, rest.head? = some c → isNumChar c = false) →
      parseValue fuel (stringify nts v ++ rest) = some (v, rest)
  | JSValue.null, _, fuel, rest, hf, _ => by
    rw [stringify] at hf ⊢
    obtain ⟨f, rfl⟩ : ∃ f, fuel = f + 1 := ⟨fuel - 1, by simp at hf; omega⟩
    exact (parseValue_lits f rest).1
  | JSValue.bool true, _, fuel, rest, hf, _ => by
    rw [stringify] at hf ⊢
    obtain ⟨f, rfl⟩ : ∃ f, fuel = f + 1 := ⟨fuel - 1, by simp at hf; omega⟩
    exact (parseValue_lits f rest).2.1
  | JSValue.bool false, _, fuel, rest, hf, _ => by
    rw [stringify] at hf ⊢
    obtain ⟨f, rfl⟩ : ∃ f, fuel = f + 1 := ⟨fuel - 1, by simp at hf; omega⟩
    exact (parseValue_lits f rest).2.2
  | JSValue.num (Number.fin q), hs, fuel, rest, hf, hr => by
    rw [Serializable] at hs
    rw [stringify] at hf ⊢
    obtain ⟨-, q', hq', -⟩ := (NumberRoundTrips.fin_iff nts q).1 hs
    obtain ⟨c, t, htok, -⟩ := parseNumberToken_head _ q' hq'
    obtain ⟨f, rfl⟩ : ∃ f, fuel = f + 1 := ⟨fuel - 1, by rw [htok] at hf; simp at hf; omega⟩
    exact parseValue_num nts q hs f rest hr
  | JSValue.num Number.posInf, hs, _, _, _, _ => by
    rw [Serializable] at hs
    exact absurd hs (by simp [NumberRoundTrips])
  | JSValue.num Number.negInf, hs, _, _, _, _ => by
    rw [Serializable] at hs
    exact absurd hs (by simp [NumberRoundTrips])
  | JSValue.num Number.nan, hs, _, _, _, _ => by
    rw [Serializable] at hs
    exact absurd hs (by simp [NumberRoundTrips])
  | JSValue.str s, _, fuel, rest, hf, _ => by
    rw [stringify] at hf ⊢
    obtain ⟨f, rfl⟩ : ∃ f, fuel = f + 1 :=
      ⟨fuel - 1, by simp [quoteJSONString] at hf; omega⟩
    exact parseValue_str s f rest
  | JSValue.arr [], _, fuel, rest, hf, _ => by
    rw [stringify, stringifyElements] at hf ⊢
    obtain ⟨f, rfl⟩ : ∃ f, fuel = f + 1 := ⟨fuel - 1, by simp at hf; omega⟩
    show parseValue (f + 1) (91 :: 93 :: rest) = _
    rw [parseValue, skipWs_cons 91 _ (by decide)]
    simp only [if_neg (show ¬ (91 : Nat) = 123 by decide), if_true]
    rw [skipWs_cons 93 _ (by decide)]
  | JSValue.arr (x :: xs), hs, fuel, rest, hf, _ => by
    rw [Serializable] at hs
    rw [stringify] at hf ⊢
    obtain ⟨f, rfl⟩ : ∃ f, fuel = f + 1 := ⟨fuel - 1, by simp at hf; omega⟩
    have hx : Serializable nts x := by rw [SerializableList] at hs; exact hs.1
    obtain ⟨c, t, hc, hw, h93⟩ := stringifyElements_head nts x xs hx
    have hrec := parseElements_stringify nts (x :: xs) (List.cons_ne_nil _ _) hs f rest
      (by simp at hf ⊢; omega)
    show parseValue (f + 1) (91 :: (stringifyElements nts (x :: xs) ++ [93] ++ rest)) = _
    rw [parseValue, skipWs_cons 91 _ (by decide)]
    simp only [if_neg (show ¬ (91 : Nat) = 123 by decide), if_true]
    rw [List.append_assoc, List.singleton_append, hrec, hc, List.cons_append,
      skipWs_cons c _ hw]
    split
    · rename_i heq
      injection heq with h1 _
      exact absurd h1 h93
    · rfl
  | JSValue.obj [], _, fuel, rest, hf, _ => by
    rw [stringify, stringifyMembers] at hf ⊢
    obtain ⟨f, rfl⟩ : ∃ f, fuel = f + 1 := ⟨fuel - 1, by simp at hf; omega⟩
    show parseValue (f + 1) (123 :: 125 :: rest) = _
    rw [parseValue, skipWs_cons 123 _ (by decide)]
    simp only [if_true]
    rw [skipWs_cons 125 _ (by decide)]
  | JSValue.obj (p :: ps), hs, fuel, rest, hf, _ => by
    rw [Serializable] at hs
    rw [stringify] at hf ⊢
    obtain ⟨f, rfl⟩ : ∃ f, fuel = f + 1 := ⟨fuel - 1, by simp at hf; omega⟩
    obtain ⟨t, hc⟩ := stringifyMembers_head nts p ps
    have hrec := parseMembers_stringify nts (p :: ps) (List.cons_ne_nil _ _) hs.1 f rest
      (by simp at hf ⊢; omega)
    show parseValue (f + 1) (123 :: (stringifyMembers nts (p :: ps) ++ [125] ++ rest)) = _
    rw [parseValue, skipWs_cons 123 _ (by decide)]
    simp only [if_true]
    rw [List.append_assoc, List.singleton_append, hrec, hc, List.cons_append,
      skipWs_cons 34 _ (by decide)]
    simp only [Option.map_some']
    rw [foldl_setProp_nodup (p :: ps) [] (by simpa using hs.2)]
    rfl
/-- Reading back the elements of a non-empty array up to its closing bracket. -/
theorem parseElements_stringify (nts : ℚ → JSString) :
    ∀ (xs : List JSValue), xs ≠ [] → SerializableList nts xs → ∀ (fuel : Nat) (rest : JSString),
      (stringifyElements nts xs).length + 1 ≤ fuel →
      parseElements fuel (stringifyElements nts xs ++ 93 :: rest) = some (xs, rest)
  | [], h, _, _, _, _ => absurd rfl h
  | [x], _, hs, fuel, rest, hf => by
    rw [SerializableList] at hs
    rw [stringifyElements] at hf ⊢
    obtain ⟨f, rfl⟩ : ∃ f, fuel = f + 1 := ⟨fuel - 1, by omega⟩
    rw [parseElements, parseValue_stringify nts x hs.1 f (93 :: rest) (by omega)
      (by intro c hc; simp at hc; subst hc; decide)]
    simp only []
    rw [skipWs_cons 93 _ (by decide)]
  | x :: y :: xs, _, hs, fuel, rest, hf => by
    rw [SerializableList] at hs
    rw [stringifyElements] at hf ⊢
    obtain ⟨f, rfl⟩ : ∃ f, fuel = f + 1 := ⟨fuel - 1, by omega⟩
    have hlen : (stringify nts x).length + 1 + (stringifyElements nts (y :: xs)).length + 1
        ≤ f + 1 := by simp at hf; omega
    rw [List.append_assoc, parseElements,
      parseValue_stringify nts x hs.1 f _ (by omega)
        (by intro c hc; simp at hc; subst hc; decide)]
    simp only [List.cons_append]
    rw [skipWs_cons 44 _ (by decide)]
    simp only []
    rw [parseElements_stringify nts (y :: xs) (List.cons_ne_nil _ _) hs.2 f rest (by omega)]
    rfl
/-- Reading back the members of a non-empty object up to its closing brace. -/
theorem parseMembers_stringify (nts : ℚ → JSString) :
    ∀ (ps : List (JSString × JSValue)), ps ≠ [] → SerializableProps nts ps →
      ∀ (fuel : Nat) (rest : JSString), (stringifyMembers nts ps).length + 1 ≤ fuel →
      parseMembers fuel (stringifyMembers nts ps ++ 125 :: rest) = some (ps, rest)
  | [], h, _, _, _, _ => absurd rfl h
  | [(k, v)], _, hs, fuel, rest, hf => by
    rw [SerializableProps] at hs
    rw [stringifyMembers] at hf ⊢
    obtain ⟨f, rfl⟩ : ∃ f, fuel = f + 1 := ⟨fuel - 1, by omega⟩
    have hlen : (stringify nts v).length ≤ f := by simp at hf; omega
    have e : quoteJSONString k ++ 58 :: stringify nts v ++ 125 :: rest
        = 34 :: (quoteLoop false k ++ [34] ++ (58 :: (stringify nts v ++ 125 :: rest))) := by
      simp [quoteJSONString]
    rw [e, parseMembers, skipWs_cons 34 _ (by decide)]
    simp only []
    rw [parseStringLoop_quoteJSONString]
    simp only []
    rw [skipWs_cons 58 _ (by decide)]
    simp only []
    rw [parseValue_stringify nts v hs.2.1 f _ hlen
      (by intro c hc; simp at hc; subst hc; decide)]
    simp only []
    rw [skipWs_cons 125 _ (by decide)]
  | (k, v) :: q :: ps, _, hs, fuel, rest, hf => by
    rw [SerializableProps] at hs
    rw [stringifyMembers] at hf ⊢
    obtain ⟨f, rfl⟩ : ∃ f, fuel = f + 1 := ⟨fuel - 1, by omega⟩
    have hlen : (stringify nts v).length + (stringifyMembers nts (q :: ps)).length + 2 ≤ f := by
      simp [quoteJSONString] at hf; omega
    have e : quoteJSONString k ++ 58 :: stringify nts v
          ++ 44 :: stringifyMembers nts (q :: ps) ++ 125 :: rest
        = 34 :: (quoteLoop false k ++ [34] ++ (58 :: (stringify nts v
            ++ (44 :: (stringifyMembers nts (q :: ps) ++ 125 :: rest))))) := by
      simp [quoteJSONString]
    rw [e, parseMembers, skipWs_cons 34 _ (by decide)]
    simp only []
    rw [parseStringLoop_quoteJSONString]
    simp only []
    rw [skipWs_cons 58 _ (by decide)]
    simp only []
    rw [parseValue_stringify nts v hs.2.1 f _ (by omega)
      (by intro c hc; simp at hc; subst hc; decide)]
    simp only []
    rw [skipWs_cons 44 _ (by decide)]
    simp only []
    rw [parseMembers_stringify nts (q :: ps) (List.cons_ne_nil _ _) hs.2.2 f rest (by omega)]
    rfl
end

/-- Round trip: `JSON.parse(JSON.stringify(v))` is `v` for a serializable `v`. -/
theorem jsonParse_stringify (nts : ℚ → JSString) (v : JSValue) (h : Serializable nts v) :
    jsonParse (stringify nts v) = Except.ok v := by
  have := parseValue_stringify nts v h ((stringify nts v).length + 1) [] (by omega) (by simp)
  rw [List.append_nil] at this
  unfold jsonParse
  rw [this]
  rfl

/-! ## Well-formedness of what `JSON.stringify` writes -/

theorem wellFormedUTF16_cons_plain_intro (c : Nat) (rest : JSString)
    (hc : ¬ (0xD800 ≤ c ∧ c ≤ 0xDFFF)) (hlt : c < 0x10000)
    (h : wellFormedUTF16 rest = true) : wellFormedUTF16 (c :: rest) = true := by
  cases rest with
  | nil =>
    rw [wellFormedUTF16, if_neg (by omega), if_neg (by omega)]
    simp [hlt, h]
  | cons d rest =>
    rw [wellFormedUTF16, if_neg (by omega), if_neg (by omega)]
    simp [hlt, h]

theorem wellFormedUTF16_cons_pair_intro (c d : Nat) (rest : JSString)
    (hp : 0xD800 ≤ c ∧ c ≤ 0xDBFF ∧ 0xDC00 ≤ d ∧ d ≤ 0xDFFF)
    (h : wellFormedUTF16 rest = true) : wellFormedUTF16 (c :: d :: rest) = true := by
  rw [wellFormedUTF16, if_pos ⟨hp.1, hp.2.1⟩]
  simp [hp.2.2.1, hp.2.2.2, h]

theorem wellFormedUTF16_append : ∀ (a b : JSString), wellFormedUTF16 a = true →
    wellFormedUTF16 b = true → wellFormedUTF16 (a ++ b) = true := by
  intro a
  induction a using codePoints.induct with
  | case1 => intro b _ hb; exact hb
  | case2 c =>
    intro b ha hb
    by_cases hc : 0xD800 ≤ c ∧ c ≤ 0xDBFF
    · obtain ⟨d, rest', he, -, -⟩ := wellFormedUTF16_cons_high c [] ha hc
      cases he
    · obtain ⟨hl, hlt, -⟩ := wellFormedUTF16_cons_plain c [] ha hc
      exact wellFormedUTF16_cons_plain_intro c b (by omega) hlt hb
  | case3 c d rest hp ih =>
    intro b ha hb
    obtain ⟨d', rest', he, -, hwf⟩ := wellFormedUTF16_cons_high c (d :: rest) ha ⟨hp.1, hp.2.1⟩
    cases he
    exact wellFormedUTF16_cons_pair_intro c d (rest ++ b) hp (ih b hwf hb)
  | case4 c d rest hp ih =>
    intro b ha hb
    by_cases hc : 0xD800 ≤ c ∧ c ≤ 0xDBFF
    · obtain ⟨d', rest', he, hd, -⟩ := wellFormedUTF16_cons_high c (d :: rest) ha hc
      cases he
      exact absurd ⟨hc.1, hc.2, hd.1, hd.2⟩ hp
    · obtain ⟨hl, hlt, hwf⟩ := wellFormedUTF16_cons_plain c (d :: rest) ha hc
      exact wellFormedUTF16_cons_plain_intro c (d :: rest ++ b) (by omega) hlt (ih b hwf hb)

theorem wellFormedUTF16_ascii : ∀ s : JSString, (∀ c ∈ s, c < 0x80) →
    wellFormedUTF16 s = true := by
  intro s
  induction s with
  | nil => intro _; rfl
  | cons c rest ih =>
    intro h
    have := h c (List.mem_cons_self _ _)
    exact wellFormedUTF16_cons_plain_intro c rest (by omega) (by omega)
      (ih fun x hx => h x (List.mem_cons_of_mem _ hx))

theorem hexLower_lt (n : Nat) (h : n < 16) : hexLower n < 0x80 := by
  interval_cases n <;> decide

theorem unicodeEscape_ascii (c : Nat) : ∀ u ∈ unicodeEscape c, u < 0x80 := by
  intro u hu
  simp only [unicodeEscape, List.mem_cons, List.mem_singleton, List.not_mem_nil, or_false] at hu
  rcases hu with rfl | rfl | rfl | rfl | rfl | rfl
  · decide
  · decide
  · exact hexLower_lt _ (by omega)
  · exact hexLower_lt _ (by omega)
  · exact hexLower_lt _ (by omega)
  · exact hexLower_lt _ (by omega)

theorem wellFormedUTF16_quoteUnit (c : Nat) (h : c < 0x10000) :
    wellFormedUTF16 (quoteUnit c) = true := by
  unfold quoteUnit
  split_ifs with h8 h9 h10 h12 h13 h34 h92 hlt hs
  · rfl
  · rfl
  · rfl
  · rfl
  · rfl
  · rfl
  · rfl
  · exact wellFormedUTF16_ascii _ (unicodeEscape_ascii c)
  · exact wellFormedUTF16_ascii _ (unicodeEscape_ascii c)
  · exact wellFormedUTF16_cons_plain_intro c [] hs h rfl

theorem wellFormedUTF16_quoteLoop : ∀ s : JSString, ValidUnits s →
    wellFormedUTF16 (quoteLoop false s) = true := by
  intro s
  induction s using codePoints.induct with
  | case1 => intro _; rfl
  | case2 c =>
    intro h
    rw [quoteLoop_cons_unit c [] (by simp), quoteLoop, List.append_nil]
    exact wellFormedUTF16_quoteUnit c (h c (by simp))
  | case3 c d t hp ih =>
    intro h
    rw [quoteLoop_cons_pair c d t hp]
    exact wellFormedUTF16_cons_pair_intro c d _ hp
      (ih fun x hx => h x (by simp [hx]))
  | case4 c d t hp ih =>
    intro h
    rw [quoteLoop_cons_unit c (d :: t) (by
      rintro ⟨h1, h2⟩
      simp only [List.head?_cons, Option.any_some, Bool.and_eq_true, decide_eq_true_eq] at h2
      exact hp ⟨h1.1, h1.2, h2.1, h2.2⟩)]
    exact wellFormedUTF16_append _ _ (wellFormedUTF16_quoteUnit c (h c (by simp)))
      (ih fun x hx => h x (List.mem_cons_of_mem _ hx))

theorem wellFormedUTF16_quoteJSONString (s : JSString) (h : ValidUnits s) :
    wellFormedUTF16 (quoteJSONString s) = true := by
  unfold quoteJSONString
  exact wellFormedUTF16_cons_plain_intro 34 _ (by omega) (by omega)
    (wellFormedUTF16_append _ _ (wellFormedUTF16_quoteLoop s h) rfl)

theorem isNumChar_ascii (c : Nat) (h : isNumChar c = true) : c < 0x80 := by
  simp only [isNumChar, isDigit, Bool.or_eq_true, Bool.and_eq_true, decide_eq_true_eq] at h
  omega

mutual
/-- What `JSON.stringify` writes for a serializable value is well-formed UTF-16. -/
theorem wellFormedUTF16_stringify (nts : ℚ → JSString) :
    ∀ v : JSValue, Serializable nts v → wellFormedUTF16 (stringify nts v) = true
  | JSValue.null, _ => by rw [stringify]; rfl
  | JSValue.bool true, _ => by rw [stringify]; rfl
  | JSValue.bool false, _ => by rw [stringify]; rfl
  | JSValue.num (Number.fin q), hs => by
    rw [Serializable] at hs
    rw [stringify]
    exact wellFormedUTF16_ascii _ fun c hc =>
      isNumChar_ascii c (((NumberRoundTrips.fin_iff nts q).1 hs).1 c hc)
  | JSValue.num Number.posInf, _ => by rw [stringify]; rfl
  | JSValue.num Number.negInf, _ => by rw [stringify]; rfl
  | JSValue.num Number.nan, _ => by rw [stringify]; rfl
  | JSValue.str s, hs => by
    rw [Serializable] at hs
    rw [stringify]
    exact wellFormedUTF16_quoteJSONString s hs
  | JSValue.arr xs, hs => by
    rw [Serializable] at hs
    rw [stringify]
    exact wellFormedUTF16_cons_plain_intro 91 _ (by omega) (by omega)
      (wellFormedUTF16_append _ _ (wellFormedUTF16_stringifyElements nts xs hs) rfl)
  | JSValue.obj ps, hs => by
    rw [Serializable] at hs
    rw [stringify]
    exact wellFormedUTF16_cons_plain_intro 123 _ (by omega) (by omega)
      (wellFormedUTF16_append _ _ (wellFormedUTF16_stringifyMembers nts ps hs.1) rfl)
/-- The elements of an array are written well-formed. -/
theorem wellFormedUTF16_stringifyElements (nts : ℚ → JSString) :
    ∀ xs : List JSValue, SerializableList nts xs →
      wellFormedUTF16 (stringifyElements nts xs) = true
  | [], _ => by rw [stringifyElements]; rfl
  | [x], hs => by
    rw [SerializableList] at hs
    rw [stringifyElements]
    exact wellFormedUTF16_stringify nts x hs.1
  | x :: y :: xs, hs => by
    rw [SerializableList] at hs
    rw [stringifyElements]
    exact wellFormedUTF16_append _ _ (wellFormedUTF16_stringify nts x hs.1)
      (wellFormedUTF16_cons_plain_intro 44 _ (by omega) (by omega)
        (wellFormedUTF16_stringifyElements nts (y :: xs) hs.2))
/-- The members of an object are written well-formed. -/
theorem wellFormedUTF16_stringifyMembers (nts : ℚ → JSString) :
    ∀ ps : List (JSString × JSValue), SerializableProps nts ps →
      wellFormedUTF16 (stringifyMembers nts ps) = true
  | [], _ => by rw [stringifyMembers]; rfl
  | [(k, v)], hs => by
    rw [SerializableProps] at hs
    rw [stringifyMembers]
    exact wellFormedUTF16_append _ _ (wellFormedUTF16_quoteJSONString k hs.1)
      (wellFormedUTF16_cons_plain_intro 58 _ (by omega) (by omega)
        (wellFormedUTF16_stringify nts v hs.2.1))
  | (k, v) :: q :: ps, hs => by
    rw [SerializableProps] at hs
    rw [stringifyMembers]
    exact wellFormedUTF16_append _ _
      (wellFormedUTF16_append _ _ (wellFormedUTF16_quoteJSONString k hs.1)
        (wellFormedUTF16_cons_plain_intro 58 _ (by omega) (by omega)
          (wellFormedUTF16_stringify nts v hs.2.1)))
      (wellFormedUTF16_cons_plain_intro 44 _ (by omega) (by omega)
        (wellFormedUTF16_stringifyMembers nts (q :: ps) hs.2.2))
end

/-! ## The permalink codec -/

/-- The string codec of `encodeState` / `decodeState`: a well-formed string is encoded
without an exception, and decoding the token gives the string back. -/
theorem decode_encode_string (s : JSString) (h : wellFormedUTF16 s = true) :
    ∃ a t tok, encodeURIComponent s = Except.ok a ∧ btoa (unescape a) = Except.ok t
      ∧ encodeURIComponent t = Except.ok tok ∧ decodeURIComponent tok = Except.ok t
      ∧ atob t = Except.ok (utf8Bytes s)
      ∧ decodeURIComponent (escape (utf8Bytes s)) = Except.ok s := by
  have hbytes := utf8Bytes_lt s h
  obtain ⟨t, ht1, ht2, hascii⟩ := atob_btoa (utf8Bytes s) hbytes
  obtain ⟨tok, htok1, htok2⟩ :=
    decodeURIComponent_encodeURIComponent t (wellFormedUTF16_ascii t hascii)
  refine ⟨_, t, tok, encodeURIComponent_wellFormed s h, ?_, htok1, htok2, ht2,
    decodeURIComponent_escape_utf8 s h⟩
  rw [unescape_pctEncode uriUnreserved (fun b hb => (uriUnreserved_ascii b hb).2) _ hbytes]
  exact ht1

/-- Round trip: `decodeState(encodeState(v))` is `v` for every serializable value. -/
theorem decodeState_encodeState (nts : ℚ → JSString) (v : JSValue) (h : Serializable nts v) :
    ∃ tok, encodeState nts v = Except.ok tok ∧ decodeState tok = v := by
  obtain ⟨a, t, tok, h1, h2, h3, h4, h5, h6⟩ :=
    decode_encode_string (stringify nts v) (wellFormedUTF16_stringify nts v h)
  refine ⟨tok, ?_, ?_⟩
  · unfold encodeState
    rw [h1]
    simp only []
    rw [h2]
    simp only []
    exact h3
  · unfold decodeState decodeStateTry
    rw [h4]
    simp only []
    rw [h5]
    simp only []
    rw [h6]
    simp only []
    rw [jsonParse_stringify nts v h]

theorem TextBox.toJSValue_injective (a b : TextBox) (h : a.toJSValue = b.toJSValue) : a = b := by
  cases a
  cases b
  simp only [TextBox.toJSValue, JSValue.obj.injEq, List.cons.injEq, Prod.mk.injEq, true_and,
    JSValue.num.injEq, JSValue.str.injEq, JSValue.bool.injEq, and_true] at h
  simp only [TextBox.mk.injEq]
  tauto

theorem map_toJSValue_injective : ∀ (as bs : List TextBox),
    as.map TextBox.toJSValue = bs.map TextBox.toJSValue → as = bs := by
  intro as
  induction as with
  | nil =>
    intro bs h
    cases bs with
    | nil => rfl
    | cons b bs => simp at h
  | cons a as ih =>
    intro bs h
    cases bs with
    | nil => simp at h
    | cons b bs =>
      simp only [List.map_cons, List.cons.injEq] at h
      rw [TextBox.toJSValue_injective a b h.1, ih bs h.2]

theorem payloadValue_injective (img img' : JSString) (boxes boxes' : List TextBox)
    (h : payloadValue img boxes = payloadValue img' boxes') : img = img' ∧ boxes = boxes' := by
  simp only [payloadValue, JSValue.obj.injEq, List.cons.injEq, Prod.mk.injEq, true_and,
    JSValue.str.injEq, JSValue.arr.injEq, and_true] at h
  exact ⟨h.1, map_toJSValue_injective _ _ h.2⟩

theorem serializable_toJSValue (nts : ℚ → JSString) (b : TextBox)
    (h : TextBox.Encodable nts b) : Serializable nts b.toJSValue := by
  obtain ⟨h1, h2, h3, h4, h5, h6, h7, h8, h9, h10⟩ := h
  unfold TextBox.toJSValue
  rw [Serializable]
  refine ⟨?_, by simp only [List.map_cons, List.map_nil]; decide⟩
  simp only [SerializableProps, Serializable, and_true, true_and]
  exact ⟨by decide, h6, by decide, h1, by decide, h7, by decide, h8, by decide, h9, by decide,
    h2, by decide, h3, by decide, h10, by decide, h4, by decide, h5, by decide, by decide,
    by decide, by decide⟩

theorem serializableList_map_toJSValue (nts : ℚ → JSString) : ∀ boxes : List TextBox,
    (∀ b ∈ boxes, TextBox.Encodable nts b) →
      SerializableList nts (boxes.map TextBox.toJSValue) := by
  intro boxes
  induction boxes with
  | nil => intro _; simp [SerializableList]
  | cons b rest ih =>
    intro h
    simp only [List.map_cons, SerializableList]
    exact ⟨serializable_toJSValue nts b (h b (List.mem_cons_self _ _)),
      ih fun x hx => h x (List.mem_cons_of_mem _ hx)⟩

theorem serializable_payloadValue (nts : ℚ → JSString) (img : JSString) (boxes : List TextBox)
    (himg : ValidUnits img) (hboxes : ∀ b ∈ boxes, TextBox.Encodable nts b) :
    Serializable nts (payloadValue img boxes) := by
  unfold payloadValue
  rw [Serializable]
  refine ⟨?_, by simp only [List.map_cons, List.map_nil]; decide⟩
  simp only [SerializableProps, Serializable, and_true]
  exact ⟨by decide, himg, by decide, serializableList_map_toJSValue nts boxes hboxes⟩

/-- C8. For every permalink payload `{img, boxes}` whose strings are strings of UTF-16 code
units (any Unicode text, unpaired surrogates included) and whose numbers the platform prints
so that they read back, `encodeState` produces a token without throwing and
`decodeState` of that token is the payload: the same `img`, the same boxes in the same
order, every one of the fourteen fields equal. -/
theorem permalink_roundtrip (numberToString : ℚ → JSString) (img : JSString)
    (boxes : List TextBox) (himg : ValidUnits img)
    (hboxes : ∀ b ∈ boxes, TextBox.Encodable numberToString b) :
    ∃ tok, encodeState numberToString (payloadValue img boxes) = Except.ok tok
      ∧ decodeState tok = payloadValue img boxes
      ∧ ∀ (img' : JSString) (boxes' : List TextBox),
          decodeState tok = payloadValue img' boxes' → img' = img ∧ boxes' = boxes := by
  obtain ⟨tok, h1, h2⟩ := decodeState_encodeState numberToString (payloadValue img boxes)
    (serializable_payloadValue numberToString img boxes himg hboxes)
  refine ⟨tok, h1, h2, ?_⟩
  intro img' boxes' h
  rw [h2] at h
  obtain ⟨e1, e2⟩ := payloadValue_injective _ _ _ _ h
  exact ⟨e1.symm, e2.symm⟩

/-- Witness for C8: the permalink of the first template with the mixed Latin and Hebrew
box and the second default box, numbers printed in decimal notation. -/
theorem permalink_roundtrip_witness :
    ∃ tok, encodeState decimalString (payloadValue (lit "/images/1.png") [mixedBox, defaultText 2])
        = Except.ok tok
      ∧ decodeState tok = payloadValue (lit "/images/1.png") [mixedBox, defaultText 2]
      ∧ ∀ (img' : JSString) (boxes' : List TextBox),
          decodeState tok = payloadValue img' boxes' →
            img' = lit "/images/1.png" ∧ boxes' = [mixedBox, defaultText 2] :=
  permalink_roundtrip decimalString (lit "/images/1.png") [mixedBox, defaultText 2]
    (by decide) (by decide!)

/-! ## Permalink decoding -/

mutual
theorem JSValue.eq_of_beq : ∀ a b : JSValue, JSValue.beq a b = true → a = b
  | JSValue.null, JSValue.null, _ => rfl
  | JSValue.bool a, JSValue.bool b, h => by
    simp only [JSValue.beq, beq_iff_eq] at h; rw [h]
  | JSValue.num a, JSValue.num b, h => by
    simp only [JSValue.beq, beq_iff_eq] at h; rw [h]
  | JSValue.str a, JSValue.str b, h => by
    simp only [JSValue.beq, beq_iff_eq] at h; rw [h]
  | JSValue.arr xs, JSValue.arr ys, h => by
    simp only [JSValue.beq] at h
    rw [JSValue.eq_of_beqList xs ys h]
  | JSValue.obj ps, JSValue.obj qs, h => by
    simp only [JSValue.beq] at h
    rw [JSValue.eq_of_beqProps ps qs h]
  | JSValue.null, JSValue.bool _, h | JSValue.null, JSValue.num _, h
  | JSValue.null, JSValue.str _, h | JSValue.null, JSValue.arr _, h
  | JSValue.null, JSValue.obj _, h => by simp [JSValue.beq] at h
  | JSValue.bool _, JSValue.null, h | JSValue.bool _, JSValue.num _, h
  | JSValue.bool _, JSValue.str _, h | JSValue.bool _, JSValue.arr _, h
  | JSValue.bool _, JSValue.obj _, h => by simp [JSValue.beq] at h
  | JSValue.num _, JSValue.null, h | JSValue.num _, JSValue.bool _, h
  | JSValue.num _, JSValue.str _, h | JSValue.num _, JSValue.arr _, h
  | JSValue.num _, JSValue.obj _, h => by simp [JSValue.beq] at h
  | JSValue.str _, JSValue.null, h | JSValue.str _, JSValue.bool _, h
  | JSValue.str _, JSValue.num _, h | JSValue.str _, JSValue.arr _, h
  | JSValue.str _, JSValue.obj _, h => by simp [JSValue.beq] at h
  | JSValue.arr _, JSValue.null, h | JSValue.arr _, JSValue.bool _, h
  | JSValue.arr _, JSValue.num _, h | JSValue.arr _, JSValue.str _, h
  | JSValue.arr _, JSValue.obj _, h => by simp [JSValue.beq] at h
  | JSValue.obj _, JSValue.null, h | JSValue.obj _, JSValue.bool _, h
  | JSValue.obj _, JSValue.num _, h | JSValue.obj _, JSValue.str _, h
  | JSValue.obj _, JSValue.arr _, h => by simp [JSValue.beq] at h
theorem JSValue.eq_of_beqList :
    ∀ xs ys : List JSValue, JSValue.beqList xs ys = true → xs = ys
  | [], [], _ => rfl
  | x :: xs, y :: ys, h => by
    simp only [JSValue.beqList, Bool.and_eq_true] at h
    rw [JSValue.eq_of_beq x y h.1, JSValue.eq_of_beqList xs ys h.2]
  | [], _ :: _, h => by simp [JSValue.beqList] at h
  | _ :: _, [], h => by simp [JSValue.beqList] at h
theorem JSValue.eq_of_beqProps :
    ∀ ps qs : List (JSString × JSValue), JSValue.beqProps ps qs = true → ps = qs
  | [], [], _ => rfl
  | (k, x) :: ps, (l, y) :: qs, h => by
    simp only [JSValue.beqProps, Bool.and_eq_true, beq_iff_eq] at h
    rw [h.1.1, JSValue.eq_of_beq x y h.1.2, JSValue.eq_of_beqProps ps qs h.2]
  | [], _ :: _, h => by simp [JSValue.beqProps] at h
  | _ :: _, [], h => by simp [JSValue.beqProps] at h
end

/-- C9 fails on the code. The token `eyJpbWciOiJ4IiwiYm94ZXMiOjd9` decodes to
`{img: "x", boxes: 7}`, which is no `{img: string, boxes: TextBox[]}` payload and which
`encodeState` gives for no such payload, yet the mount-time load applies it instead of
leaving the session as it was: `activeUrl` becomes `"x"` and `boxesByImage["x"]` becomes the
number `7`, where every other writer of `boxesByImage` stores an array of boxes. -/
theorem permalinkLoad_applies_foreign_token :
    decodeState foreignToken
        = JSValue.obj [(lit "img", JSValue.str (lit "x")), (lit "boxes", JSValue.num 7)]
    ∧ (∀ (img : JSString) (boxes : List TextBox),
        decodeState foreignToken ≠ payloadValue img boxes)
    ∧ (∀ (numberToString : ℚ → JSString) (img : JSString) (boxes : List TextBox),
        ValidUnits img → (∀ b ∈ boxes, TextBox.Encodable numberToString b) →
        encodeState numberToString (payloadValue img boxes) ≠ Except.ok foreignToken)
    ∧ (permalinkLoad decimalString (some foreignToken) (Session.initial [])).activeUrl
        = JSValue.str (lit "x")
    ∧ (permalinkLoad decimalString (some foreignToken) (Session.initial [])).boxesByImage.lookup
          (lit "x") = some (JSValue.num 7)
    ∧ permalinkLoad decimalString (some foreignToken) (Session.initial [])
        ≠ Session.initial [] := by
  have hdec : decodeState foreignToken
      = JSValue.obj [(lit "img", JSValue.str (lit "x")), (lit "boxes", JSValue.num 7)] :=
    JSValue.eq_of_beq _ _ (by decide!)
  have hact : (permalinkLoad decimalString (some foreignToken) (Session.initial [])).activeUrl
      = JSValue.str (lit "x") := JSValue.eq_of_beq _ _ (by decide!)
  have hne : ∀ (img : JSString) (boxes : List TextBox),
      decodeState foreignToken ≠ payloadValue img boxes := by
    intro img boxes h
    rw [hdec, payloadValue] at h
    injection h with h
    injection h with _ h
    injection h with h _
    injection h with _ h
    cases h
  refine ⟨hdec, hne, ?_, hact, ?_, ?_⟩
  · intro nts img boxes himg hboxes henc
    obtain ⟨tok, h1, h2⟩ := decodeState_encodeState nts (payloadValue img boxes)
      (serializable_payloadValue nts img boxes himg hboxes)
    rw [henc] at h1
    injection h1 with h1
    rw [← h1] at h2
    exact hne img boxes h2
  · have : ((permalinkLoad decimalString (some foreignToken)
        (Session.initial [])).boxesByImage.lookup (lit "x")).isSome = true := by decide!
    obtain ⟨v, hv⟩ := Option.isSome_iff_exists.1 this
    rw [hv]
    have hb : (match (permalinkLoad decimalString (some foreignToken)
        (Session.initial [])).boxesByImage.lookup (lit "x") with
        | some w => w.beq (JSValue.num 7)
        | none => false) = true := by decide!
    rw [hv] at hb
    rw [JSValue.eq_of_beq _ _ hb]
  · intro h
    have h2 := congrArg Session.activeUrl h
    rw [hact] at h2
    simp only [Session.initial] at h2
    injection h2 with h2
    revert h2
    decide

/-- What the load does ignore: `decodeState` never throws, a step of the decoding that throws
gives `null`, and the load leaves `templates`, `boxesByImage` and `activeUrl` as they were
when there is no `m` parameter, when it is empty, when `decodeState` gives a falsy value (so
for every token that fails to decode) and when the decoded value has no truthy `img`. -/
theorem permalinkLoad_ignores (numberToString : ℚ → JSString) (st : Session) :
    (∀ s e, decodeStateTry s = Except.error e → decodeState s = JSValue.null)
    ∧ permalinkLoad numberToString none st = st
    ∧ (∀ s : JSString,
        (s = [] ∨ (decodeState s).truthy = false ∨ (decodeState s).get (lit "img") = none
          ∨ ∃ img, (decodeState s).get (lit "img") = some img ∧ img.truthy = false) →
        permalinkLoad numberToString (some s) st = st) := by
  refine ⟨?_, rfl, ?_⟩
  · intro s e h
    unfold decodeState
    rw [h]
  · intro s h
    unfold permalinkLoad
    by_cases hs : s = []
    · simp [hs]
    · simp only [hs, if_false]
      rcases h with h | h | h | ⟨img, h, himg⟩
      · exact absurd h hs
      · simp [h]
      · simp [h]
      · simp [h, himg]

/-! ## Word wrap keeps the words -/

theorem split_append_sep (sep : Nat) (b : JSString) :
    ∀ a : JSString, split sep (a ++ sep :: b) = split sep a ++ split sep b := by
  intro a
  induction a with
  | nil => simp [split]
  | cons c cs ih =>
    rw [List.cons_append]
    by_cases hc : c = sep
    · simp only [split, if_pos hc, ih, List.cons_append]
    · have hne := split_ne_nil sep cs
      cases hs : split sep cs with
      | nil => exact absurd hs hne
      | cons w ws =>
        simp only [split, if_neg hc, ih, hs, List.cons_append]

theorem split_eq_singleton (sep : Nat) :
    ∀ w : JSString, sep ∉ w → split sep w = [w] := by
  intro w
  induction w with
  | nil => intro _; simp [split]
  | cons c cs ih =>
    intro h
    simp only [List.mem_cons, not_or] at h
    simp only [split, if_neg (Ne.symm h.1), ih h.2]

/-- The strings of a list, each preceded by the separator. -/
theorem joinWith_eq (sep : JSString) (x : JSString) :
    ∀ rest : List JSString,
      joinWith sep (x :: rest) = x ++ rest.flatMap fun y => sep ++ y := by
  intro rest
  induction rest generalizing x with
  | nil => simp [joinWith]
  | cons y ys ih =>
    simp only [joinWith, ih y, List.flatMap_cons, List.append_assoc]

theorem joinWith_split (sep : Nat) :
    ∀ s : JSString, joinWith [sep] (split sep s) = s := by
  intro s
  induction s with
  | nil => simp [split, joinWith]
  | cons c cs ih =>
    have hne := split_ne_nil sep cs
    cases hs : split sep cs with
    | nil => exact absurd hs hne
    | cons w ws =>
      rw [hs] at ih
      by_cases hc : c = sep
      · subst hc
        simp only [split, if_true, hs]
        rw [joinWith, ih]
        rfl
      · simp only [split, if_neg hc, hs]
        rw [joinWith_eq] at ih ⊢
        rw [List.cons_append, ih]

/-- Once a word has been read and the current line is non-empty, the loop keeps the text of
the lines: with a space before every line, the final lines read as the earlier lines, the
current line and the remaining words do. -/
theorem wrapLoop_text (measure : JSString → ℚ) (maxWidth : ℚ) :
    ∀ (ws : List JSString) (n : Nat) (lines : List JSString) (line : JSString),
      0 < n → line ≠ [] → (∀ w ∈ ws, w ≠ []) →
      ((wrapLoop measure maxWidth n ws lines line).1
          ++ [(wrapLoop measure maxWidth n ws lines line).2]).flatMap (fun y => [32] ++ y)
        = (lines ++ [line] ++ ws).flatMap fun y => [32] ++ y := by
  intro ws
  induction ws with
  | nil =>
    intro n lines line _ _ _
    simp [wrapLoop]
  | cons w ws ih =>
    intro n lines line hn hline hws
    have hw : w ≠ [] := hws w (List.mem_cons_self _ _)
    have hws' : ∀ v ∈ ws, v ≠ [] := fun v hv => hws v (List.mem_cons_of_mem _ hv)
    unfold wrapLoop
    by_cases hc : measure (testLine line w) > maxWidth ∧ n > 0
    · rw [if_pos hc, ih (n + 1) (lines ++ [line]) w (Nat.succ_pos _) hw hws']
      simp [List.flatMap_append]
    · rw [if_neg hc,
        ih (n + 1) lines (testLine line w) (Nat.succ_pos _)
          (testLine_ne_nil _ _ (Or.inl hline)) hws']
      simp [List.flatMap_append, testLine, hline]

/-- Once a word has been read and the current line is non-empty, the loop keeps the words of
the lines. -/
theorem wrapLoop_words (measure : JSString → ℚ) (maxWidth : ℚ) :
    ∀ (ws : List JSString) (n : Nat) (lines : List JSString) (line : JSString),
      0 < n → line ≠ [] → (∀ w ∈ ws, w ≠ []) →
      ((wrapLoop measure maxWidth n ws lines line).1
          ++ [(wrapLoop measure maxWidth n ws lines line).2]).flatMap (split 32)
        = lines.flatMap (split 32) ++ split 32 line ++ ws.flatMap (split 32) := by
  intro ws
  induction ws with
  | nil =>
    intro n lines line _ _ _
    simp [wrapLoop, List.flatMap_append]
  | cons w ws ih =>
    intro n lines line hn hline hws
    have hw : w ≠ [] := hws w (List.mem_cons_self _ _)
    have hws' : ∀ v ∈ ws, v ≠ [] := fun v hv => hws v (List.mem_cons_of_mem _ hv)
    unfold wrapLoop
    by_cases hc : measure (testLine line w) > maxWidth ∧ n > 0
    · rw [if_pos hc, ih (n + 1) (lines ++ [line]) w (Nat.succ_pos _) hw hws']
      simp [List.flatMap_append]
    · rw [if_neg hc,
        ih (n + 1) lines (testLine line w) (Nat.succ_pos _)
          (testLine_ne_nil _ _ (Or.inl hline)) hws']
      have e : testLine line w = line ++ 32 :: w := by simp [testLine, hline]
      rw [e, split_append_sep]
      simp [List.flatMap_append]

theorem flatMap_split_self (sep : Nat) :
    ∀ ws : List JSString, (∀ w ∈ ws, sep ∉ w) → ws.flatMap (split sep) = ws := by
  intro ws
  induction ws with
  | nil => intro _; rfl
  | cons w ws ih =>
    intro h
    rw [List.flatMap_cons, split_eq_singleton sep w (h w (List.mem_cons_self _ _)),
      ih fun v hv => h v (List.mem_cons_of_mem _ hv)]
    rfl

/-- C15. Word wrap neither splits nor loses words: for a text whose space-separated words
are all non-empty, whatever the measuring function and `maxWidth`, the lines of `wrapText`
joined with single spaces are the text, and the words of the lines, line after line, are
exactly the words of the text in order, so every word stands whole in exactly one line. -/
theorem wrapLines_keeps_words (measure : JSString → ℚ) (text : JSString) (maxWidth : ℚ)
    (hwords : ∀ w ∈ split 32 text, w ≠ []) :
    joinWith [32] (wrapLines measure text maxWidth) = text
      ∧ (wrapLines measure text maxWidth).flatMap (split 32) = split 32 text := by
  have hfree := not_mem_of_mem_split 32 text
  have hjoin := joinWith_split 32 text
  unfold wrapLines
  simp only []
  have hne := split_ne_nil 32 text
  cases hs : split 32 text with
  | nil => exact absurd hs hne
  | cons w0 ws =>
    rw [hs] at hwords hfree hjoin
    have hw0 : w0 ≠ [] := hwords w0 (List.mem_cons_self _ _)
    have hws : ∀ v ∈ ws, v ≠ [] := fun v hv => hwords v (List.mem_cons_of_mem _ hv)
    have hstep : wrapLoop measure maxWidth 0 (w0 :: ws) [] []
        = wrapLoop measure maxWidth 1 ws [] w0 := by
      simp [wrapLoop, testLine]
    rw [hstep]
    have ht := wrapLoop_text measure maxWidth ws 1 [] w0 Nat.one_pos hw0 hws
    have hwd := wrapLoop_words measure maxWidth ws 1 [] w0 Nat.one_pos hw0 hws
    refine ⟨?_, ?_⟩
    · have hl : (wrapLoop measure maxWidth 1 ws [] w0).1
            ++ [(wrapLoop measure maxWidth 1 ws [] w0).2] ≠ [] := by simp
      cases hr : (wrapLoop measure maxWidth 1 ws [] w0).1
            ++ [(wrapLoop measure maxWidth 1 ws [] w0).2] with
      | nil => exact absurd hr hl
      | cons l ls =>
        rw [hr] at ht
        rw [← hjoin, joinWith_eq, joinWith_eq]
        simp only [List.nil_append, List.singleton_append, List.flatMap_cons,
          List.cons_append] at ht
        exact (List.cons.inj ht).2
    · rw [hwd, split_eq_singleton 32 w0 (hfree w0 (List.mem_cons_self _ _)),
        flatMap_split_self 32 ws fun v hv => hfree v (List.mem_cons_of_mem _ hv)]
      rfl

/-- Witness for C15: with ten units per character and `maxWidth = 30`, the text
`"abcde fg hi"` wraps to `"abcde"`, which is wider than `maxWidth`, `"fg"` and `"hi"`. -/
theorem wrapLines_keeps_words_witness :
    (∀ w ∈ split 32 (lit "abcde fg hi"), w ≠ [])
      ∧ wrapLines monoWidth (lit "abcde fg hi") 30 = [lit "abcde", lit "fg", lit "hi"]
      ∧ joinWith [32] (wrapLines monoWidth (lit "abcde fg hi") 30) = lit "abcde fg hi"
      ∧ (wrapLines monoWidth (lit "abcde fg hi") 30).flatMap (split 32)
          = split 32 (lit "abcde fg hi") :=
  ⟨by decide, by decide!,
   wrapLines_keeps_words monoWidth (lit "abcde fg hi") 30 (by decide)⟩

/-! ## Editor state -/

theorem getKey_setKey_self {α : Type} (prev : List (JSString × α)) (k : JSString) (v : α) :
    getKey (setKey prev k v) k = some v := by
  induction prev with
  | nil => simp [setKey, getKey]
  | cons p rest ih =>
    obtain ⟨k', v'⟩ := p
    by_cases h : k' = k
    · simp [setKey, getKey, h]
    · simp [setKey, getKey, h, ih]

theorem getKey_setKey_of_ne {α : Type} (prev : List (JSString × α)) (k k' : JSString) (v : α)
    (hne : k' ≠ k) : getKey (setKey prev k v) k' = getKey prev k' := by
  induction prev with
  | nil => simp [setKey, getKey, Ne.symm hne]
  | cons p rest ih =>
    obtain ⟨k₀, v₀⟩ := p
    by_cases h : k₀ = k
    · subst h
      simp [setKey, getKey, Ne.symm hne]
    · by_cases h' : k₀ = k'
      · subst h'
        simp [setKey, getKey, h]
      · simp [setKey, getKey, h, h', ih]

theorem boxesOf_setBoxesForActive (k : JSString) (updater : Updater) (prev : BoxesByImage) :
    boxesOf (setBoxesForActive k updater prev) k
      = (match updater with
          | Updater.fn f => f (boxesOf prev k)
          | Updater.value v => v) := by
  cases updater <;> simp [boxesOf, setBoxesForActive, getKey_setKey_self]

/-- Clamping a number that is not `NaN` to the bounds `a ≤ b` gives a finite number between
the bounds. -/
theorem clamp_bounds (v : Number) (a b : ℚ) (hab : a ≤ b) (hv : v ≠ Number.nan) :
    ∃ r, clamp v (Number.fin a) (Number.fin b) = Number.fin r ∧ a ≤ r ∧ r ≤ b := by
  cases v with
  | fin q =>
    by_cases h1 : q < b
    · by_cases h2 : a < q
      · exact ⟨q, by simp [clamp, Number.max, Number.min, Number.lt, h1, h2], le_of_lt h2,
          le_of_lt h1⟩
      · exact ⟨a, by simp [clamp, Number.max, Number.min, Number.lt, h1, h2], le_refl a, hab⟩
    · by_cases h2 : a < b
      · exact ⟨b, by simp [clamp, Number.max, Number.min, Number.lt, h1, h2], hab, le_refl b⟩
      · exact ⟨a, by simp [clamp, Number.max, Number.min, Number.lt, h1, h2], le_refl a, hab⟩
  | posInf =>
    by_cases h2 : a < b
    · exact ⟨b, by simp [clamp, Number.max, Number.min, Number.lt, h2], hab, le_refl b⟩
    · exact ⟨a, by simp [clamp, Number.max, Number.min, Number.lt, h2], le_refl a, hab⟩
  | negInf => exact ⟨a, by simp [clamp, Number.max, Number.min, Number.lt], le_refl a, hab⟩
  | nan => exact absurd rfl hv

theorem clamp_nan (a b : Number) : clamp Number.nan a b = Number.nan := by
  cases a <;> cases b <;> rfl

/-- The bounds of a drag: a coordinate that is not `NaN` is clamped into `[0.02, 0.98]`. -/
theorem clamp_drag_bounds (v : Number) (hv : v ≠ Number.nan) :
    0.02 ≤ clamp v 0.02 0.98 ∧ clamp v 0.02 0.98 ≤ 0.98 := by
  have e1 : (0.02 : Number) = Number.fin (5764607523034235 / 288230376151711744) := by decide!
  have e2 : (0.98 : Number) = Number.fin (2206763817411543 / 2251799813685248) := by decide!
  obtain ⟨r, hr, h1, h2⟩ := clamp_bounds v (5764607523034235 / 288230376151711744)
    (2206763817411543 / 2251799813685248) (by norm_num) hv
  rw [e1, e2, hr]
  exact ⟨(Number.fin_le_fin _ _).2 h1, (Number.fin_le_fin _ _).2 h2⟩

/-- With finite coordinates and a non-zero size the coordinate a drag computes is not
`NaN`. -/
theorem drag_coordinate_ne_nan (c l w o v : Number) (hc : c.isFinite = true)
    (hl : l.isFinite = true) (hwf : w.isFinite = true) (hw : w ≠ 0) (ho : o.isFinite = true)
    (hv : v.isFinite = true) : v + ((c - l) / w - o) ≠ Number.nan := by
  obtain ⟨c, rfl⟩ := (Number.isFinite_iff c).1 hc
  obtain ⟨l, rfl⟩ := (Number.isFinite_iff l).1 hl
  obtain ⟨w, rfl⟩ := (Number.isFinite_iff w).1 hwf
  obtain ⟨o, rfl⟩ := (Number.isFinite_iff o).1 ho
  obtain ⟨v, rfl⟩ := (Number.isFinite_iff v).1 hv
  have hw0 : w ≠ 0 := by
    intro h
    apply hw
    rw [h]
    decide!
  apply Number.fin_add_ne_nan
  apply Number.sub_fin_ne_nan
  apply Number.div_fin_ne_nan _ _ _ hw0
  rw [Number.fin_sub]
  exact Number.round_ne_nan _

/-- C11, amended. After `onPointerMove` during a drag the collection of the active image is
the old one with every box whose id is the dragged id moved to `clamp(x + dx, 0.02, 0.98)`,
`clamp(y + dy, 0.02, 0.98)` and the other boxes unchanged. A new coordinate lies in
`[0.02, 0.98]` whenever `x + dx` (or `y + dy`) is not `NaN`, however large the pointer delta
is, and is `NaN` otherwise. When the pointer position, the rectangle of the container, the
drag origin and the coordinates of the boxes are finite numbers and the rectangle has
non-zero width and height, every dragged box has `0.02 ≤ x ≤ 0.98` and `0.02 ≤ y ≤ 0.98`
afterwards. Without a drag state nothing changes. -/
theorem onPointerMove_clamped (e : PointerEvent) (rect : Rect) (activeUrl : JSString)
    (d : DragState) (prev : BoxesByImage) :
    boxesOf (onPointerMove e rect activeUrl (some d) prev).2 activeUrl
        = (boxesOf prev activeUrl).map (fun b =>
            if Number.strictEq b.id d.id then
              { b with
                x := clamp (b.x + ((e.clientX - rect.left) / rect.width - d.ox)) 0.02 0.98
                y := clamp (b.y + ((e.clientY - rect.top) / rect.height - d.oy)) 0.02 0.98 }
            else b)
    ∧ (∀ v : Number,
        (v ≠ Number.nan → 0.02 ≤ clamp v 0.02 0.98 ∧ clamp v 0.02 0.98 ≤ 0.98)
          ∧ (v = Number.nan → clamp v 0.02 0.98 = Number.nan))
    ∧ (e.clientX.isFinite = true → e.clientY.isFinite = true →
        rect.left.isFinite = true → rect.top.isFinite = true →
        rect.width.isFinite = true → rect.height.isFinite = true →
        rect.width ≠ 0 → rect.height ≠ 0 →
        d.ox.isFinite = true → d.oy.isFinite = true →
        (∀ b ∈ boxesOf prev activeUrl, b.x.isFinite = true ∧ b.y.isFinite = true) →
        ∀ b ∈ boxesOf (onPointerMove e rect activeUrl (some d) prev).2 activeUrl,
          Number.strictEq b.id d.id = true →
            0.02 ≤ b.x ∧ b.x ≤ 0.98 ∧ 0.02 ≤ b.y ∧ b.y ≤ 0.98)
    ∧ (boxesOf (onPointerMove e rect activeUrl (some d) prev).2 activeUrl).map (fun b => b.id)
        = (boxesOf prev activeUrl).map (fun b => b.id)
    ∧ onPointerMove e rect activeUrl none prev = (none, prev) := by
  have hmap : boxesOf (onPointerMove e rect activeUrl (some d) prev).2 activeUrl
        = (boxesOf prev activeUrl).map (fun b =>
            if Number.strictEq b.id d.id then
              { b with
                x := clamp (b.x + ((e.clientX - rect.left) / rect.width - d.ox)) 0.02 0.98
                y := clamp (b.y + ((e.clientY - rect.top) / rect.height - d.oy)) 0.02 0.98 }
            else b) := by
    unfold onPointerMove
    simp only [boxesOf_setBoxesForActive]
  refine ⟨hmap, ?_, ?_, ?_, rfl⟩
  · intro v
    refine ⟨clamp_drag_bounds v, ?_⟩
    rintro rfl
    exact clamp_nan _ _
  · intro hcx hcy hl ht hwf hhf hw hh hox hoy hboxes b hb hid
    rw [hmap] at hb
    obtain ⟨b₀, hb₀, rfl⟩ := List.mem_map.1 hb
    by_cases h0 : Number.strictEq b₀.id d.id = true
    · simp only [h0, if_true]
      have hx := clamp_drag_bounds _
        (drag_coordinate_ne_nan e.clientX rect.left rect.width d.ox b₀.x hcx hl hwf hw hox
          (hboxes b₀ hb₀).1)
      have hy := clamp_drag_bounds _
        (drag_coordinate_ne_nan e.clientY rect.top rect.height d.oy b₀.y hcy ht hhf hh hoy
          (hboxes b₀ hb₀).2)
      exact ⟨hx.1, hx.2, hy.1, hy.2⟩
    · rw [if_neg h0] at hid
      exact absurd hid h0
  · rw [hmap, List.map_map]
    apply List.map_congr_left
    intro b _
    simp only [Function.comp]
    split_ifs <;> rfl

/-- Witness for C11: on an 800×400 container a pointer far to the right and far above moves
the first default box to the corner `(0.98, 0.02)` and leaves the second alone. -/
theorem onPointerMove_clamped_witness :
    boxesOf (onPointerMove { clientX := 5000, clientY := -3000 }
        { left := 0, top := 0, width := 800, height := 400 } (lit "/images/1.png")
        (some { id := 1, ox := 0.5, oy := 0.1, startX := 0.5, startY := 0.1 })
        [(lit "/images/1.png", [defaultText 1, defaultText 2])]).2 (lit "/images/1.png")
      = [{ defaultText 1 with x := 0.98, y := 0.02 }, defaultText 2]
    ∧ (0.02 : Number) ≤ ({ defaultText 1 with x := 0.98, y := 0.02 } : TextBox).x
    ∧ ({ defaultText 1 with x := 0.98, y := 0.02 } : TextBox).x ≤ 0.98
    ∧ (0.02 : Number) ≤ ({ defaultText 1 with x := 0.98, y := 0.02 } : TextBox).y
    ∧ ({ defaultText 1 with x := 0.98, y := 0.02 } : TextBox).y ≤ 0.98 :=
  ⟨by decide!,
   (onPointerMove_clamped { clientX := 5000, clientY := -3000 }
      { left := 0, top := 0, width := 800, height := 400 } (lit "/images/1.png")
      { id := 1, ox := 0.5, oy := 0.1, startX := 0.5, startY := 0.1 }
      [(lit "/images/1.png", [defaultText 1, defaultText 2])]).2.2.1
      (by decide!) (by decide!) (by decide!) (by decide!) (by decide!) (by decide!)
      (by decide!) (by decide!) (by decide!) (by decide!) (by decide!)
      { defaultText 1 with x := 0.98, y := 0.02 } (by decide!) (by decide!)⟩

/-- C11 as stated fails. Over a container of zero width and height with the pointer at its
corner, both quotients are `0 / 0 = NaN`, `clamp` keeps `NaN`, and the dragged box ends at
`(NaN, NaN)`, which is not within `[0.02, 0.98]`. -/
theorem onPointerMove_zero_rect_nan :
    boxesOf (onPointerMove { clientX := 0, clientY := 0 }
        { left := 0, top := 0, width := 0, height := 0 } (lit "/images/1.png")
        (some { id := 1, ox := 0.5, oy := 0.08, startX := 0.5, startY := 0.08 })
        [(lit "/images/1.png", [defaultText 1, defaultText 2])]).2 (lit "/images/1.png")
      = [{ defaultText 1 with x := Number.nan, y := Number.nan }, defaultText 2]
    ∧ ((0 : Number) - 0) / 0 = Number.nan
    ∧ clamp Number.nan 0.02 0.98 = Number.nan
    ∧ ¬ ((0.02 : Number) ≤ Number.nan)
    ∧ ¬ (Number.nan ≤ (0.98 : Number)) := by
  refine ⟨by decide!, by decide!, by decide!, by decide!, by decide!⟩

/-- C12. After the active-selection effect: an empty collection gives `null`; a non-empty
collection gives the id of one of its boxes, which is the previous active id when a box has
it (`b.id === activeBoxId`) and the id of the first box otherwise. A box has the id `a`
when its id equals `a` and `a` is not `NaN`; no box has the id `null`. -/
theorem normalizeSelection_spec (boxesByImage : BoxesByImage) (activeUrl : JSString)
    (activeBoxId : Option Number) :
    (boxesOf boxesByImage activeUrl = [] →
        normalizeSelection boxesByImage activeUrl activeBoxId = none)
    ∧ (boxesOf boxesByImage activeUrl ≠ [] →
        ∃ b ∈ boxesOf boxesByImage activeUrl,
          normalizeSelection boxesByImage activeUrl activeBoxId = some b.id)
    ∧ ((∃ b ∈ boxesOf boxesByImage activeUrl, strictEqId b.id activeBoxId = true) →
        normalizeSelection boxesByImage activeUrl activeBoxId = activeBoxId)
    ∧ (∀ first rest, boxesOf boxesByImage activeUrl = first :: rest →
        (¬ ∃ b ∈ boxesOf boxesByImage activeUrl, strictEqId b.id activeBoxId = true) →
        normalizeSelection boxesByImage activeUrl activeBoxId = some first.id)
    ∧ (∀ id a : Number, strictEqId id (some a) = true ↔ (id = a ∧ a ≠ Number.nan))
    ∧ (∀ id : Number, strictEqId id none = false) := by
  have hsome : ∀ id a : Number, strictEqId id (some a) = true ↔ (id = a ∧ a ≠ Number.nan) := by
    intro id a
    unfold strictEqId
    rw [Number.strictEq_iff]
    constructor
    · rintro ⟨rfl, h⟩; exact ⟨rfl, h⟩
    · rintro ⟨rfl, h⟩; exact ⟨rfl, h⟩
  refine ⟨?_, ?_, ?_, ?_, hsome, fun _ => rfl⟩
  all_goals
    unfold normalizeSelection boxesOf
    generalize (getKey boxesByImage activeUrl).getD [] = list
  · intro h
    rw [h]
  · intro hne
    cases list with
    | nil => exact absurd rfl hne
    | cons first rest =>
      simp only []
      by_cases hany : ((first :: rest).any fun b => strictEqId b.id activeBoxId) = true
      · rw [if_neg (not_not.2 hany)]
        obtain ⟨b, hb, hid⟩ := List.any_eq_true.1 hany
        cases activeBoxId with
        | none => exact absurd hid (by simp [strictEqId])
        | some a =>
          refine ⟨b, hb, ?_⟩
          rw [((hsome b.id a).1 hid).1]
      · rw [if_pos hany]
        exact ⟨first, List.mem_cons_self _ _, rfl⟩
  · rintro ⟨b, hb, hid⟩
    cases list with
    | nil => simp at hb
    | cons first rest =>
      simp only []
      rw [if_neg (not_not.2 (List.any_eq_true.2 ⟨b, hb, hid⟩))]
  · intro first rest hl hnone
    rw [hl]
    simp only []
    rw [if_pos]
    intro hany
    apply hnone
    obtain ⟨b, hb, hid⟩ := List.any_eq_true.1 hany
    exact ⟨b, hl ▸ hb, hid⟩

/-- Witness for C12: with the two default boxes, an active id 7 that no box has falls back to
the id of the first box, and the active id 2 stays. -/
theorem normalizeSelection_spec_witness :
    normalizeSelection [(lit "/images/1.png", [defaultText 1, defaultText 2])]
        (lit "/images/1.png") (some 7) = some (defaultText 1).id
      ∧ normalizeSelection [(lit "/images/1.png", [defaultText 1, defaultText 2])]
        (lit "/images/1.png") (some 2) = some 2 :=
  ⟨(normalizeSelection_spec [(lit "/images/1.png", [defaultText 1, defaultText 2])]
      (lit "/images/1.png") (some 7)).2.2.2.1 (defaultText 1) [defaultText 2] (by decide!)
      (by decide!),
   (normalizeSelection_spec [(lit "/images/1.png", [defaultText 1, defaultText 2])]
      (lit "/images/1.png") (some 2)).2.2.1 (by decide!)⟩

/-- The value `Math.max` folds to over integer ids, starting from a natural number: a natural
number that bounds the start and every id and is the start or one of the ids. -/
theorem foldl_max_int : ∀ (l : List Number) (m : ℕ),
    (∀ x ∈ l, ∃ z : ℤ, x = Number.fin z) →
    ∃ m' : ℕ, l.foldl Number.max (Number.fin m) = Number.fin m' ∧ m ≤ m'
      ∧ (∀ x ∈ l, ∃ z : ℤ, x = Number.fin z ∧ z ≤ m')
      ∧ (m' = m ∨ Number.fin m' ∈ l) := by
  intro l
  induction l with
  | nil => intro m _; exact ⟨m, rfl, le_refl m, by simp, Or.inl rfl⟩
  | cons y rest ih =>
    intro m hl
    obtain ⟨z, rfl⟩ := hl y (List.mem_cons_self _ _)
    have hrest : ∀ x ∈ rest, ∃ z : ℤ, x = Number.fin z :=
      fun x hx => hl x (List.mem_cons_of_mem _ hx)
    by_cases hlt : (m : ℚ) < (z : ℚ)
    · have hz : (m : ℤ) < z := by exact_mod_cast hlt
      obtain ⟨n, hn⟩ := Int.eq_ofNat_of_zero_le (le_trans (Int.natCast_nonneg m) (le_of_lt hz))
      subst hn
      have hstep : Number.max (Number.fin m) (Number.fin ((n : ℤ) : ℚ)) = Number.fin (n : ℚ) := by
        rw [Int.cast_natCast] at hlt ⊢
        have : Number.lt (Number.fin m) (Number.fin (n : ℚ)) = true := by
          simp only [Number.lt, decide_eq_true_eq]
          exact hlt
        simp only [Number.max, this, if_true]
      obtain ⟨m', h1, h2, h3, h4⟩ := ih n hrest
      have hmn : m ≤ n := by omega
      refine ⟨m', ?_, le_trans hmn h2, ?_, ?_⟩
      · rw [List.foldl_cons, hstep, h1]
      · intro x hx
        rcases List.mem_cons.1 hx with rfl | hx
        · exact ⟨n, rfl, by exact_mod_cast h2⟩
        · exact h3 x hx
      · rcases h4 with h4 | h4
        · right
          rw [h4]
          simp
        · exact Or.inr (List.mem_cons_of_mem _ h4)
    · have hstep : Number.max (Number.fin m) (Number.fin (z : ℚ)) = Number.fin (m : ℚ) := by
        have : Number.lt (Number.fin m) (Number.fin (z : ℚ)) = false := by
          simp only [Number.lt, decide_eq_false_iff_not]
          exact hlt
        simp only [Number.max, this, Bool.false_eq_true, if_false]
      obtain ⟨m', h1, h2, h3, h4⟩ := ih m hrest
      refine ⟨m', ?_, h2, ?_, ?_⟩
      · rw [List.foldl_cons, hstep, h1]
      · intro x hx
        rcases List.mem_cons.1 hx with rfl | hx
        · refine ⟨z, rfl, ?_⟩
          have : (z : ℚ) ≤ m := not_lt.1 hlt
          have : z ≤ (m : ℤ) := by exact_mod_cast this
          omega
        · exact h3 x hx
      · rcases h4 with h4 | h4
        · exact Or.inl h4
        · exact Or.inr (List.mem_cons_of_mem _ h4)

/-- Over integer ids `maxId` is `max(0, ids)`: a natural number that bounds every id and is
`0` or one of the ids. -/
theorem maxId_spec (boxes : List TextBox)
    (hids : ∀ b ∈ boxes, ∃ z : ℤ, b.id = Number.fin z) :
    ∃ m : ℕ, maxId boxes = Number.fin m
      ∧ (∀ b ∈ boxes, ∃ z : ℤ, b.id = Number.fin z ∧ z ≤ m)
      ∧ (m = 0 ∨ ∃ b ∈ boxes, b.id = Number.fin m) := by
  have h0 : (0 : Number) = Number.fin ((0 : ℕ) : ℚ) := by decide!
  obtain ⟨m, h1, -, h3, h4⟩ := foldl_max_int (boxes.map fun b => b.id) 0 (by
    intro x hx
    obtain ⟨b, hb, rfl⟩ := List.mem_map.1 hx
    exact hids b hb)
  refine ⟨m, ?_, ?_, ?_⟩
  · unfold maxId
    rw [h0, h1]
  · intro b hb
    exact h3 b.id (List.mem_map.2 ⟨b, hb, rfl⟩)
  · rcases h4 with h4 | h4
    · exact Or.inl h4
    · obtain ⟨b, hb, hid⟩ := List.mem_map.1 h4
      exact Or.inr ⟨b, hb, hid⟩

/-- C13, amended. `addTextBox` appends exactly one box after the existing boxes, unchanged and
in order; the new box has the text `'NEW TEXT'` and `y = 0.5`, and it becomes the active
box. Its id is `Math.max(0, ...ids) + 1`. For a collection whose ids are integers below
`2^53` that value is `max(0, ids) + 1` exactly, it differs from every existing id, and
pairwise distinct ids stay pairwise distinct. -/
theorem addTextBox_spec (activeUrl : JSString) (prev : BoxesByImage)
    (hids : ∀ b ∈ boxesOf prev activeUrl, ∃ z : ℤ, b.id = Number.fin z ∧ z < 2 ^ 53) :
    boxesOf (addTextBox (boxesOf prev activeUrl) activeUrl prev).1 activeUrl
        = boxesOf prev activeUrl
          ++ [{ defaultText (maxId (boxesOf prev activeUrl) + 1) with
                text := lit "NEW TEXT", y := 0.5 }]
    ∧ (addTextBox (boxesOf prev activeUrl) activeUrl prev).2
        = some (maxId (boxesOf prev activeUrl) + 1)
    ∧ ({ defaultText (maxId (boxesOf prev activeUrl) + 1) with
          text := lit "NEW TEXT", y := 0.5 } : TextBox).id = maxId (boxesOf prev activeUrl) + 1
    ∧ (∃ m : ℕ, maxId (boxesOf prev activeUrl) = Number.fin m
        ∧ (∀ b ∈ boxesOf prev activeUrl, ∃ z : ℤ, b.id = Number.fin z ∧ z ≤ m)
        ∧ (m = 0 ∨ ∃ b ∈ boxesOf prev activeUrl, b.id = Number.fin m)
        ∧ maxId (boxesOf prev activeUrl) + 1 = Number.fin ((m + 1 : ℕ) : ℚ))
    ∧ (∀ b ∈ boxesOf prev activeUrl, b.id ≠ maxId (boxesOf prev activeUrl) + 1)
    ∧ (((boxesOf prev activeUrl).map fun b => b.id).Nodup →
        ((boxesOf (addTextBox (boxesOf prev activeUrl) activeUrl prev).1 activeUrl).map
          fun b => b.id).Nodup)
    ∧ ({ defaultText (maxId (boxesOf prev activeUrl) + 1) with
          text := lit "NEW TEXT", y := 0.5 } : TextBox).text = lit "NEW TEXT"
    ∧ ({ defaultText (maxId (boxesOf prev activeUrl) + 1) with
          text := lit "NEW TEXT", y := 0.5 } : TextBox).y = 0.5 := by
  have happ : boxesOf (addTextBox (boxesOf prev activeUrl) activeUrl prev).1 activeUrl
        = boxesOf prev activeUrl
          ++ [{ defaultText (maxId (boxesOf prev activeUrl) + 1) with
                text := lit "NEW TEXT", y := 0.5 }] := by
    unfold addTextBox
    simp only [boxesOf_setBoxesForActive]
  obtain ⟨m, hm, hle, hmem⟩ := maxId_spec (boxesOf prev activeUrl)
    (fun b hb => (hids b hb).imp fun z hz => hz.1)
  have hm53 : m < 2 ^ 53 := by
    rcases hmem with h0 | ⟨b, hb, hid⟩
    · rw [h0]; norm_num
    · obtain ⟨z, hz, hlt⟩ := hids b hb
      rw [hid] at hz
      injection hz with hz
      have : (m : ℤ) = z := by exact_mod_cast hz
      omega
  have hsucc : maxId (boxesOf prev activeUrl) + 1 = Number.fin ((m + 1 : ℕ) : ℚ) := by
    rw [hm, Number.one_eq, Number.fin_add]
    have e : (m : ℚ) + 1 = ((m + 1 : ℕ) : ℚ) := by push_cast; ring
    rw [e]
    exact Number.round_natCast _ (by omega)
  have hne : ∀ b ∈ boxesOf prev activeUrl, b.id ≠ maxId (boxesOf prev activeUrl) + 1 := by
    intro b hb h
    obtain ⟨z, hz, hzm⟩ := hle b hb
    rw [hsucc, hz] at h
    injection h with h
    have : z = ((m + 1 : ℕ) : ℤ) := by exact_mod_cast h
    omega
  refine ⟨happ, rfl, rfl, ⟨m, hm, hle, hmem, hsucc⟩, hne, ?_, rfl, rfl⟩
  intro hnd
  rw [happ, List.map_append, List.map_cons, List.map_nil]
  refine List.Nodup.append hnd (List.nodup_singleton _) ?_
  intro i hi hi'
  obtain ⟨b, hb, rfl⟩ := List.mem_map.1 hi
  rw [List.mem_singleton] at hi'
  exact hne b hb hi'

/-- Witness for C13: adding a box to the two default boxes gives a third box with id 3. -/
theorem addTextBox_spec_witness :
    ((boxesOf [(lit "/images/1.png", [defaultText 1, defaultText 2])]
        (lit "/images/1.png")).map fun b => b.id) = [1, 2]
      ∧ ((boxesOf (addTextBox
            (boxesOf [(lit "/images/1.png", [defaultText 1, defaultText 2])] (lit "/images/1.png"))
            (lit "/images/1.png")
            [(lit "/images/1.png", [defaultText 1, defaultText 2])]).1 (lit "/images/1.png")).map
          fun b => b.id) = [1, 2, 3]
      ∧ ((boxesOf (addTextBox
            (boxesOf [(lit "/images/1.png", [defaultText 1, defaultText 2])] (lit "/images/1.png"))
            (lit "/images/1.png")
            [(lit "/images/1.png", [defaultText 1, defaultText 2])]).1 (lit "/images/1.png")).map
          fun b => b.id).Nodup :=
  ⟨by decide!, by decide!,
   (addTextBox_spec (lit "/images/1.png")
      [(lit "/images/1.png", [defaultText 1, defaultText 2])]
      (by
        intro b hb
        have hb' : b = defaultText 1 ∨ b = defaultText 2 := by
          have e : boxesOf [(lit "/images/1.png", [defaultText 1, defaultText 2])]
              (lit "/images/1.png") = [defaultText 1, defaultText 2] := by decide!
          rw [e] at hb
          simpa using hb
        rcases hb' with rfl | rfl
        · exact ⟨1, by decide!, by norm_num⟩
        · exact ⟨2, by decide!, by norm_num⟩)).2.2.2.2.2.1 (by decide!)⟩

/-- C13 as stated fails in binary64 arithmetic. For the collection with the ids 1 and
`2^53 = 9007199254740992`, pairwise distinct integers, `Math.max(0, 1, 2^53) + 1` rounds to
`2^53` again, so the new box has the id of an existing box and the ids are no longer
pairwise distinct. -/
theorem addTextBox_duplicates_id :
    (([defaultText 1, { defaultText 2 with id := 9007199254740992 }] : List TextBox).map
        fun b => b.id).Nodup
    ∧ maxId [defaultText 1, { defaultText 2 with id := 9007199254740992 }] + 1
        = 9007199254740992
    ∧ ((boxesOf (addTextBox [defaultText 1, { defaultText 2 with id := 9007199254740992 }]
          (lit "/images/1.png")
          [(lit "/images/1.png",
            [defaultText 1, { defaultText 2 with id := 9007199254740992 }])]).1
          (lit "/images/1.png")).map fun b => b.id)
        = [1, 9007199254740992, 9007199254740992]
    ∧ ¬ ((boxesOf (addTextBox [defaultText 1, { defaultText 2 with id := 9007199254740992 }]
          (lit "/images/1.png")
          [(lit "/images/1.png",
            [defaultText 1, { defaultText 2 with id := 9007199254740992 }])]).1
          (lit "/images/1.png")).map fun b => b.id).Nodup := by
  refine ⟨by decide!, by decide!, by decide!, by decide!⟩

/-- C14. The ensure-defaults step for key `k` and every update through
`setBoxesForActive` with active key `k` leave the collection of every other key as it was.
Ensure-defaults leaves the whole map unchanged when `k` has a non-empty collection, and
changes the collection of `k` only when `k` has none or an empty one, to
`[defaultText(1), defaultText(2)]`, the boxes at `y = 0.08` and `y = 0.92`; an update through
`setBoxesForActive` gives `k` what the updater says. -/
theorem boxesByImage_frame (k : JSString) (prev : BoxesByImage) :
    (∀ k', k' ≠ k → getKey (ensureDefaults k prev) k' = getKey prev k')
    ∧ (∀ (updater : Updater) (k' : JSString), k' ≠ k →
        getKey (setBoxesForActive k updater prev) k' = getKey prev k')
    ∧ (∀ cur, getKey prev k = some cur → cur ≠ [] → ensureDefaults k prev = prev)
    ∧ ((getKey prev k = none ∨ getKey prev k = some []) →
        getKey (ensureDefaults k prev) k = some [defaultText 1, defaultText 2])
    ∧ (getKey (ensureDefaults k prev) k ≠ getKey prev k →
        (getKey prev k = none ∨ getKey prev k = some [])
          ∧ getKey (ensureDefaults k prev) k = some [defaultText 1, defaultText 2])
    ∧ ((defaultText 1).y = 0.08 ∧ (defaultText 2).y = 0.92)
    ∧ (∀ updater : Updater, getKey (setBoxesForActive k updater prev) k
        = some (match updater with
            | Updater.fn f => f (boxesOf prev k)
            | Updater.value v => v)) := by
  have hkeep : ∀ cur, getKey prev k = some cur → cur ≠ [] → ensureDefaults k prev = prev := by
    intro cur hcur hne
    unfold ensureDefaults
    rw [hcur]
    simp only []
    rw [if_pos]
    intro h
    exact hne (List.length_eq_zero.1 h)
  have hset : (getKey prev k = none ∨ getKey prev k = some []) →
      getKey (ensureDefaults k prev) k = some [defaultText 1, defaultText 2] := by
    intro h
    unfold ensureDefaults
    rcases h with h | h
    · rw [h]
      exact getKey_setKey_self _ _ _
    · rw [h]
      simp only [List.length_nil, ne_eq, not_true_eq_false, if_false]
      exact getKey_setKey_self _ _ _
  have hcases : (getKey prev k = none ∨ getKey prev k = some [])
      ∨ ∃ cur, getKey prev k = some cur ∧ cur ≠ [] := by
    cases h : getKey prev k with
    | none => exact Or.inl (Or.inl rfl)
    | some cur =>
      cases cur with
      | nil => exact Or.inl (Or.inr rfl)
      | cons b bs => exact Or.inr ⟨b :: bs, rfl, List.cons_ne_nil _ _⟩
  refine ⟨?_, ?_, hkeep, hset, ?_, ⟨by decide!, by decide!⟩, ?_⟩
  · intro k' hne
    rcases hcases with h | ⟨cur, hcur, hcne⟩
    · unfold ensureDefaults
      rcases h with h | h
      · rw [h]
        exact getKey_setKey_of_ne _ _ _ _ hne
      · rw [h]
        simp only [List.length_nil, ne_eq, not_true_eq_false, if_false]
        exact getKey_setKey_of_ne _ _ _ _ hne
    · rw [hkeep cur hcur hcne]
  · intro updater k' hne
    unfold setBoxesForActive
    exact getKey_setKey_of_ne _ _ _ _ hne
  · intro hchg
    rcases hcases with h | ⟨cur, hcur, hcne⟩
    · exact ⟨h, hset h⟩
    · rw [hkeep cur hcur hcne] at hchg
      exact absurd rfl hchg
  · intro updater
    cases updater <;> simp [setBoxesForActive, boxesOf, getKey_setKey_self]

/-- Witness for C14: switching to the second template, which has no collection yet, seeds it
with the two default boxes and leaves the collection of the first template alone; on a map
where the first template has a box, ensure-defaults for it changes nothing. -/
theorem boxesByImage_frame_witness :
    getKey (ensureDefaults (lit "/images/2.png") [(lit "/images/1.png", [defaultText 1])])
        (lit "/images/1.png")
          = getKey [(lit "/images/1.png", [defaultText 1])] (lit "/images/1.png")
      ∧ getKey (ensureDefaults (lit "/images/2.png") [(lit "/images/1.png", [defaultText 1])])
        (lit "/images/2.png") = some [defaultText 1, defaultText 2]
      ∧ ensureDefaults (lit "/images/1.png") [(lit "/images/1.png", [defaultText 1])]
          = [(lit "/images/1.png", [defaultText 1])] :=
  ⟨(boxesByImage_frame (lit "/images/2.png") [(lit "/images/1.png", [defaultText 1])]).1
      (lit "/images/1.png") (by decide),
   (boxesByImage_frame (lit "/images/2.png") [(lit "/images/1.png", [defaultText 1])]).2.2.2.1
      (Or.inl (by decide!)),
   (boxesByImage_frame (lit "/images/1.png") [(lit "/images/1.png", [defaultText 1])]).2.2.1
      [defaultText 1] (by decide!) (by decide)⟩

end MemeApp
